import Mathlib

/-!
# Verification of the dynamic-voxel-visualizer streaming render engine

Shallow embedding of the core engine (`ThreeManager` in
`src/components/VoxelCanvas/three-manager.ts`): the spatial chunk index,
per-(state, LOD) slot allocator, LOD classifier, deduplicating frame-budgeted
update queue, periodic housekeeping and the `updateVoxels` ingestion contract.

Modelling conventions:
* Voxel coordinates are integers (the spec's `VoxelKey` is "a canonical
  string/tuple derived from integer coordinates"); a key is modelled as the
  coordinate triple itself, mirroring the feed's `"x,y,z"` string keys.
* The source compares Euclidean (floating point) distances against constant
  thresholds; for integer points `dist < T` is equivalent to
  `distSq < T^2`, so the model compares squared distances.
* JavaScript `Map`s are modelled as insertion-ordered association lists
  (`set` replaces in place, otherwise appends; `delete` removes the entry),
  and JavaScript `Set`s as insertion-ordered duplicate-free lists.
* The free-list `availableIndices` is used by the source purely as a stack
  (`push`/`pop` at the array end); the model's list head corresponds to the
  JavaScript array end.
* Purely render-side effects (writing instance matrices, point-geometry
  buffers, `needsRender` flags, camera interpolation, scene-graph objects)
  have no bearing on the allocator/queue/record state and are outside the
  model; the `count` field of an instanced mesh *is* modelled because the
  allocator reads and writes it.
* `performance.now()` is modelled as an explicit clock: a function from the
  index of the query to the millisecond reading at that query.
-/

namespace DVV

/-- The six semantic voxel states of `VoxelState` in `useVoxelStream.ts`. -/
inductive VoxelState where
  | WALKABLE
  | PASSABLE
  | WALL
  | UNKNOWN
  | CURRENT_POSITION
  | CURRENT_TARGET
deriving DecidableEq, Repr

/-- The four LOD tiers (`enum LODLevel`). -/
inductive LODLevel where
  | HIGH
  | MEDIUM
  | LOW
  | CULLED
deriving DecidableEq, Repr

/-- `VoxelData` from `useVoxelStream.ts`: a position and a state. -/
structure VoxelData where
  x : Int
  y : Int
  z : Int
  state : VoxelState
deriving DecidableEq, Repr

/-- A voxel key: the canonical coordinate triple behind the `"x,y,z"` string. -/
abbrev VoxelKey := Int × Int × Int

/-- A chunk key: the floor-divided chunk coordinate triple. -/
abbrev ChunkKey := Int × Int × Int

/-- Camera position (integer point; see the distance-squared convention). -/
abbrev Cam := Int × Int × Int

def CHUNK_SIZE : Int := 16
def MAX_INSTANCES_PER_CHUNK : Nat := 4096
def BATCH_SIZE : Nat := 300
def FRAME_BUDGET_MS : Nat := 14
def MAX_QUEUE_SIZE : Nat := 1000
def MAX_TOTAL_VOXELS : Nat := 8000
def CLEANUP_INTERVAL_MS : Nat := 5000

/-- The three ascending LOD thresholds `LOD_DISTANCES = [225, 600, 1200]`. -/
def LOD_DISTANCES : List Int := [225, 600, 1200]

/-- `CLEANUP_DISTANCE = 2000`. -/
def CLEANUP_DISTANCE : Int := 2000

/-- Squared Euclidean distance from the camera to a point. -/
def distSq (cam : Cam) (x y z : Int) : Int :=
  (x - cam.1) * (x - cam.1) + (y - cam.2.1) * (y - cam.2.1) +
    (z - cam.2.2) * (z - cam.2.2)

/-- Squared distance from the camera to the coordinates parsed from a key
(`key.split(',').map(Number)` in the source). -/
def keyDistSq (cam : Cam) (k : VoxelKey) : Int :=
  distSq cam k.1 k.2.1 k.2.2

/-- The two critical states, exempt from culling and eviction. -/
def isCritical (s : VoxelState) : Bool :=
  match s with
  | .CURRENT_POSITION => true
  | .CURRENT_TARGET => true
  | _ => false

/-- `calculateLODLevel`: critical states are always HIGH; otherwise the
camera distance is compared against the three thresholds. -/
def calculateLODLevel (cam : Cam) (v : VoxelData) : LODLevel :=
  if isCritical v.state then .HIGH
  else
    let d := distSq cam v.x v.y v.z
    if d < 225 * 225 then .HIGH
    else if d < 600 * 600 then .MEDIUM
    else if d < 1200 * 1200 then .LOW
    else .CULLED

/-- `shouldCullVoxel`: true exactly when the classifier says CULLED. -/
def shouldCullVoxel (cam : Cam) (v : VoxelData) : Bool :=
  calculateLODLevel cam v = .CULLED

/-! ## Insertion-ordered association lists (JavaScript `Map`) -/

/-- JavaScript `Map` as an insertion-ordered association list. -/
abbrev JSMap (α β : Type) := List (α × β)

/-- `Map.get`. -/
def mapGet {α β : Type} [DecidableEq α] : JSMap α β → α → Option β
  | [], _ => none
  | (k', v) :: rest, k => if k' = k then some v else mapGet rest k

/-- `Map.set`: replaces in place if the key exists, else appends. -/
def mapSet {α β : Type} [DecidableEq α] : JSMap α β → α → β → JSMap α β
  | [], k, v => [(k, v)]
  | (k', v') :: rest, k, v =>
      if k' = k then (k, v) :: rest else (k', v') :: mapSet rest k v

/-- `Map.delete`: removes the entry for the key. -/
def mapDelete {α β : Type} [DecidableEq α] : JSMap α β → α → JSMap α β
  | [], _ => []
  | (k', v') :: rest, k =>
      if k' = k then rest else (k', v') :: mapDelete rest k

/-- Insertion-ordered `Set.add` on a duplicate-free list. -/
def setAdd {α : Type} [DecidableEq α] (s : List α) (x : α) : List α :=
  if x ∈ s then s else s ++ [x]

/-- `Set.delete`. -/
def setDelete {α : Type} [DecidableEq α] (s : List α) (x : α) : List α :=
  s.filter (fun y => y ≠ x)

/-! ## Chunks and the slot allocator -/

/-- One (state, LOD) bucket of a chunk: its free-list stack, high-water mark
`nextInstanceIndex`, and the instanced mesh's reported `count`. -/
structure Bucket where
  availableIndices : List Nat
  nextInstanceIndex : Nat
  count : Nat
deriving DecidableEq, Repr

def Bucket.initial : Bucket := ⟨[], 0, 0⟩

/-- A live per-voxel record (`voxelInstances` map values). -/
structure VoxelInstance where
  state : VoxelState
  instanceIndex : Nat
  lodLevel : LODLevel
deriving DecidableEq, Repr

/-- A `VoxelChunk`: its key→record map and one bucket per (state, LOD). -/
structure VoxelChunk where
  voxelInstances : JSMap VoxelKey VoxelInstance
  buckets : VoxelState → LODLevel → Bucket

/-- A freshly created chunk: empty map, all buckets initial. -/
def emptyChunk : VoxelChunk :=
  { voxelInstances := [], buckets := fun _ _ => Bucket.initial }

/-- Point update of the bucket table. -/
def updateBucket (f : VoxelState → LODLevel → Bucket) (s : VoxelState)
    (l : LODLevel) (b : Bucket) : VoxelState → LODLevel → Bucket :=
  fun s' l' => if s' = s ∧ l' = l then b else f s' l'

/-- `getChunkCoords`: floor division of each coordinate by `CHUNK_SIZE`. -/
def getChunkCoords (x y z : Int) : ChunkKey :=
  (x.fdiv CHUNK_SIZE, y.fdiv CHUNK_SIZE, z.fdiv CHUNK_SIZE)

/-- The chunk key belonging to a voxel key's coordinates. -/
def chunkOfKey (k : VoxelKey) : ChunkKey :=
  getChunkCoords k.1 k.2.1 k.2.2

/-- `getAvailableInstanceIndex`: pop a recycled index from the free-list if
any, else grow `count` if needed and take the next fresh index. Returns the
index together with the updated chunk. -/
def getAvailableInstanceIndex (c : VoxelChunk) (s : VoxelState)
    (l : LODLevel) : Nat × VoxelChunk :=
  let b := c.buckets s l
  match b.availableIndices with
  | i :: rest =>
      let b' := { b with availableIndices := rest }
      (i, { c with buckets := updateBucket c.buckets s l b' })
  | [] =>
      let newCount := if b.nextInstanceIndex ≥ b.count
        then b.nextInstanceIndex + 1 else b.count
      let b' := { b with count := newCount,
                         nextInstanceIndex := b.nextInstanceIndex + 1 }
      (b.nextInstanceIndex,
        { c with buckets := updateBucket c.buckets s l b' })

/-- `releaseInstanceIndex`: hide the slot (render-side) and push the index
onto the free-list. -/
def releaseInstanceIndex (c : VoxelChunk) (s : VoxelState) (l : LODLevel)
    (i : Nat) : VoxelChunk :=
  let b := c.buckets s l
  let b' := { b with availableIndices := i :: b.availableIndices }
  { c with buckets := updateBucket c.buckets s l b' }

/-! ## Engine state -/

/-- The engine state: the parts of `ThreeManager` that the chunk index,
allocator, scheduler and housekeeping read or write. -/
structure Engine where
  chunks : JSMap ChunkKey VoxelChunk
  currentPositionKey : Option VoxelKey
  currentTargetKey : Option VoxelKey
  cameraFollowTarget : Int × Int × Int
  isFollowingEnabled : Bool
  voxelUpdateQueue : List (VoxelKey × Option VoxelData)
  queuedKeys : List VoxelKey
  lastCleanupTime : Nat

/-- The engine right after construction. -/
def initialEngine : Engine :=
  { chunks := []
    currentPositionKey := none
    currentTargetKey := none
    cameraFollowTarget := (0, 0, 0)
    isFollowingEnabled := true
    voxelUpdateQueue := []
    queuedKeys := []
    lastCleanupTime := 0 }

/-- The record stored for a key in a given chunk, if any. -/
def instAt (e : Engine) (ck : ChunkKey) (k : VoxelKey) : Option VoxelInstance :=
  match mapGet e.chunks ck with
  | some c => mapGet c.voxelInstances k
  | none => none

/-- Total live voxel count (`getTotalVoxelCount`). -/
def getTotalVoxelCount (e : Engine) : Nat :=
  (e.chunks.map (fun p => p.2.voxelInstances.length)).sum

/-- `getOrCreateChunk`, returning the chunk and the engine with the chunk
present in the index. -/
def getOrCreateChunk (e : Engine) (ck : ChunkKey) : VoxelChunk × Engine :=
  match mapGet e.chunks ck with
  | some c => (c, e)
  | none => (emptyChunk, { e with chunks := mapSet e.chunks ck emptyChunk })

/-- Release a key's slot and delete its record in one chunk; no-op when the
key is absent (the removal body shared by the null-update path and
`performPeriodicCleanup`). -/
def removeKeyFromChunk (k : VoxelKey) (c : VoxelChunk) : VoxelChunk :=
  match mapGet c.voxelInstances k with
  | some inst =>
      let c1 := releaseInstanceIndex c inst.state inst.lodLevel inst.instanceIndex
      { c1 with voxelInstances := mapDelete c1.voxelInstances k }
  | none => c

/-- The add/update part of `processVoxelUpdate` acting on the owning chunk:
same (state, LOD) refreshes the transform only; otherwise release the old
slot, acquire one in the new bucket, and replace the record. -/
def upsertIntoChunk (vd : VoxelData) (lod : LODLevel) (k : VoxelKey)
    (c : VoxelChunk) : VoxelChunk :=
  match mapGet c.voxelInstances k with
  | some inst =>
      if inst.state ≠ vd.state ∨ inst.lodLevel ≠ lod then
        let c1 := releaseInstanceIndex c inst.state inst.lodLevel inst.instanceIndex
        let r := getAvailableInstanceIndex c1 vd.state lod
        let m' := mapSet r.2.voxelInstances k ⟨vd.state, r.1, lod⟩
        { r.2 with voxelInstances := m' }
      else c
  | none =>
      let r := getAvailableInstanceIndex c vd.state lod
      let m' := mapSet r.2.voxelInstances k ⟨vd.state, r.1, lod⟩
      { r.2 with voxelInstances := m' }

/-- `processVoxelUpdate`: null deletes the key from every chunk; otherwise
classify, skip if CULLED, upsert into the owning chunk, then record
current-position / current-target tracking. -/
def processVoxelUpdate (cam : Cam) (e : Engine) (k : VoxelKey) :
    Option VoxelData → Engine
  | none =>
      { e with chunks := e.chunks.map (fun p => (p.1, removeKeyFromChunk k p.2)) }
  | some vd =>
      let lod := calculateLODLevel cam vd
      if lod = .CULLED then e
      else
        let ck := getChunkCoords vd.x vd.y vd.z
        let pair := getOrCreateChunk e ck
        let c' := upsertIntoChunk vd lod k pair.1
        let e2 := { pair.2 with chunks := mapSet pair.2.chunks ck c' }
        let e3 :=
          if vd.state = .CURRENT_POSITION then
            { e2 with currentPositionKey := some k,
                      cameraFollowTarget :=
                        if e2.isFollowingEnabled then (vd.x, vd.y, vd.z)
                        else e2.cameraFollowTarget }
          else e2
        if vd.state = .CURRENT_TARGET then
          { e3 with currentTargetKey := some k }
        else e3

end DVV

namespace DVV

/-! ## Update scheduler (batch queue) -/

/-- The keys of the pending entries, in queue order. -/
def queueKeys (q : List (VoxelKey × Option VoxelData)) : List VoxelKey :=
  q.map Prod.fst

/-- Replace the pending entry for a key in place (the
`findIndex`-then-assign branch of `addToQueue`); unchanged when the key has
no entry. -/
def replaceInQueue : List (VoxelKey × Option VoxelData) → VoxelKey →
    Option VoxelData → List (VoxelKey × Option VoxelData)
  | [], _, _ => []
  | (k', v') :: rest, k, v =>
      if k' = k then (k, v) :: rest
      else (k', v') :: replaceInQueue rest k v

/-- Delete the key of every listed entry from the deduplication set
(`toRemove.forEach(item => this.queuedKeys.delete(item.key))`). -/
def setDeleteAll (s : List VoxelKey)
    (items : List (VoxelKey × Option VoxelData)) : List VoxelKey :=
  items.foldl (fun acc it => setDelete acc it.1) s

/-- `addToQueue`: dedup by key (replace in place); on overflow
(`length ≥ MAX_QUEUE_SIZE`) evict the 200 oldest entries in bulk;
then append and record the key. -/
def addToQueue (e : Engine) (k : VoxelKey) (vd : Option VoxelData) : Engine :=
  if k ∈ e.queuedKeys then
    { e with voxelUpdateQueue := replaceInQueue e.voxelUpdateQueue k vd }
  else
    let e1 :=
      if e.voxelUpdateQueue.length ≥ MAX_QUEUE_SIZE then
        { e with voxelUpdateQueue := e.voxelUpdateQueue.drop 200,
                 queuedKeys := setDeleteAll e.queuedKeys (e.voxelUpdateQueue.take 200) }
      else e
    { e1 with voxelUpdateQueue := e1.voxelUpdateQueue ++ [(k, vd)],
              queuedKeys := setAdd e1.queuedKeys k }

/-- `performance.now()` as a clock: reading of the n-th query of the
current drain pass. -/
abbrev Clock := Nat → Nat

/-- Result of a drain pass, with two ghost observers for specification:
the entries processed (in order) and, per processed entry, the clock
reading of the budget check that admitted it. -/
structure DrainResult where
  engine : Engine
  pc : Nat
  tick : Nat
  items : List (VoxelKey × Option VoxelData)
  reads : List Nat

/-- Inner loop of `processBatchedVoxelUpdates`: pop while the queue is
nonempty, the batch size is not reached, and the elapsed time is under
budget. `fuel` (instantiated with the queue length) only ensures
termination; it never runs out before the queue does. -/
def drainInner (cam : Cam) (clock : Clock) (start budget batch : Nat) :
    Nat → Engine → Nat → Nat → DrainResult
  | 0, e, pc, t => ⟨e, pc, t, [], []⟩
  | fuel + 1, e, pc, t =>
    match e.voxelUpdateQueue with
    | [] => ⟨e, pc, t, [], []⟩
    | (k, vd) :: rest =>
      if pc < batch then
        if clock t - start < budget then
          let e1 := { e with voxelUpdateQueue := rest,
                             queuedKeys := setDelete e.queuedKeys k }
          let e2 := processVoxelUpdate cam e1 k vd
          let r := drainInner cam clock start budget batch fuel e2 (pc + 1) (t + 1)
          ⟨r.engine, r.pc, r.tick, (k, vd) :: r.items, clock t :: r.reads⟩
        else ⟨e, pc, t, [], []⟩
      else ⟨e, pc, t, [], []⟩

/-- Outer loop of `processBatchedVoxelUpdates`: repeat inner batches while
time remains, stopping when a batch processes nothing. -/
def drainOuter (cam : Cam) (clock : Clock) (start budget batch : Nat) :
    Nat → Engine → Nat → DrainResult
  | 0, e, t => ⟨e, 0, t, [], []⟩
  | fuel + 1, e, t =>
    if clock t - start < budget then
      let r := drainInner cam clock start budget batch
        e.voxelUpdateQueue.length e 0 (t + 1)
      if r.pc = 0 then ⟨r.engine, 0, r.tick, r.items, r.reads⟩
      else
        let r2 := drainOuter cam clock start budget batch fuel r.engine r.tick
        ⟨r2.engine, r.pc + r2.pc, r2.tick, r.items ++ r2.items, r.reads ++ r2.reads⟩
    else ⟨e, 0, t, [], []⟩

/-- `cleanupEmptyChunks`: drop every chunk with zero live voxels. -/
def cleanupEmptyChunks (e : Engine) : Engine :=
  { e with chunks := e.chunks.filter (fun p => !p.2.voxelInstances.isEmpty) }

/-- `MAX_QUEUE_SIZE * 0.8`. -/
def OVERLOAD_THRESHOLD : Nat := 800

/-- `FRAME_BUDGET_MS * 1.5`. -/
def OVERLOAD_BUDGET_MS : Nat := 21

/-- `processBatchedVoxelUpdates`: no-op on an empty queue; otherwise pick
the (possibly overloaded) batch size and budget, drain, and prune empty
chunks when anything was processed. The single-threaded `isProcessingBatch`
reentrancy latch is always false at entry and is omitted. -/
def processBatchedVoxelUpdates (cam : Cam) (clock : Clock) (e : Engine) :
    DrainResult :=
  if e.voxelUpdateQueue.isEmpty then ⟨e, 0, 0, [], []⟩
  else
    let overloaded := e.voxelUpdateQueue.length > OVERLOAD_THRESHOLD
    let batch := if overloaded then BATCH_SIZE * 2 else BATCH_SIZE
    let budget := if overloaded then OVERLOAD_BUDGET_MS else FRAME_BUDGET_MS
    let start := clock 0
    let r := drainOuter cam clock start budget batch
      (e.voxelUpdateQueue.length + 1) e 1
    let e' := if r.pc > 0 then cleanupEmptyChunks r.engine else r.engine
    ⟨e', r.pc, r.tick, r.items, r.reads⟩

/-! ## Housekeeping -/

/-- The (chunk, key) pairs `performPeriodicCleanup` collects: non-critical
records farther from the camera than `CLEANUP_DISTANCE`. -/
def cleanupTargets (cam : Cam) (e : Engine) : List (ChunkKey × VoxelKey) :=
  e.chunks.flatMap (fun p =>
    ((p.2.voxelInstances.filter (fun q =>
        !isCritical q.2.state &&
          decide (keyDistSq cam q.1 > CLEANUP_DISTANCE * CLEANUP_DISTANCE))).map
      (fun q => (p.1, q.1))))

/-- Remove one collected (chunk, key) pair, re-fetching the record as the
source's removal loop does. -/
def removeTarget (e : Engine) (t : ChunkKey × VoxelKey) : Engine :=
  match mapGet e.chunks t.1 with
  | some c => { e with chunks := mapSet e.chunks t.1 (removeKeyFromChunk t.2 c) }
  | none => e

/-- `performPeriodicCleanup`: time-gated staleness eviction of distant
non-critical voxels, followed by empty-chunk pruning when anything was
removed. -/
def performPeriodicCleanup (cam : Cam) (now : Nat) (e : Engine) : Engine :=
  if now - e.lastCleanupTime < CLEANUP_INTERVAL_MS then e
  else
    let e0 := { e with lastCleanupTime := now }
    let ts := cleanupTargets cam e0
    let e1 := ts.foldl removeTarget e0
    if ts.isEmpty then e1 else cleanupEmptyChunks e1

/-- The candidates `enforceVoxelLimit` collects: every non-critical record
with its chunk and captured instance. -/
def enforceTargets (e : Engine) : List (ChunkKey × VoxelKey × VoxelInstance) :=
  e.chunks.flatMap (fun p =>
    ((p.2.voxelInstances.filter (fun q => !isCritical q.2.state)).map
      (fun q => (p.1, q.1, q.2))))

/-- Stable insertion step for a descending sort by an integer measure:
walk past every element at least as large, so earlier equal elements stay
first. -/
def insertDescBy {α : Type} (f : α → Int) (x : α) : List α → List α
  | [] => [x]
  | y :: ys => if f y ≥ f x then y :: insertDescBy f x ys else x :: y :: ys

/-- Stable descending sort by an integer measure, matching the stable
JavaScript `sort((a, b) => b.distance - a.distance)`. -/
def sortDescBy {α : Type} (f : α → Int) (l : List α) : List α :=
  l.foldl (fun acc x => insertDescBy f x acc) []

/-- Evict one collected candidate, releasing the instance captured at
collection time (as the source's `toRemove.forEach` destructuring does). -/
def evictCaptured (c : VoxelChunk) (k : VoxelKey) (inst : VoxelInstance) :
    VoxelChunk :=
  let c1 := releaseInstanceIndex c inst.state inst.lodLevel inst.instanceIndex
  { c1 with voxelInstances := mapDelete c1.voxelInstances k }

def evictOne (e : Engine) (t : ChunkKey × VoxelKey × VoxelInstance) : Engine :=
  match mapGet e.chunks t.1 with
  | some c => { e with chunks := mapSet e.chunks t.1 (evictCaptured c t.2.1 t.2.2) }
  | none => e

/-- `enforceVoxelLimit`: when over `MAX_TOTAL_VOXELS`, sort the non-critical
records farthest-first and evict the excess, then prune empty chunks. -/
def enforceVoxelLimit (cam : Cam) (e : Engine) : Engine :=
  let total := getTotalVoxelCount e
  if total ≤ MAX_TOTAL_VOXELS then e
  else
    let excess := total - MAX_TOTAL_VOXELS
    let sorted := sortDescBy (fun t => keyDistSq cam t.2.1) (enforceTargets e)
    let toRemove := sorted.take (min excess sorted.length)
    let e1 := toRemove.foldl evictOne e
    if toRemove.isEmpty then e1 else cleanupEmptyChunks e1

/-! ## Ingestion (`updateVoxels`) and disposal -/

/-- The engine's current live key set, built in chunk-then-insertion order
as the source's `currentKeys` set is. -/
def currentKeysOf (e : Engine) : List VoxelKey :=
  (e.chunks.flatMap (fun p => p.2.voxelInstances.map Prod.fst)).foldl setAdd []

/-- `updateVoxels` (the `applyChanges` contract): queue a deletion for every
live key absent from the map, then walk the map — critical entries are
processed synchronously, distance-culled entries are skipped, the rest are
queued. First-voxel auto-centering is camera-side and outside the model. -/
def updateVoxels (cam : Cam) (e : Engine) (m : JSMap VoxelKey VoxelData) :
    Engine :=
  let e1 := (currentKeysOf e).foldl
    (fun acc k => if mapGet m k = none then addToQueue acc k none else acc) e
  m.foldl
    (fun acc p =>
      if isCritical p.2.state then processVoxelUpdate cam acc p.1 (some p.2)
      else if shouldCullVoxel cam p.2 then acc
      else addToQueue acc p.1 (some p.2)) e1

/-- `dispose`: drop all queued updates, clear every chunk and the index.
(The animation-frame handle, listeners and GPU resources are render-side.) -/
def dispose (e : Engine) : Engine :=
  { e with voxelUpdateQueue := [], queuedKeys := [], chunks := [] }

/-! ## Reachability -/

/-- One public or frame-loop operation of the engine. The camera and clock
are free in each step: the render loop may move the camera arbitrarily
between operations. -/
inductive Step : Engine → Engine → Prop where
  | processUpdate (cam : Cam) (k : VoxelKey) (vd : Option VoxelData) (e : Engine) :
      Step e (processVoxelUpdate cam e k vd)
  | enqueue (k : VoxelKey) (vd : Option VoxelData) (e : Engine) :
      Step e (addToQueue e k vd)
  | drain (cam : Cam) (clock : Clock) (e : Engine) :
      Step e (processBatchedVoxelUpdates cam clock e).engine
  | applyChanges (cam : Cam) (m : JSMap VoxelKey VoxelData) (e : Engine) :
      Step e (updateVoxels cam e m)
  | cleanup (cam : Cam) (now : Nat) (e : Engine) :
      Step e (performPeriodicCleanup cam now e)
  | enforce (cam : Cam) (e : Engine) :
      Step e (enforceVoxelLimit cam e)
  | pruneEmpty (e : Engine) :
      Step e (cleanupEmptyChunks e)
  | shutdown (e : Engine) :
      Step e (dispose e)

/-- Engine states reachable from construction by engine operations. -/
inductive Reachable : Engine → Prop where
  | init : Reachable initialEngine
  | step {e e' : Engine} : Reachable e → Step e e' → Reachable e'

end DVV


namespace DVV

/-! ## Association-list map lemmas -/

/-- The keys of a map, in insertion order. -/
def keysOf {α β : Type} (m : JSMap α β) : List α := m.map Prod.fst

theorem mem_keysOf_cons {α β : Type} {a : α} {b : β} {tl : List (α × β)}
    {k : α} : k ∈ keysOf ((a, b) :: tl) ↔ k = a ∨ k ∈ keysOf tl := by
  simp [keysOf]

theorem keysOf_nil {α β : Type} : keysOf ([] : JSMap α β) = [] := rfl

theorem mapGet_mapSet {α β : Type} [DecidableEq α] (m : JSMap α β)
    (k k' : α) (v : β) :
    mapGet (mapSet m k v) k' = if k = k' then some v else mapGet m k' := by
  induction m with
  | nil =>
    by_cases h : k = k' <;> simp [mapSet, mapGet, h]
  | cons p tl ih =>
    obtain ⟨a, b⟩ := p
    by_cases hak : a = k
    · subst hak
      by_cases hk : a = k' <;> simp [mapSet, mapGet, hk]
    · by_cases hk : a = k'
      · subst hk
        have hka : ¬k = a := fun h => hak h.symm
        simp [mapSet, mapGet, hak, hka]
      · simp [mapSet, mapGet, hak, hk, ih]

theorem mapGet_eq_none_iff {α β : Type} [DecidableEq α] (m : JSMap α β)
    (k : α) : mapGet m k = none ↔ k ∉ keysOf m := by
  induction m with
  | nil => simp [mapGet, keysOf]
  | cons p tl ih =>
    obtain ⟨a, b⟩ := p
    by_cases h : a = k
    · subst h
      simp [mapGet, mem_keysOf_cons]
    · have hka : ¬k = a := fun hh => h hh.symm
      have hg : mapGet ((a, b) :: tl) k = mapGet tl k := by simp [mapGet, h]
      rw [hg, ih]
      constructor
      · intro hnm hmem
        rcases mem_keysOf_cons.mp hmem with h1 | h2
        · exact hka h1
        · exact hnm h2
      · intro hnm hmem
        exact hnm (mem_keysOf_cons.mpr (Or.inr hmem))

theorem mapGet_isSome_iff {α β : Type} [DecidableEq α] (m : JSMap α β)
    (k : α) : (mapGet m k).isSome ↔ k ∈ keysOf m := by
  rcases h : mapGet m k with _ | v
  · simpa [h] using (mapGet_eq_none_iff m k).mp h
  · simp only [Option.isSome_some, true_iff]
    by_contra hmem
    have := (mapGet_eq_none_iff m k).mpr hmem
    rw [h] at this
    exact Option.noConfusion this

theorem keysOf_mapSet_of_mem {α β : Type} [DecidableEq α] (m : JSMap α β)
    (k : α) (v : β) (h : k ∈ keysOf m) :
    keysOf (mapSet m k v) = keysOf m := by
  induction m with
  | nil => simp [keysOf] at h
  | cons p tl ih =>
    obtain ⟨a, b⟩ := p
    by_cases hak : a = k
    · subst hak; simp [mapSet, keysOf]
    · have htl : k ∈ keysOf tl := by
        rcases mem_keysOf_cons.mp h with h1 | h2
        · exact absurd h1.symm hak
        · exact h2
      simp only [mapSet, if_neg hak, keysOf, List.map_cons]
      have := ih htl
      simp only [keysOf] at this
      rw [this]

theorem keysOf_mapSet_of_not_mem {α β : Type} [DecidableEq α] (m : JSMap α β)
    (k : α) (v : β) (h : k ∉ keysOf m) :
    keysOf (mapSet m k v) = keysOf m ++ [k] := by
  induction m with
  | nil => simp [mapSet, keysOf]
  | cons p tl ih =>
    obtain ⟨a, b⟩ := p
    have hak : a ≠ k := by
      intro hh; exact h (mem_keysOf_cons.mpr (Or.inl hh.symm))
    have htl : k ∉ keysOf tl := fun hh => h (mem_keysOf_cons.mpr (Or.inr hh))
    simp only [mapSet, if_neg hak, keysOf, List.map_cons, List.cons_append]
    have := ih htl
    simp only [keysOf] at this
    rw [this]

theorem nodup_keysOf_mapSet {α β : Type} [DecidableEq α] (m : JSMap α β)
    (k : α) (v : β) (h : (keysOf m).Nodup) :
    (keysOf (mapSet m k v)).Nodup := by
  by_cases hmem : k ∈ keysOf m
  · rwa [keysOf_mapSet_of_mem m k v hmem]
  · rw [keysOf_mapSet_of_not_mem m k v hmem]
    refine List.Nodup.append h (by simp) ?_
    intro x hx hx'
    simp only [List.mem_singleton] at hx'
    subst hx'
    exact hmem hx

theorem keysOf_mapDelete_sublist {α β : Type} [DecidableEq α]
    (m : JSMap α β) (k : α) :
    (keysOf (mapDelete m k)).Sublist (keysOf m) := by
  induction m with
  | nil => simp [mapDelete, keysOf]
  | cons p tl ih =>
    obtain ⟨a, b⟩ := p
    by_cases hak : a = k
    · simp only [mapDelete, if_pos hak, keysOf, List.map_cons]
      exact List.sublist_cons_self _ _
    · simp only [mapDelete, if_neg hak, keysOf, List.map_cons]
      exact List.Sublist.cons₂ a ih

theorem nodup_keysOf_mapDelete {α β : Type} [DecidableEq α]
    (m : JSMap α β) (k : α) (h : (keysOf m).Nodup) :
    (keysOf (mapDelete m k)).Nodup :=
  (keysOf_mapDelete_sublist m k).nodup h

theorem mapGet_mapDelete {α β : Type} [DecidableEq α] (m : JSMap α β)
    (k k' : α) (h : (keysOf m).Nodup) :
    mapGet (mapDelete m k) k' = if k = k' then none else mapGet m k' := by
  induction m with
  | nil => by_cases hk : k = k' <;> simp [mapDelete, mapGet, hk]
  | cons p tl ih =>
    obtain ⟨a, b⟩ := p
    have hck : keysOf ((a, b) :: tl) = a :: keysOf tl := rfl
    rw [hck] at h
    have hcons := List.nodup_cons.mp h
    have htl : (keysOf tl).Nodup := hcons.2
    have hnotin : a ∉ keysOf tl := hcons.1
    by_cases hak : a = k
    · subst hak
      by_cases hk : a = k'
      · subst hk
        simp [mapDelete, mapGet, (mapGet_eq_none_iff tl a).mpr hnotin]
      · simp [mapDelete, mapGet, hk]
    · by_cases hak2 : a = k'
      · subst hak2
        have hk : ¬k = a := fun hh => hak hh.symm
        simp [mapDelete, mapGet, hak, hk]
      · simp [mapDelete, mapGet, hak, hak2, ih htl]

theorem mapGet_eq_some_of_mem {α β : Type} [DecidableEq α] {m : JSMap α β}
    {k : α} {v : β} (h : (keysOf m).Nodup) (hm : (k, v) ∈ m) :
    mapGet m k = some v := by
  induction m with
  | nil => simp at hm
  | cons p tl ih =>
    obtain ⟨a, b⟩ := p
    have hck : keysOf ((a, b) :: tl) = a :: keysOf tl := rfl
    rw [hck] at h
    have hcons := List.nodup_cons.mp h
    rcases List.mem_cons.mp hm with heq | hmem
    · have h1 : k = a := congrArg Prod.fst heq
      have h2 : v = b := congrArg Prod.snd heq
      subst h1; subst h2
      simp [mapGet]
    · have hak : a ≠ k := by
        intro hh
        subst hh
        exact hcons.1 (List.mem_map_of_mem Prod.fst hmem)
      simp [mapGet, hak, ih hcons.2 hmem]

theorem mem_of_mapGet_eq_some {α β : Type} [DecidableEq α] {m : JSMap α β}
    {k : α} {v : β} (h : mapGet m k = some v) : (k, v) ∈ m := by
  induction m with
  | nil => simp [mapGet] at h
  | cons p tl ih =>
    obtain ⟨a, b⟩ := p
    by_cases hak : a = k
    · subst hak
      have hb : mapGet ((a, b) :: tl) a = some b := by simp [mapGet]
      rw [hb] at h
      have hv : v = b := Option.some.inj h.symm
      exact List.mem_cons.mpr (Or.inl (by rw [hv]))
    · have hg : mapGet ((a, b) :: tl) k = mapGet tl k := by simp [mapGet, hak]
      rw [hg] at h
      exact List.mem_cons.mpr (Or.inr (ih h))

theorem mapGet_mapValues {α β : Type} [DecidableEq α] (m : JSMap α β)
    (f : β → β) (k : α) :
    mapGet (m.map (fun p => (p.1, f p.2))) k = (mapGet m k).map f := by
  induction m with
  | nil => simp [mapGet]
  | cons p tl ih =>
    obtain ⟨a, b⟩ := p
    by_cases hak : a = k <;> simp [mapGet, hak, ih]

theorem keysOf_mapValues {α β : Type} (m : JSMap α β) (f : β → β) :
    keysOf (m.map (fun p => (p.1, f p.2))) = keysOf m := by
  induction m with
  | nil => rfl
  | cons p tl ih =>
    obtain ⟨a, b⟩ := p
    simp only [keysOf, List.map_cons] at ih ⊢
    rw [ih]

theorem mapGet_filter_some {α β : Type} [DecidableEq α] {m : JSMap α β}
    {P : α × β → Bool} {k : α} {v : β} (h : (keysOf m).Nodup)
    (hg : mapGet (m.filter P) k = some v) : mapGet m k = some v := by
  have hmem : (k, v) ∈ m.filter P := mem_of_mapGet_eq_some hg
  exact mapGet_eq_some_of_mem h (List.mem_of_mem_filter hmem)

theorem nodup_keysOf_filter {α β : Type} (m : JSMap α β) (P : α × β → Bool)
    (h : (keysOf m).Nodup) : (keysOf (m.filter P)).Nodup := by
  have hsub : (m.filter P).Sublist m := List.filter_sublist m
  exact (hsub.map Prod.fst).nodup h

end DVV

namespace DVV

/-! ## Basic facts about `processVoxelUpdate` -/

/-- A culled non-null update is skipped outright: the engine is unchanged. -/
theorem culled_upsert_is_noop (cam : Cam) (e : Engine) (k : VoxelKey)
    (vd : VoxelData) (h : calculateLODLevel cam vd = .CULLED) :
    processVoxelUpdate cam e k (some vd) = e := by
  unfold processVoxelUpdate
  simp [h]

/-- `processVoxelUpdate` never touches the pending queue. -/
theorem processVoxelUpdate_queue (cam : Cam) (e : Engine) (k : VoxelKey)
    (vd : Option VoxelData) :
    (processVoxelUpdate cam e k vd).voxelUpdateQueue = e.voxelUpdateQueue := by
  cases vd with
  | none => rfl
  | some v =>
    unfold processVoxelUpdate getOrCreateChunk
    dsimp only
    split
    · rfl
    · split <;> split <;> split <;> rfl

/-- `processVoxelUpdate` never touches the deduplication set. -/
theorem processVoxelUpdate_queuedKeys (cam : Cam) (e : Engine) (k : VoxelKey)
    (vd : Option VoxelData) :
    (processVoxelUpdate cam e k vd).queuedKeys = e.queuedKeys := by
  cases vd with
  | none => rfl
  | some v =>
    unfold processVoxelUpdate getOrCreateChunk
    dsimp only
    split
    · rfl
    · split <;> split <;> split <;> rfl

/-- The chunk map produced by a non-culled upsert. -/
theorem processUpsert_chunks (cam : Cam) (e : Engine) (k : VoxelKey)
    (vd : VoxelData) (h : ¬calculateLODLevel cam vd = .CULLED) :
    (processVoxelUpdate cam e k (some vd)).chunks =
      (let ck := getChunkCoords vd.x vd.y vd.z
       let pair := getOrCreateChunk e ck
       mapSet pair.2.chunks ck
         (upsertIntoChunk vd (calculateLODLevel cam vd) k pair.1)) := by
  unfold processVoxelUpdate
  dsimp only
  rw [if_neg h]
  split <;> split <;> rfl

end DVV

namespace DVV

/-! ## C6: a culled upsert does not act as a delete -/

def c6cam : Cam := (0, 0, 0)

def c6camFar : Cam := (1300, 2, 3)

def c6vd : VoxelData := ⟨1, 2, 3, .WALKABLE⟩

def c6key : VoxelKey := (1, 2, 3)

/-- An engine holding one live record for `c6key`. -/
def c6engine : Engine := processVoxelUpdate c6cam initialEngine c6key (some c6vd)

/-- **C6 counterexample.** The claim says an upsert whose LOD classifies as
CULLED behaves as a deletion, releasing and removing any existing record.
In the code (`processVoxelUpdate`, lines 638–641) a CULLED upsert merely
returns: here the key `(1,2,3)` has a live record, the camera has moved so
that the same upsert now classifies as CULLED, and after processing the
upsert the record is still live — it was not removed. -/
theorem C6_counterexample :
    calculateLODLevel c6camFar c6vd = .CULLED ∧
    instAt c6engine (0, 0, 0) c6key = some ⟨.WALKABLE, 0, .HIGH⟩ ∧
    instAt (processVoxelUpdate c6camFar c6engine c6key (some c6vd))
        (0, 0, 0) c6key = some ⟨.WALKABLE, 0, .HIGH⟩ := by
  refine ⟨by decide, by decide, ?_⟩
  rw [culled_upsert_is_noop c6camFar c6engine c6key c6vd (by decide)]
  decide

/-- **C6** (amended): a non-null upsert whose computed LOD level is CULLED
is skipped entirely — the engine is returned unchanged, so no new record is
created, but an existing record for the key is also left intact (its slot is
not released); the culled upsert does not act as a deletion. -/
theorem C6_culled_upsert_skips (cam : Cam) (e : Engine) (k : VoxelKey)
    (vd : VoxelData) (h : calculateLODLevel cam vd = .CULLED) :
    processVoxelUpdate cam e k (some vd) = e :=
  culled_upsert_is_noop cam e k vd h

theorem C6_witness :
    calculateLODLevel c6camFar c6vd = .CULLED ∧
    processVoxelUpdate c6camFar c6engine c6key (some c6vd) = c6engine :=
  ⟨by decide, C6_culled_upsert_skips c6camFar c6engine c6key c6vd (by decide)⟩

end DVV

namespace DVV

/-! ## Allocator behavior lemmas -/

theorem acquire_of_avail_cons (c : VoxelChunk) (s : VoxelState) (l : LODLevel)
    (i : Nat) (rest : List Nat)
    (h : (c.buckets s l).availableIndices = i :: rest) :
    (getAvailableInstanceIndex c s l).1 = i ∧
    ((getAvailableInstanceIndex c s l).2.buckets s l).availableIndices = rest ∧
    ((getAvailableInstanceIndex c s l).2.buckets s l).nextInstanceIndex =
      (c.buckets s l).nextInstanceIndex := by
  unfold getAvailableInstanceIndex
  dsimp only
  rw [h]
  refine ⟨rfl, ?_, ?_⟩ <;> simp [updateBucket]

theorem acquire_of_avail_nil (c : VoxelChunk) (s : VoxelState) (l : LODLevel)
    (h : (c.buckets s l).availableIndices = []) :
    (getAvailableInstanceIndex c s l).1 = (c.buckets s l).nextInstanceIndex ∧
    ((getAvailableInstanceIndex c s l).2.buckets s l).nextInstanceIndex =
      (c.buckets s l).nextInstanceIndex + 1 ∧
    ((getAvailableInstanceIndex c s l).2.buckets s l).availableIndices = [] := by
  unfold getAvailableInstanceIndex
  dsimp only
  rw [h]
  refine ⟨rfl, ?_, ?_⟩ <;> simp [updateBucket, h]

/-- The upsert always stores a record for the key, whatever the bucket
occupancy: there is no capacity check anywhere on this path. -/
theorem upsertIntoChunk_get_self (vd : VoxelData) (lod : LODLevel)
    (k : VoxelKey) (c : VoxelChunk) :
    ∃ i : Nat, mapGet (upsertIntoChunk vd lod k c).voxelInstances k =
      some ⟨vd.state, i, lod⟩ := by
  unfold upsertIntoChunk
  cases hg : mapGet c.voxelInstances k with
  | none =>
    dsimp only
    refine ⟨(getAvailableInstanceIndex c vd.state lod).1, ?_⟩
    rw [mapGet_mapSet]
    simp
  | some inst =>
    dsimp only
    by_cases hdiff : inst.state ≠ vd.state ∨ inst.lodLevel ≠ lod
    · refine ⟨(getAvailableInstanceIndex
          (releaseInstanceIndex c inst.state inst.lodLevel inst.instanceIndex)
          vd.state lod).1, ?_⟩
      rw [if_pos hdiff]
      dsimp only
      rw [mapGet_mapSet]
      simp
    · refine ⟨inst.instanceIndex, ?_⟩
      rw [if_neg hdiff]
      push_neg at hdiff
      rw [hg]
      have hinst : inst = ⟨vd.state, inst.instanceIndex, lod⟩ := by
        cases inst
        simp_all
      rw [← hinst]

/-- Unfolding `instAt` through the option monad. -/
theorem instAt_def (e : Engine) (ck : ChunkKey) (k : VoxelKey) :
    instAt e ck k =
      (mapGet e.chunks ck).bind (fun c => mapGet c.voxelInstances k) := by
  unfold instAt
  cases mapGet e.chunks ck <;> rfl

/-- A non-culled upsert leaves a record for the key in the owning chunk. -/
theorem instAt_processUpsert_self (cam : Cam) (e : Engine) (k : VoxelKey)
    (vd : VoxelData) (h : ¬calculateLODLevel cam vd = .CULLED) :
    ∃ i : Nat,
      instAt (processVoxelUpdate cam e k (some vd))
        (getChunkCoords vd.x vd.y vd.z) k =
      some ⟨vd.state, i, calculateLODLevel cam vd⟩ := by
  obtain ⟨i, hi⟩ := upsertIntoChunk_get_self vd (calculateLODLevel cam vd) k
    (getOrCreateChunk e (getChunkCoords vd.x vd.y vd.z)).1
  refine ⟨i, ?_⟩
  rw [instAt_def, processUpsert_chunks cam e k vd h]
  dsimp only
  rw [mapGet_mapSet, if_pos rfl, Option.some_bind]
  exact hi

end DVV

namespace DVV

/-! ## C5: capacity exhaustion is not checked and nothing is dropped -/

def c5cam : Cam := (0, 0, 0)

/-- 4096 live records filling the (WALKABLE, HIGH) bucket of one chunk. -/
def c5records : JSMap VoxelKey VoxelInstance :=
  (List.range MAX_INSTANCES_PER_CHUNK).map
    (fun (i : Nat) => (((i : Int), 0, 0), ⟨.WALKABLE, i, .HIGH⟩))

def c5bucket : Bucket := ⟨[], MAX_INSTANCES_PER_CHUNK, MAX_INSTANCES_PER_CHUNK⟩

/-- A chunk whose (WALKABLE, HIGH) bucket is exhausted: 4096 live records,
an empty free-list, and the high-water mark at capacity. -/
def c5chunk : VoxelChunk :=
  { voxelInstances := c5records,
    buckets := fun s l =>
      if s = .WALKABLE ∧ l = .HIGH then c5bucket else Bucket.initial }

def c5engine : Engine := { initialEngine with chunks := [((0, 0, 0), c5chunk)] }

def c5newKey : VoxelKey := (5000, 0, 0)

def c5newVd : VoxelData := ⟨1, 1, 1, .WALKABLE⟩

theorem c5records_not_mem : c5newKey ∉ keysOf c5records := by
  intro hmem
  simp only [c5records, keysOf, List.map_map, List.mem_map, List.mem_range,
    Function.comp, c5newKey] at hmem
  obtain ⟨i, hi, heq⟩ := hmem
  have h1 : (i : Int) = 5000 := congrArg Prod.fst heq
  simp only [MAX_INSTANCES_PER_CHUNK] at hi
  omega

theorem c5chunk_bucket : c5chunk.buckets .WALKABLE .HIGH = c5bucket := rfl

theorem c5_acquire_past_capacity :
    (getAvailableInstanceIndex c5chunk .WALKABLE .HIGH).1 =
        MAX_INSTANCES_PER_CHUNK ∧
    ((getAvailableInstanceIndex c5chunk
        .WALKABLE .HIGH).2.buckets .WALKABLE .HIGH).nextInstanceIndex =
      MAX_INSTANCES_PER_CHUNK + 1 := by
  have h := acquire_of_avail_nil c5chunk .WALKABLE .HIGH (by rw [c5chunk_bucket]; rfl)
  rw [c5chunk_bucket] at h
  exact ⟨h.1, h.2.1⟩

set_option maxRecDepth 40000 in
theorem c5_record_still_created :
    instAt (processVoxelUpdate c5cam c5engine c5newKey (some c5newVd))
        (0, 0, 0) c5newKey =
      some ⟨.WALKABLE, MAX_INSTANCES_PER_CHUNK, .HIGH⟩ := by
  have hlod : calculateLODLevel c5cam c5newVd = .HIGH := by decide
  have hnc : ¬calculateLODLevel c5cam c5newVd = .CULLED := by
    rw [hlod]; intro hh; exact LODLevel.noConfusion hh
  have hck : getChunkCoords c5newVd.x c5newVd.y c5newVd.z = ((0 : Int), (0 : Int), (0 : Int)) := by decide
  have hgoc : getOrCreateChunk c5engine ((0 : Int), (0 : Int), (0 : Int)) = (c5chunk, c5engine) := rfl
  have hvi : c5chunk.voxelInstances = c5records := rfl
  have hnone : mapGet c5chunk.voxelInstances c5newKey = none := by
    rw [hvi, mapGet_eq_none_iff]
    exact c5records_not_mem
  rw [instAt_def, processUpsert_chunks c5cam c5engine c5newKey c5newVd hnc]
  dsimp only
  rw [hck, hgoc]
  dsimp only
  rw [mapGet_mapSet, if_pos rfl, Option.some_bind]
  unfold upsertIntoChunk
  rw [hnone]
  dsimp only
  rw [mapGet_mapSet, if_pos rfl, hlod]
  have hidx := c5_acquire_past_capacity.1
  rw [show c5newVd.state = VoxelState.WALKABLE from rfl, hidx]

set_option maxRecDepth 40000 in
/-- **C5 counterexample.** The claim says acquisition extends the active
range "only up to the bucket's fixed capacity (4096)" and that on an
exhausted bucket the incoming voxel is dropped with no record created. In
the code (`getAvailableInstanceIndex`, lines 251–264) there is no capacity
check at all: on this chunk whose (WALKABLE, HIGH) bucket holds 4096 live
records with an empty free-list, acquiring returns index 4096 (one past
capacity), the high-water mark grows to 4097, and processing a new upsert
into the full bucket still creates a `VoxelRecord` — nothing is dropped. -/
theorem C5_counterexample :
    c5chunk.voxelInstances.length = MAX_INSTANCES_PER_CHUNK ∧
    (c5chunk.buckets .WALKABLE .HIGH).availableIndices = [] ∧
    (c5chunk.buckets .WALKABLE .HIGH).nextInstanceIndex =
      MAX_INSTANCES_PER_CHUNK ∧
    (getAvailableInstanceIndex c5chunk .WALKABLE .HIGH).1 =
      MAX_INSTANCES_PER_CHUNK ∧
    ((getAvailableInstanceIndex c5chunk
        .WALKABLE .HIGH).2.buckets .WALKABLE .HIGH).nextInstanceIndex =
      MAX_INSTANCES_PER_CHUNK + 1 ∧
    instAt (processVoxelUpdate c5cam c5engine c5newKey (some c5newVd))
        (0, 0, 0) c5newKey =
      some ⟨.WALKABLE, MAX_INSTANCES_PER_CHUNK, .HIGH⟩ := by
  refine ⟨?_, by rw [c5chunk_bucket]; rfl, by rw [c5chunk_bucket]; rfl,
    c5_acquire_past_capacity.1, c5_acquire_past_capacity.2,
    c5_record_still_created⟩
  have hvi : c5chunk.voxelInstances = c5records := rfl
  rw [hvi]
  simp [c5records]

/-- **C5** (amended): `getAvailableInstanceIndex` returns a recycled index
from the free-list when it is non-empty; otherwise it extends the active
range by one with no capacity bound whatever — the high-water mark simply
increments, even past `MAX_INSTANCES_PER_CHUNK`. Consequently a non-culled
upsert always stores a record for its key: no voxel is ever dropped for
capacity reasons and no error is raised. -/
theorem C5_acquire_unbounded :
    (∀ (c : VoxelChunk) (s : VoxelState) (l : LODLevel) (i : Nat)
        (rest : List Nat),
      (c.buckets s l).availableIndices = i :: rest →
        (getAvailableInstanceIndex c s l).1 = i ∧
        ((getAvailableInstanceIndex c s l).2.buckets s l).availableIndices =
          rest) ∧
    (∀ (c : VoxelChunk) (s : VoxelState) (l : LODLevel),
      (c.buckets s l).availableIndices = [] →
        (getAvailableInstanceIndex c s l).1 =
          (c.buckets s l).nextInstanceIndex ∧
        ((getAvailableInstanceIndex c s l).2.buckets s l).nextInstanceIndex =
          (c.buckets s l).nextInstanceIndex + 1) ∧
    (∀ (cam : Cam) (e : Engine) (k : VoxelKey) (vd : VoxelData),
      ¬calculateLODLevel cam vd = .CULLED →
        ∃ i : Nat,
          instAt (processVoxelUpdate cam e k (some vd))
            (getChunkCoords vd.x vd.y vd.z) k =
          some ⟨vd.state, i, calculateLODLevel cam vd⟩) :=
  ⟨fun c s l i rest h =>
    ⟨(acquire_of_avail_cons c s l i rest h).1,
     (acquire_of_avail_cons c s l i rest h).2.1⟩,
   fun c s l h =>
    ⟨(acquire_of_avail_nil c s l h).1, (acquire_of_avail_nil c s l h).2.1⟩,
   fun cam e k vd h => instAt_processUpsert_self cam e k vd h⟩

def c5smallA : VoxelChunk :=
  { voxelInstances := [], buckets := fun _ _ => ⟨[7], 9, 9⟩ }

def c5smallB : VoxelChunk :=
  { voxelInstances := [], buckets := fun _ _ => ⟨[], 3, 3⟩ }

theorem C5_witness :
    (getAvailableInstanceIndex c5smallA .WALL .LOW).1 = 7 ∧
    (getAvailableInstanceIndex c5smallB .WALL .LOW).1 = 3 ∧
    ((getAvailableInstanceIndex c5smallB
        .WALL .LOW).2.buckets .WALL .LOW).nextInstanceIndex = 4 ∧
    (∃ i : Nat,
      instAt (processVoxelUpdate c5cam initialEngine (2, 2, 2)
          (some ⟨2, 2, 2, .WALL⟩)) (0, 0, 0) (2, 2, 2) =
        some ⟨.WALL, i, .HIGH⟩) := by
  refine ⟨(C5_acquire_unbounded.1 c5smallA .WALL .LOW 7 [] (by decide)).1,
    (C5_acquire_unbounded.2.1 c5smallB .WALL .LOW (by decide)).1,
    (C5_acquire_unbounded.2.1 c5smallB .WALL .LOW (by decide)).2, ?_⟩
  obtain ⟨i, hi⟩ := C5_acquire_unbounded.2.2 c5cam initialEngine (2, 2, 2)
    ⟨2, 2, 2, .WALL⟩ (by decide)
  exact ⟨i, hi⟩

end DVV

namespace DVV

/-! ## Queue bookkeeping lemmas -/

theorem queueKeys_replaceInQueue (q : List (VoxelKey × Option VoxelData))
    (k : VoxelKey) (v : Option VoxelData) :
    queueKeys (replaceInQueue q k v) = queueKeys q := by
  induction q with
  | nil => rfl
  | cons p tl ih =>
    obtain ⟨a, b⟩ := p
    by_cases hak : a = k
    · subst hak
      simp [replaceInQueue, queueKeys]
    · simp only [replaceInQueue, if_neg hak, queueKeys, List.map_cons]
      simp only [queueKeys] at ih
      rw [ih]

theorem mem_setDelete {α : Type} [DecidableEq α] (s : List α) (x y : α) :
    y ∈ setDelete s x ↔ y ∈ s ∧ y ≠ x := by
  simp [setDelete]

theorem nodup_setDelete {α : Type} [DecidableEq α] (s : List α) (x : α)
    (h : s.Nodup) : (setDelete s x).Nodup :=
  h.filter _

theorem mem_setDeleteAll (s : List VoxelKey)
    (items : List (VoxelKey × Option VoxelData)) (y : VoxelKey) :
    y ∈ setDeleteAll s items ↔ y ∈ s ∧ y ∉ queueKeys items := by
  induction items generalizing s with
  | nil => simp [setDeleteAll, queueKeys]
  | cons p tl ih =>
    simp only [setDeleteAll, List.foldl_cons] at *
    rw [ih (setDelete s p.1)]
    rw [mem_setDelete]
    constructor
    · rintro ⟨⟨hy, hne⟩, hnin⟩
      refine ⟨hy, ?_⟩
      intro hmem
      rcases (by simpa [queueKeys] using hmem : y = p.1 ∨ y ∈ queueKeys tl) with h1 | h2
      · exact hne h1
      · exact hnin h2
    · rintro ⟨hy, hnin⟩
      refine ⟨⟨hy, fun h1 => hnin (by simp [queueKeys, h1])⟩, fun h2 => hnin ?_⟩
      simp only [queueKeys, List.map_cons, List.mem_cons]
      exact Or.inr h2

theorem nodup_setDeleteAll (s : List VoxelKey)
    (items : List (VoxelKey × Option VoxelData)) (h : s.Nodup) :
    (setDeleteAll s items).Nodup := by
  induction items generalizing s with
  | nil => exact h
  | cons p tl ih => exact ih (setDelete s p.1) (nodup_setDelete s p.1 h)

theorem mem_setAdd {α : Type} [DecidableEq α] (s : List α) (x y : α) :
    y ∈ setAdd s x ↔ y ∈ s ∨ y = x := by
  unfold setAdd
  by_cases h : x ∈ s
  · rw [if_pos h]
    constructor
    · exact Or.inl
    · rintro (hy | hy)
      · exact hy
      · rwa [hy]
  · rw [if_neg h]
    simp

theorem nodup_setAdd {α : Type} [DecidableEq α] (s : List α) (x : α)
    (h : s.Nodup) : (setAdd s x).Nodup := by
  unfold setAdd
  by_cases hx : x ∈ s
  · rwa [if_pos hx]
  · rw [if_neg hx]
    refine List.Nodup.append h (by simp) ?_
    intro a ha ha'
    simp only [List.mem_singleton] at ha'
    subst ha'
    exact hx ha

/-- The queue-bookkeeping invariant: the deduplication set holds exactly the
keys of the pending entries, each key pending at most once (and the set
itself duplicate-free). -/
def QueueInv (e : Engine) : Prop :=
  (queueKeys e.voxelUpdateQueue).Nodup ∧
  e.queuedKeys.Nodup ∧
  ∀ k : VoxelKey, k ∈ e.queuedKeys ↔ k ∈ queueKeys e.voxelUpdateQueue

theorem queueInv_initial : QueueInv initialEngine := by
  refine ⟨by simp [initialEngine, queueKeys], by simp [initialEngine], ?_⟩
  intro k
  simp [initialEngine, queueKeys]

/-- `QueueInv` only looks at the two queue fields. -/
theorem queueInv_transport {e e' : Engine}
    (hq : e'.voxelUpdateQueue = e.voxelUpdateQueue)
    (hk : e'.queuedKeys = e.queuedKeys) (h : QueueInv e) : QueueInv e' := by
  unfold QueueInv at *
  rw [hq, hk]
  exact h

theorem queueInv_addToQueue (e : Engine) (k : VoxelKey)
    (vd : Option VoxelData) (h : QueueInv e) : QueueInv (addToQueue e k vd) := by
  obtain ⟨hq, hks, hiff⟩ := h
  unfold addToQueue
  by_cases hk : k ∈ e.queuedKeys
  · rw [if_pos hk]
    exact ⟨by rwa [queueKeys_replaceInQueue], hks, fun y => by
      rw [queueKeys_replaceInQueue]; exact hiff y⟩
  · rw [if_neg hk]
    by_cases hover : e.voxelUpdateQueue.length ≥ MAX_QUEUE_SIZE
    · rw [if_pos hover]
      dsimp only
      have htd : queueKeys e.voxelUpdateQueue =
          queueKeys (e.voxelUpdateQueue.take 200) ++
          queueKeys (e.voxelUpdateQueue.drop 200) := by
        simp [queueKeys, ← List.map_append]
      have hdrop : (queueKeys (e.voxelUpdateQueue.drop 200)).Nodup := by
        rw [htd] at hq
        exact hq.of_append_right
      have hkdrop : k ∉ queueKeys (e.voxelUpdateQueue.drop 200) := by
        intro hmem
        exact hk ((hiff k).mpr (by rw [htd]; exact List.mem_append_right _ hmem))
      constructor
      · simp only [queueKeys, List.map_append]
        refine List.Nodup.append (by simpa [queueKeys] using hdrop) (by simp) ?_
        intro a ha ha'
        simp only [List.map_cons, List.map_nil, List.mem_singleton] at ha'
        subst ha'
        exact hkdrop (by simpa [queueKeys] using ha)
      constructor
      · exact nodup_setAdd _ _ (nodup_setDeleteAll _ _ hks)
      · intro y
        rw [mem_setAdd, mem_setDeleteAll]
        simp only [queueKeys, List.map_append, List.mem_append, List.map_cons,
          List.map_nil, List.mem_singleton]
        rw [htd] at hq
        constructor
        · rintro (⟨hy, hnt⟩ | hy)
          · left
            have hmem := (hiff y).mp hy
            rw [htd] at hmem
            rcases List.mem_append.mp hmem with h1 | h2
            · exact absurd h1 hnt
            · simpa [queueKeys] using h2
          · right; exact hy
        · rintro (hy | hy)
          · left
            refine ⟨(hiff y).mpr (by rw [htd]; exact List.mem_append_right _ (by simpa [queueKeys] using hy)), ?_⟩
            intro ht
            exact (List.disjoint_of_nodup_append hq) ht (by simpa [queueKeys] using hy)
          · right; exact hy
    · rw [if_neg hover]
      dsimp only
      have hkq : k ∉ queueKeys e.voxelUpdateQueue := fun hm => hk ((hiff k).mpr hm)
      constructor
      · simp only [queueKeys, List.map_append, List.map_cons, List.map_nil]
        refine List.Nodup.append hq (by simp) ?_
        intro a ha ha'
        simp only [List.mem_singleton] at ha'
        subst ha'
        exact hkq ha
      constructor
      · exact nodup_setAdd _ _ hks
      · intro y
        rw [mem_setAdd]
        simp only [queueKeys, List.map_append, List.map_cons, List.map_nil,
          List.mem_append, List.mem_singleton]
        constructor
        · rintro (hy | hy)
          · left; exact (hiff y).mp hy
          · right; exact hy
        · rintro (hy | hy)
          · left; exact (hiff y).mpr hy
          · right; exact hy

end DVV

namespace DVV

/-! ## Drain characterization -/

/-- Pop-and-process the front queue entry n times: the cumulative engine
effect of a drain pass that admits n entries. -/
def drainSteps (cam : Cam) : Nat → Engine → Engine
  | 0, e => e
  | n + 1, e =>
    match e.voxelUpdateQueue with
    | [] => e
    | (k, vd) :: rest =>
        drainSteps cam n
          (processVoxelUpdate cam
            { e with voxelUpdateQueue := rest,
                     queuedKeys := setDelete e.queuedKeys k } k vd)

theorem drainSteps_succ (cam : Cam) (n : Nat) (e : Engine) :
    drainSteps cam (n + 1) e =
      match e.voxelUpdateQueue with
      | [] => e
      | (k, vd) :: rest =>
          drainSteps cam n
            (processVoxelUpdate cam
              { e with voxelUpdateQueue := rest,
                       queuedKeys := setDelete e.queuedKeys k } k vd) := rfl

theorem drainSteps_nil_queue (cam : Cam) (n : Nat) (e : Engine)
    (h : e.voxelUpdateQueue = []) : drainSteps cam n e = e := by
  cases n with
  | zero => rfl
  | succ n =>
    rw [drainSteps_succ]
    split
    · rfl
    · next k vd rest heq =>
      rw [h] at heq
      exact absurd heq (by simp)

theorem drainSteps_queue (cam : Cam) (n : Nat) :
    ∀ e : Engine,
      (drainSteps cam n e).voxelUpdateQueue = e.voxelUpdateQueue.drop n := by
  induction n with
  | zero => intro e; simp [drainSteps]
  | succ n ih =>
    intro e
    rw [drainSteps_succ]
    split
    · next heq => rw [heq]; simp
    · next k vd rest heq =>
      rw [ih, processVoxelUpdate_queue]
      dsimp only
      rw [heq]
      rfl

theorem drainSteps_add (cam : Cam) (a b : Nat) :
    ∀ e : Engine,
      drainSteps cam (a + b) e = drainSteps cam b (drainSteps cam a e) := by
  induction a with
  | zero => intro e; rw [Nat.zero_add]; rfl
  | succ a ih =>
    intro e
    have h1 : a + 1 + b = (a + b) + 1 := by omega
    rw [h1, drainSteps_succ cam (a + b) e, drainSteps_succ cam a e]
    split
    · next heq => exact (drainSteps_nil_queue cam b e heq).symm
    · next k vd rest heq => exact ih _

theorem queueInv_drainSteps (cam : Cam) (n : Nat) :
    ∀ e : Engine, QueueInv e → QueueInv (drainSteps cam n e) := by
  induction n with
  | zero => exact fun e h => h
  | succ n ih =>
    intro e h
    rw [drainSteps_succ]
    split
    · exact h
    · next k vd rest heq =>
      apply ih
      apply queueInv_transport (processVoxelUpdate_queue _ _ _ _)
        (processVoxelUpdate_queuedKeys _ _ _ _)
      obtain ⟨hq, hks, hiff⟩ := h
      rw [heq] at hq
      have hcons : (queueKeys ((k, vd) :: rest)) = k :: queueKeys rest := rfl
      rw [hcons] at hq
      have hnd := List.nodup_cons.mp hq
      refine ⟨hnd.2, nodup_setDelete _ _ hks, ?_⟩
      intro y
      rw [mem_setDelete]
      constructor
      · rintro ⟨hy, hne⟩
        have := (hiff y).mp hy
        rw [heq, hcons] at this
        rcases List.mem_cons.mp this with h1 | h2
        · exact absurd h1 hne
        · exact h2
      · intro hy
        have hne : y ≠ k := fun hh => hnd.1 (hh ▸ hy)
        refine ⟨(hiff y).mpr ?_, hne⟩
        rw [heq, hcons]
        exact List.mem_cons.mpr (Or.inr hy)

end DVV

namespace DVV

theorem drainSteps_cons (cam : Cam) (n : Nat) (e : Engine) (k : VoxelKey)
    (vd : Option VoxelData) (rest : List (VoxelKey × Option VoxelData))
    (heq : e.voxelUpdateQueue = (k, vd) :: rest) :
    drainSteps cam (n + 1) e =
      drainSteps cam n
        (processVoxelUpdate cam
          { e with voxelUpdateQueue := rest,
                   queuedKeys := setDelete e.queuedKeys k } k vd) := by
  rw [drainSteps_succ]
  split
  · next h2 => rw [heq] at h2; exact absurd h2 (by simp)
  · next k' vd' rest' h2 =>
    rw [heq] at h2
    injection h2 with h3 h4
    injection h3 with h5 h6
    subst h4; subst h5; subst h6
    rfl

theorem drainInner_succ (cam : Cam) (clock : Clock)
    (start budget batch fuel : Nat) (e : Engine) (pc t : Nat) :
    drainInner cam clock start budget batch (fuel + 1) e pc t =
      match e.voxelUpdateQueue with
      | [] => ⟨e, pc, t, [], []⟩
      | (k, vd) :: rest =>
        if pc < batch then
          if clock t - start < budget then
            let e1 := { e with voxelUpdateQueue := rest,
                               queuedKeys := setDelete e.queuedKeys k }
            let e2 := processVoxelUpdate cam e1 k vd
            let r := drainInner cam clock start budget batch fuel e2 (pc + 1) (t + 1)
            ⟨r.engine, r.pc, r.tick, (k, vd) :: r.items, clock t :: r.reads⟩
          else ⟨e, pc, t, [], []⟩
        else ⟨e, pc, t, [], []⟩ := rfl

theorem drainInner_spec (cam : Cam) (clock : Clock) (start budget batch : Nat) :
    ∀ (fuel : Nat) (e : Engine) (pc t : Nat),
      ∃ m : Nat,
        (drainInner cam clock start budget batch fuel e pc t).engine =
          drainSteps cam m e ∧
        (drainInner cam clock start budget batch fuel e pc t).items =
          e.voxelUpdateQueue.take m ∧
        (drainInner cam clock start budget batch fuel e pc t).pc = pc + m ∧
        (∀ r ∈ (drainInner cam clock start budget batch fuel e pc t).reads,
          r - start < budget) ∧
        ((∀ u, clock u - start < budget) →
          m = min (batch - pc) (min e.voxelUpdateQueue.length fuel)) := by
  intro fuel
  induction fuel with
  | zero =>
    intro e pc t
    refine ⟨0, rfl, by simp [drainInner], by simp [drainInner],
      by simp [drainInner], ?_⟩
    intro _
    simp
  | succ fuel ih =>
    intro e pc t
    rw [drainInner_succ]
    cases heq : e.voxelUpdateQueue with
    | nil =>
      refine ⟨0, rfl, by simp, by simp, by simp, ?_⟩
      intro _
      simp [heq]
    | cons p rest =>
      obtain ⟨k, vd⟩ := p
      dsimp only
      by_cases hpc : pc < batch
      · rw [if_pos hpc]
        by_cases hcl : clock t - start < budget
        · rw [if_pos hcl]
          dsimp only
          obtain ⟨m1, heng, hitems, hpcr, hreads, hcomp⟩ :=
            ih (processVoxelUpdate cam
              { e with voxelUpdateQueue := rest,
                       queuedKeys := setDelete e.queuedKeys k } k vd) (pc + 1) (t + 1)
          refine ⟨m1 + 1, ?_, ?_, ?_, ?_, ?_⟩
          · rw [heng, drainSteps_cons cam m1 e k vd rest heq]
          · rw [hitems, processVoxelUpdate_queue]
            rfl
          · rw [hpcr]; omega
          · intro r hr
            rcases List.mem_cons.mp hr with h1 | h2
            · rw [h1]; exact hcl
            · exact hreads r h2
          · intro hclall
            have hm1 := hcomp hclall
            rw [processVoxelUpdate_queue] at hm1
            dsimp only at hm1
            simp only [List.length_cons]
            omega
        · rw [if_neg hcl]
          refine ⟨0, rfl, by simp, by simp, by simp, ?_⟩
          intro hclall
          exact absurd (hclall t) hcl
      · rw [if_neg hpc]
        refine ⟨0, rfl, by simp, by simp, by simp, ?_⟩
        intro _
        omega

theorem drainOuter_succ (cam : Cam) (clock : Clock)
    (start budget batch fuel : Nat) (e : Engine) (t : Nat) :
    drainOuter cam clock start budget batch (fuel + 1) e t =
      (if clock t - start < budget then
        let r := drainInner cam clock start budget batch
          e.voxelUpdateQueue.length e 0 (t + 1)
        if r.pc = 0 then ⟨r.engine, 0, r.tick, r.items, r.reads⟩
        else
          let r2 := drainOuter cam clock start budget batch fuel r.engine r.tick
          ⟨r2.engine, r.pc + r2.pc, r2.tick, r.items ++ r2.items,
            r.reads ++ r2.reads⟩
      else ⟨e, 0, t, [], []⟩) := rfl

theorem drainOuter_spec (cam : Cam) (clock : Clock) (start budget batch : Nat)
    (hb : 0 < batch) :
    ∀ (fuel : Nat) (e : Engine) (t : Nat),
      ∃ m : Nat,
        (drainOuter cam clock start budget batch fuel e t).engine =
          drainSteps cam m e ∧
        (drainOuter cam clock start budget batch fuel e t).items =
          e.voxelUpdateQueue.take m ∧
        (drainOuter cam clock start budget batch fuel e t).pc = m ∧
        (∀ r ∈ (drainOuter cam clock start budget batch fuel e t).reads,
          r - start < budget) ∧
        ((∀ u, clock u - start < budget) →
          e.voxelUpdateQueue.length < fuel →
          m = e.voxelUpdateQueue.length) := by
  intro fuel
  induction fuel with
  | zero =>
    intro e t
    refine ⟨0, rfl, by simp [drainOuter], by simp [drainOuter],
      by simp [drainOuter], ?_⟩
    intro _ hlen
    omega
  | succ fuel ih =>
    intro e t
    rw [drainOuter_succ]
    by_cases hcl : clock t - start < budget
    · rw [if_pos hcl]
      dsimp only
      obtain ⟨m1, heng1, hitems1, hpc1, hreads1, hcomp1⟩ :=
        drainInner_spec cam clock start budget batch
          e.voxelUpdateQueue.length e 0 (t + 1)
      by_cases hz : (drainInner cam clock start budget batch
          e.voxelUpdateQueue.length e 0 (t + 1)).pc = 0
      · rw [if_pos hz]
        have hm1 : m1 = 0 := by omega
        subst hm1
        refine ⟨0, heng1, by simpa using hitems1, rfl, hreads1, ?_⟩
        intro hclall _
        have := hcomp1 hclall
        omega
      · rw [if_neg hz]
        dsimp only
        obtain ⟨m2, heng2, hitems2, hpc2, hreads2, hcomp2⟩ :=
          ih (drainInner cam clock start budget batch
            e.voxelUpdateQueue.length e 0 (t + 1)).engine
            (drainInner cam clock start budget batch
              e.voxelUpdateQueue.length e 0 (t + 1)).tick
        have hq1 : (drainInner cam clock start budget batch
            e.voxelUpdateQueue.length e 0 (t + 1)).engine.voxelUpdateQueue =
            e.voxelUpdateQueue.drop m1 := by
          rw [heng1, drainSteps_queue]
        refine ⟨m1 + m2, ?_, ?_, ?_, ?_, ?_⟩
        · rw [heng2, heng1, ← drainSteps_add]
        · rw [hitems2, hitems1, hq1, List.take_add]
        · rw [hpc1, hpc2]
          omega
        · intro r hr
          rcases List.mem_append.mp hr with h1 | h2
          · exact hreads1 r h1
          · exact hreads2 r h2
        · intro hclall hlen
          have hm1 := hcomp1 hclall
          have hm1pos : 0 < m1 := by omega
          have hm1le : m1 ≤ e.voxelUpdateQueue.length := by omega
          have hlen2 : (drainInner cam clock start budget batch
              e.voxelUpdateQueue.length e 0 (t + 1)).engine.voxelUpdateQueue.length =
              e.voxelUpdateQueue.length - m1 := by
            rw [hq1, List.length_drop]
          have := hcomp2 hclall (by omega)
          omega
    · rw [if_neg hcl]
      refine ⟨0, rfl, by simp, by simp, by simp, ?_⟩
      intro hclall _
      exact absurd (hclall t) hcl

end DVV

namespace DVV

theorem cleanupEmptyChunks_queue (e : Engine) :
    (cleanupEmptyChunks e).voxelUpdateQueue = e.voxelUpdateQueue := rfl

theorem cleanupEmptyChunks_queuedKeys (e : Engine) :
    (cleanupEmptyChunks e).queuedKeys = e.queuedKeys := rfl

/-- The effective budget of one drain pass: 1.5× the frame budget when the
queue is more than 80% of `MAX_QUEUE_SIZE`, else the frame budget. -/
def effectiveBudget (e : Engine) : Nat :=
  if e.voxelUpdateQueue.length > OVERLOAD_THRESHOLD then OVERLOAD_BUDGET_MS
  else FRAME_BUDGET_MS

/-- Full characterization of one `processBatchedVoxelUpdates` pass: some
prefix of the queue is processed in order (`drainSteps`), the suffix stays
queued in order, every processed entry was admitted by a clock reading
strictly under the effective budget, and a clock that stays under the
effective budget drains the whole queue. -/
theorem processBatched_spec (cam : Cam) (clock : Clock) (e : Engine) :
    ∃ m : Nat,
      (processBatchedVoxelUpdates cam clock e).items =
        e.voxelUpdateQueue.take m ∧
      (processBatchedVoxelUpdates cam clock e).pc = m ∧
      (processBatchedVoxelUpdates cam clock e).engine.voxelUpdateQueue =
        e.voxelUpdateQueue.drop m ∧
      (∀ r ∈ (processBatchedVoxelUpdates cam clock e).reads,
        r - clock 0 < effectiveBudget e) ∧
      (processBatchedVoxelUpdates cam clock e).engine =
        (if 0 < m then cleanupEmptyChunks (drainSteps cam m e)
         else drainSteps cam m e) ∧
      ((∀ u, clock u - clock 0 < effectiveBudget e) →
        m = e.voxelUpdateQueue.length) := by
  unfold processBatchedVoxelUpdates
  by_cases hempty : e.voxelUpdateQueue.isEmpty
  · rw [if_pos hempty]
    have hnil : e.voxelUpdateQueue = [] := List.isEmpty_iff.mp hempty
    refine ⟨0, by simp [hnil], rfl, by simp [hnil], by simp, ?_, ?_⟩
    · simp [drainSteps]
    · intro _
      simp [hnil]
  · rw [if_neg hempty]
    dsimp only
    have hbatch : 0 < (if e.voxelUpdateQueue.length > OVERLOAD_THRESHOLD
        then BATCH_SIZE * 2 else BATCH_SIZE) := by
      unfold BATCH_SIZE
      split <;> omega
    obtain ⟨m, heng, hitems, hpc, hreads, hcomp⟩ :=
      drainOuter_spec cam clock (clock 0)
        (if e.voxelUpdateQueue.length > OVERLOAD_THRESHOLD
          then OVERLOAD_BUDGET_MS else FRAME_BUDGET_MS)
        (if e.voxelUpdateQueue.length > OVERLOAD_THRESHOLD
          then BATCH_SIZE * 2 else BATCH_SIZE) hbatch
        (e.voxelUpdateQueue.length + 1) e 1
    refine ⟨m, hitems, hpc, ?_, ?_, ?_, ?_⟩
    · rw [hpc]
      by_cases hm : 0 < m
      · rw [if_pos hm, cleanupEmptyChunks_queue, heng, drainSteps_queue]
      · rw [if_neg hm, heng, drainSteps_queue]
    · intro r hr
      exact hreads r hr
    · rw [hpc, heng]
    · intro hcl
      exact hcomp hcl (by omega)

/-- **C10.** The implicit queue-bookkeeping invariant: `queuedKeys` holds
exactly the keys of the entries of `voxelUpdateQueue`, each key pending at
most once; it holds initially and is preserved by `addToQueue` (including
the bulk eviction of the 200 oldest entries on overflow), by a full
`processBatchedVoxelUpdates` drain pass, and by `dispose`. -/
theorem C10_queue_bookkeeping :
    QueueInv initialEngine ∧
    (∀ (e : Engine) (k : VoxelKey) (vd : Option VoxelData),
      QueueInv e → QueueInv (addToQueue e k vd)) ∧
    (∀ (cam : Cam) (clock : Clock) (e : Engine),
      QueueInv e → QueueInv (processBatchedVoxelUpdates cam clock e).engine) ∧
    (∀ e : Engine, QueueInv (dispose e)) := by
  refine ⟨queueInv_initial, queueInv_addToQueue, ?_, ?_⟩
  · intro cam clock e h
    obtain ⟨m, _, _, _, _, heng, _⟩ := processBatched_spec cam clock e
    rw [heng]
    by_cases hm : 0 < m
    · rw [if_pos hm]
      exact queueInv_transport (cleanupEmptyChunks_queue _)
        (cleanupEmptyChunks_queuedKeys _) (queueInv_drainSteps cam m e h)
    · rw [if_neg hm]
      exact queueInv_drainSteps cam m e h
  · intro e
    refine ⟨by simp [dispose, queueKeys], by simp [dispose], ?_⟩
    intro k
    simp [dispose, queueKeys]

def c10engine : Engine := addToQueue initialEngine (1, 1, 1) none

theorem C10_witness :
    QueueInv initialEngine ∧
    QueueInv c10engine ∧
    QueueInv (processBatchedVoxelUpdates c5cam (fun _ => 0) c10engine).engine ∧
    QueueInv (dispose c10engine) :=
  ⟨C10_queue_bookkeeping.1,
   C10_queue_bookkeeping.2.1 initialEngine (1, 1, 1) none
     C10_queue_bookkeeping.1,
   C10_queue_bookkeeping.2.2.1 c5cam (fun _ => 0) c10engine
     (C10_queue_bookkeeping.2.1 initialEngine (1, 1, 1) none
       C10_queue_bookkeeping.1),
   C10_queue_bookkeeping.2.2.2 c10engine⟩

end DVV

namespace DVV

/-! ## C4: frame-budget respect -/

def c4clock : Clock := fun t => if t = 0 then 0 else FRAME_BUDGET_MS

def c4queue : List (VoxelKey × Option VoxelData) :=
  (List.range 801).map (fun (i : Nat) => (((i : Int), 0, 0), none))

/-- An engine with 801 pending updates: just over the 80% overload mark. -/
def c4engine : Engine :=
  { initialEngine with
      voxelUpdateQueue := c4queue,
      queuedKeys := (List.range 801).map (fun (i : Nat) => ((i : Int), 0, 0)) }

set_option maxRecDepth 40000 in
theorem c4engine_len : c4engine.voxelUpdateQueue.length = 801 := by
  show c4queue.length = 801
  simp [c4queue]

/-- **C4 counterexample.** The claim says a drain pass pops no further item
once the elapsed time reaches the fixed `FRAME_BUDGET_MS = 14`. With 801
pending updates the queue is over 80% of `MAX_QUEUE_SIZE`, so the code
raises the budget to `FRAME_BUDGET_MS * 1.5 = 21` ms: under a clock whose
every reading after the start shows 14 ms elapsed — at the very first
budget check the elapsed time has already reached 14 ms — the pass still
pops and processes all 801 items. -/
theorem C4_counterexample :
    c4engine.voxelUpdateQueue.length = 801 ∧
    (∀ t, 1 ≤ t → c4clock t - c4clock 0 ≥ FRAME_BUDGET_MS) ∧
    (processBatchedVoxelUpdates c5cam c4clock c4engine).pc = 801 := by
  refine ⟨c4engine_len, ?_, ?_⟩
  · intro t ht
    unfold c4clock
    rw [if_neg (by omega), if_pos rfl]
    omega
  · have heb : effectiveBudget c4engine = OVERLOAD_BUDGET_MS := by
      unfold effectiveBudget
      rw [c4engine_len]
      rfl
    obtain ⟨m, _, hpc, _, _, _, hcomp⟩ := processBatched_spec c5cam c4clock c4engine
    have hm := hcomp ?_
    · rw [hpc, hm, c4engine_len]
    · intro u
      rw [heb]
      unfold c4clock OVERLOAD_BUDGET_MS
      split <;> simp [FRAME_BUDGET_MS]

/-- **C4** (amended): one drain pass processes some prefix of the pending
queue in order and leaves exactly the remaining suffix queued, in order, for
the next tick; every processed item was admitted by a wall-clock check that
read strictly less than the *effective* budget — which is `FRAME_BUDGET_MS`
(14 ms) normally but `FRAME_BUDGET_MS * 1.5` (21 ms) when the queue holds
more than 80% of `MAX_QUEUE_SIZE` — so once the elapsed time reaches the
effective budget no further item is popped. -/
theorem C4_budget_respect (cam : Cam) (clock : Clock) (e : Engine) :
    ∃ m : Nat,
      (processBatchedVoxelUpdates cam clock e).items =
        e.voxelUpdateQueue.take m ∧
      (processBatchedVoxelUpdates cam clock e).engine.voxelUpdateQueue =
        e.voxelUpdateQueue.drop m ∧
      (processBatchedVoxelUpdates cam clock e).pc = m ∧
      ∀ r ∈ (processBatchedVoxelUpdates cam clock e).reads,
        r - clock 0 < effectiveBudget e := by
  obtain ⟨m, hitems, hpc, hqueue, hreads, _, _⟩ := processBatched_spec cam clock e
  exact ⟨m, hitems, hqueue, hpc, hreads⟩

end DVV

namespace DVV

/-! ## C3: queue coalescing -/

theorem addToQueue_mem_self (e : Engine) (k : VoxelKey)
    (vd : Option VoxelData) : k ∈ (addToQueue e k vd).queuedKeys := by
  unfold addToQueue
  by_cases hk : k ∈ e.queuedKeys
  · rw [if_pos hk]
    exact hk
  · rw [if_neg hk]
    dsimp only
    split <;> exact (mem_setAdd _ _ _).mpr (Or.inr rfl)

theorem queueKeys_cons (p : VoxelKey × Option VoxelData)
    (tl : List (VoxelKey × Option VoxelData)) :
    queueKeys (p :: tl) = p.1 :: queueKeys tl := rfl

theorem queue_map_noop (q : List (VoxelKey × Option VoxelData)) (k : VoxelKey)
    (v : Option VoxelData) (h : k ∉ queueKeys q) :
    q.map (fun p => if p.1 = k then (k, v) else p) = q := by
  induction q with
  | nil => rfl
  | cons p tl ih =>
    have hp : ¬p.1 = k := by
      intro hh
      exact h (by rw [queueKeys_cons]; exact List.mem_cons.mpr (Or.inl hh.symm))
    have htl : k ∉ queueKeys tl := fun hh =>
      h (by rw [queueKeys_cons]; exact List.mem_cons.mpr (Or.inr hh))
    simp only [List.map_cons, if_neg hp, ih htl]

theorem replaceInQueue_eq_map (q : List (VoxelKey × Option VoxelData))
    (k : VoxelKey) (v : Option VoxelData) (h : (queueKeys q).Nodup) :
    replaceInQueue q k v = q.map (fun p => if p.1 = k then (k, v) else p) := by
  induction q with
  | nil => rfl
  | cons p tl ih =>
    obtain ⟨a, b⟩ := p
    have hck : queueKeys ((a, b) :: tl) = a :: queueKeys tl := rfl
    rw [hck] at h
    have hnd := List.nodup_cons.mp h
    by_cases hak : a = k
    · subst hak
      simp [replaceInQueue, queue_map_noop tl a v hnd.1]
    · simp only [replaceInQueue, if_neg hak, List.map_cons, ih hnd.2]

theorem filter_key_none (q : List (VoxelKey × Option VoxelData)) (k : VoxelKey)
    (h : k ∉ queueKeys q) :
    q.filter (fun p => p.1 = k) = [] := by
  induction q with
  | nil => rfl
  | cons p tl ih =>
    have hp : ¬p.1 = k := fun hh =>
      h (by rw [queueKeys_cons]; exact List.mem_cons.mpr (Or.inl hh.symm))
    have htl : k ∉ queueKeys tl := fun hh =>
      h (by rw [queueKeys_cons]; exact List.mem_cons.mpr (Or.inr hh))
    simp [List.filter_cons, hp, ih htl]

theorem filter_key_replaced (q : List (VoxelKey × Option VoxelData))
    (k : VoxelKey) (v : Option VoxelData) (h : (queueKeys q).Nodup)
    (hk : k ∈ queueKeys q) :
    (q.map (fun p => if p.1 = k then (k, v) else p)).filter
      (fun p => p.1 = k) = [(k, v)] := by
  induction q with
  | nil => simp [queueKeys] at hk
  | cons p tl ih =>
    obtain ⟨a, b⟩ := p
    have hck : queueKeys ((a, b) :: tl) = a :: queueKeys tl := rfl
    rw [hck] at h hk
    have hnd := List.nodup_cons.mp h
    by_cases hak : a = k
    · subst hak
      simp only [List.map_cons, if_pos rfl, List.filter_cons, decide_True,
        if_pos rfl]
      rw [queue_map_noop tl a v hnd.1, filter_key_none tl a hnd.1]
      simp
    · have hktl : k ∈ queueKeys tl := by
        rcases List.mem_cons.mp hk with h1 | h2
        · exact absurd h1.symm hak
        · exact h2
      simp only [List.map_cons, if_neg hak, List.filter_cons]
      rw [if_neg (by simpa using hak)]
      exact ih hnd.2 hktl

theorem frameBudget_le_effective (e : Engine) :
    FRAME_BUDGET_MS ≤ effectiveBudget e := by
  unfold effectiveBudget FRAME_BUDGET_MS OVERLOAD_BUDGET_MS
  split <;> omega

/-- **C3.** Queue coalescing: from any state satisfying the queue
bookkeeping invariant, enqueuing `(k, A)` and then `(k, B)` leaves the queue
equal to the post-first-enqueue queue with the entry for `k` replaced in
place (same position, not re-ordered), holding `B`; exactly one pending
entry for `k` exists, holding `B`; and a drain pass whose clock stays under
the frame budget processes every entry exactly once — the tally equals the
queue length — applying exactly one update for `k`, which carries `B`. -/
theorem C3_queue_coalescing (e : Engine) (k : VoxelKey)
    (A B : Option VoxelData) (hinv : QueueInv e) :
    (addToQueue (addToQueue e k A) k B).voxelUpdateQueue =
      (addToQueue e k A).voxelUpdateQueue.map
        (fun p => if p.1 = k then (k, B) else p) ∧
    (addToQueue (addToQueue e k A) k B).voxelUpdateQueue.filter
      (fun p => p.1 = k) = [(k, B)] ∧
    (∀ (cam : Cam) (clock : Clock),
      (∀ u, clock u - clock 0 < FRAME_BUDGET_MS) →
      (processBatchedVoxelUpdates cam clock
          (addToQueue (addToQueue e k A) k B)).pc =
        (addToQueue (addToQueue e k A) k B).voxelUpdateQueue.length ∧
      (processBatchedVoxelUpdates cam clock
          (addToQueue (addToQueue e k A) k B)).items.filter
        (fun p => p.1 = k) = [(k, B)]) := by
  have hinv1 : QueueInv (addToQueue e k A) := queueInv_addToQueue e k A hinv
  have hmem1 : k ∈ (addToQueue e k A).queuedKeys := addToQueue_mem_self e k A
  have hkeys1 : k ∈ queueKeys (addToQueue e k A).voxelUpdateQueue :=
    (hinv1.2.2 k).mp hmem1
  have hgen : ∀ e1 : Engine, QueueInv e1 → k ∈ e1.queuedKeys →
      (addToQueue e1 k B).voxelUpdateQueue =
        e1.voxelUpdateQueue.map (fun p => if p.1 = k then (k, B) else p) := by
    intro e1 h1 hm
    unfold addToQueue
    rw [if_pos hm]
    exact replaceInQueue_eq_map _ k B h1.1
  have hq2 : (addToQueue (addToQueue e k A) k B).voxelUpdateQueue =
      (addToQueue e k A).voxelUpdateQueue.map
        (fun p => if p.1 = k then (k, B) else p) :=
    hgen (addToQueue e k A) hinv1 hmem1
  have hfilter : (addToQueue (addToQueue e k A) k B).voxelUpdateQueue.filter
      (fun p => p.1 = k) = [(k, B)] := by
    rw [hq2]
    exact filter_key_replaced _ k B hinv1.1 hkeys1
  refine ⟨hq2, hfilter, ?_⟩
  intro cam clock hclock
  obtain ⟨m, hitems, hpc, _, _, _, hcomp⟩ :=
    processBatched_spec cam clock (addToQueue (addToQueue e k A) k B)
  have hm := hcomp (fun u =>
    lt_of_lt_of_le (hclock u) (frameBudget_le_effective _))
  constructor
  · rw [hpc, hm]
  · rw [hitems, hm, List.take_length]
    exact hfilter

def c3key : VoxelKey := (3, 3, 3)

def c3B : Option VoxelData := some ⟨3, 3, 3, .WALKABLE⟩

theorem C3_witness :
    (addToQueue (addToQueue initialEngine c3key none) c3key c3B).voxelUpdateQueue =
      (addToQueue initialEngine c3key none).voxelUpdateQueue.map
        (fun p => if p.1 = c3key then (c3key, c3B) else p) ∧
    (addToQueue (addToQueue initialEngine c3key none) c3key c3B).voxelUpdateQueue.filter
      (fun p => p.1 = c3key) = [(c3key, c3B)] ∧
    (∀ (cam : Cam) (clock : Clock),
      (∀ u, clock u - clock 0 < FRAME_BUDGET_MS) →
      (processBatchedVoxelUpdates cam clock
          (addToQueue (addToQueue initialEngine c3key none) c3key c3B)).pc =
        (addToQueue (addToQueue initialEngine c3key none) c3key c3B).voxelUpdateQueue.length ∧
      (processBatchedVoxelUpdates cam clock
          (addToQueue (addToQueue initialEngine c3key none) c3key c3B)).items.filter
        (fun p => p.1 = c3key) = [(c3key, c3B)]) :=
  C3_queue_coalescing initialEngine c3key none c3B queueInv_initial

end DVV

namespace DVV

/-! ## C1: slot non-aliasing invariant -/

/-- `k` currently holds record `i` in chunk `c`. -/
def InstIn (c : VoxelChunk) (k : VoxelKey) (i : VoxelInstance) : Prop :=
  mapGet c.voxelInstances k = some i

/-- The allocator invariant of one chunk: record keys are unique; within
any one (state, LOD) bucket no two live records share a slot index, no live
index sits on the free-list, the free-list is duplicate-free, and all live
and free indices are below the bucket's high-water mark. -/
structure ChunkInv (c : VoxelChunk) : Prop where
  keysNodup : (keysOf c.voxelInstances).Nodup
  noAlias : ∀ k1 k2 i1 i2, InstIn c k1 i1 → InstIn c k2 i2 → k1 ≠ k2 →
    i1.state = i2.state → i1.lodLevel = i2.lodLevel →
    i1.instanceIndex ≠ i2.instanceIndex
  liveNotFree : ∀ k i, InstIn c k i →
    i.instanceIndex ∉ (c.buckets i.state i.lodLevel).availableIndices
  freeNodup : ∀ s l, ((c.buckets s l).availableIndices).Nodup
  liveLt : ∀ k i, InstIn c k i →
    i.instanceIndex < (c.buckets i.state i.lodLevel).nextInstanceIndex
  freeLt : ∀ s l, ∀ j ∈ (c.buckets s l).availableIndices,
    j < (c.buckets s l).nextInstanceIndex

/-- The engine-wide invariant: chunk keys are unique and every chunk
satisfies its allocator invariant. -/
structure EngineInv (e : Engine) : Prop where
  chunkKeysNodup : (keysOf e.chunks).Nodup
  chunkInv : ∀ ck c, mapGet e.chunks ck = some c → ChunkInv c

theorem updateBucket_eq (f : VoxelState → LODLevel → Bucket) (s : VoxelState)
    (l : LODLevel) (b : Bucket) : updateBucket f s l b s l = b := by
  unfold updateBucket
  rw [if_pos ⟨rfl, rfl⟩]

theorem updateBucket_ne (f : VoxelState → LODLevel → Bucket) (s : VoxelState)
    (l : LODLevel) (b : Bucket) (s' : VoxelState) (l' : LODLevel)
    (h : ¬(s' = s ∧ l' = l)) : updateBucket f s l b s' l' = f s' l' := by
  unfold updateBucket
  rw [if_neg h]

theorem release_voxelInstances (c : VoxelChunk) (s : VoxelState)
    (l : LODLevel) (i : Nat) :
    (releaseInstanceIndex c s l i).voxelInstances = c.voxelInstances := rfl

theorem release_buckets_eq (c : VoxelChunk) (s : VoxelState) (l : LODLevel)
    (i : Nat) :
    (releaseInstanceIndex c s l i).buckets s l =
      { c.buckets s l with
          availableIndices := i :: (c.buckets s l).availableIndices } := by
  unfold releaseInstanceIndex
  exact updateBucket_eq _ _ _ _

theorem release_buckets_ne (c : VoxelChunk) (s : VoxelState) (l : LODLevel)
    (i : Nat) (s' : VoxelState) (l' : LODLevel) (h : ¬(s' = s ∧ l' = l)) :
    (releaseInstanceIndex c s l i).buckets s' l' = c.buckets s' l' := by
  unfold releaseInstanceIndex
  exact updateBucket_ne _ _ _ _ _ _ h

/-- Structural case analysis of an acquisition: recycle the head of the
free-list, or take a fresh index and bump the high-water mark. -/
theorem acquire_cases (c : VoxelChunk) (s : VoxelState) (l : LODLevel) :
    (getAvailableInstanceIndex c s l).2.voxelInstances = c.voxelInstances ∧
    (∀ s' l', ¬(s' = s ∧ l' = l) →
      (getAvailableInstanceIndex c s l).2.buckets s' l' = c.buckets s' l') ∧
    (((c.buckets s l).availableIndices =
        (getAvailableInstanceIndex c s l).1 ::
          ((getAvailableInstanceIndex c s l).2.buckets s l).availableIndices ∧
      ((getAvailableInstanceIndex c s l).2.buckets s l).nextInstanceIndex =
        (c.buckets s l).nextInstanceIndex) ∨
     ((c.buckets s l).availableIndices = [] ∧
      ((getAvailableInstanceIndex c s l).2.buckets s l).availableIndices = [] ∧
      (getAvailableInstanceIndex c s l).1 =
        (c.buckets s l).nextInstanceIndex ∧
      ((getAvailableInstanceIndex c s l).2.buckets s l).nextInstanceIndex =
        (c.buckets s l).nextInstanceIndex + 1)) := by
  unfold getAvailableInstanceIndex
  dsimp only
  cases havail : (c.buckets s l).availableIndices with
  | nil =>
    dsimp only
    refine ⟨rfl, ?_, Or.inr ⟨rfl, ?_, rfl, ?_⟩⟩
    · intro s' l' h
      exact updateBucket_ne _ _ _ _ _ _ h
    · rw [updateBucket_eq]
    · rw [updateBucket_eq]
  | cons i rest =>
    dsimp only
    refine ⟨rfl, ?_, Or.inl ⟨?_, ?_⟩⟩
    · intro s' l' h
      exact updateBucket_ne _ _ _ _ _ _ h
    · rw [updateBucket_eq]
    · rw [updateBucket_eq]

theorem chunkInv_emptyChunk : ChunkInv emptyChunk := by
  refine ⟨by simp [emptyChunk, keysOf], ?_, ?_, ?_, ?_, ?_⟩
  · intro k1 k2 i1 i2 h1
    exact absurd h1 (by simp [InstIn, emptyChunk, mapGet])
  · intro k i h1
    exact absurd h1 (by simp [InstIn, emptyChunk, mapGet])
  · intro s l
    simp [emptyChunk, Bucket.initial]
  · intro k i h1
    exact absurd h1 (by simp [InstIn, emptyChunk, mapGet])
  · intro s l j hj
    exact absurd hj (by simp [emptyChunk, Bucket.initial])

end DVV

namespace DVV

/-- Releasing a live record's slot and deleting the record preserves the
chunk invariant. This composite is the body of both the null-update /
cleanup removal path and the captured-instance eviction of
`enforceVoxelLimit` (when the captured instance is the live one). -/
theorem chunkInv_release_delete (c : VoxelChunk) (k : VoxelKey)
    (inst : VoxelInstance) (hg : mapGet c.voxelInstances k = some inst)
    (h : ChunkInv c) :
    ChunkInv { releaseInstanceIndex c inst.state inst.lodLevel
                 inst.instanceIndex with
               voxelInstances := mapDelete c.voxelInstances k } := by
  have hdel : ∀ k' i', mapGet (mapDelete c.voxelInstances k) k' = some i' →
      ¬k = k' ∧ mapGet c.voxelInstances k' = some i' := by
    intro k' i' hgk
    rw [mapGet_mapDelete _ _ _ h.keysNodup] at hgk
    by_cases hkk : k = k'
    · rw [if_pos hkk] at hgk
      exact absurd hgk (by simp)
    · rw [if_neg hkk] at hgk
      exact ⟨hkk, hgk⟩
  refine ⟨?_, ?_, ?_, ?_, ?_, ?_⟩
  · exact nodup_keysOf_mapDelete _ _ h.keysNodup
  · intro k1 k2 i1 i2 h1 h2 hne hs hl
    obtain ⟨_, h1'⟩ := hdel k1 i1 h1
    obtain ⟨_, h2'⟩ := hdel k2 i2 h2
    exact h.noAlias k1 k2 i1 i2 h1' h2' hne hs hl
  · intro k' i' h1
    obtain ⟨hkk, h1'⟩ := hdel k' i' h1
    show i'.instanceIndex ∉
      ((releaseInstanceIndex c inst.state inst.lodLevel
        inst.instanceIndex).buckets i'.state i'.lodLevel).availableIndices
    by_cases hb : i'.state = inst.state ∧ i'.lodLevel = inst.lodLevel
    · rw [hb.1, hb.2, release_buckets_eq]
      intro hmem
      rcases List.mem_cons.mp hmem with h2 | h2
      · exact h.noAlias k' k i' inst h1' hg (fun hh => hkk hh.symm)
          hb.1 hb.2 h2
      · have := h.liveNotFree k' i' h1'
        rw [hb.1, hb.2] at this
        exact this h2
    · rw [release_buckets_ne _ _ _ _ _ _ hb]
      exact h.liveNotFree k' i' h1'
  · intro s l
    show ((releaseInstanceIndex c inst.state inst.lodLevel
      inst.instanceIndex).buckets s l).availableIndices.Nodup
    by_cases hb : s = inst.state ∧ l = inst.lodLevel
    · obtain ⟨hbs, hbl⟩ := hb
      subst hbs; subst hbl
      rw [release_buckets_eq]
      exact List.nodup_cons.mpr ⟨h.liveNotFree k inst hg, h.freeNodup _ _⟩
    · rw [release_buckets_ne _ _ _ _ _ _ hb]
      exact h.freeNodup s l
  · intro k' i' h1
    obtain ⟨_, h1'⟩ := hdel k' i' h1
    show i'.instanceIndex <
      ((releaseInstanceIndex c inst.state inst.lodLevel
        inst.instanceIndex).buckets i'.state i'.lodLevel).nextInstanceIndex
    by_cases hb : i'.state = inst.state ∧ i'.lodLevel = inst.lodLevel
    · rw [hb.1, hb.2, release_buckets_eq]
      have := h.liveLt k' i' h1'
      rw [hb.1, hb.2] at this
      exact this
    · rw [release_buckets_ne _ _ _ _ _ _ hb]
      exact h.liveLt k' i' h1'
  · intro s l j hj
    by_cases hb : s = inst.state ∧ l = inst.lodLevel
    · obtain ⟨hbs, hbl⟩ := hb
      subst hbs; subst hbl
      rw [release_buckets_eq] at hj ⊢
      rcases List.mem_cons.mp hj with h2 | h2
      · rw [h2]
        exact h.liveLt k inst hg
      · exact h.freeLt _ _ j h2
    · rw [release_buckets_ne _ _ _ _ _ _ hb] at hj ⊢
      exact h.freeLt s l j hj

/-- `removeKeyFromChunk` preserves the chunk invariant. -/
theorem chunkInv_removeKey (k : VoxelKey) (c : VoxelChunk) (h : ChunkInv c) :
    ChunkInv (removeKeyFromChunk k c) := by
  unfold removeKeyFromChunk
  cases hg : mapGet c.voxelInstances k with
  | none => exact h
  | some inst =>
    dsimp only
    exact chunkInv_release_delete c k inst hg h

end DVV

namespace DVV

/-- Derived facts about one acquisition, needing only the free-list part of
the invariant on the target bucket (so they also apply mid-re-bucketing). -/
theorem acquire_facts (d : VoxelChunk) (s : VoxelState) (l : LODLevel)
    (hnodup : ((d.buckets s l).availableIndices).Nodup)
    (hflt : ∀ j ∈ (d.buckets s l).availableIndices,
      j < (d.buckets s l).nextInstanceIndex) :
    (getAvailableInstanceIndex d s l).2.voxelInstances = d.voxelInstances ∧
    (∀ s' l', ¬(s' = s ∧ l' = l) →
      (getAvailableInstanceIndex d s l).2.buckets s' l' = d.buckets s' l') ∧
    (getAvailableInstanceIndex d s l).1 ∉
      ((getAvailableInstanceIndex d s l).2.buckets s l).availableIndices ∧
    ((getAvailableInstanceIndex d s l).2.buckets s l).availableIndices.Nodup ∧
    (∀ j ∈ ((getAvailableInstanceIndex d s l).2.buckets s l).availableIndices,
      j ∈ (d.buckets s l).availableIndices) ∧
    (getAvailableInstanceIndex d s l).1 <
      ((getAvailableInstanceIndex d s l).2.buckets s l).nextInstanceIndex ∧
    (d.buckets s l).nextInstanceIndex ≤
      ((getAvailableInstanceIndex d s l).2.buckets s l).nextInstanceIndex ∧
    (∀ j ∈ ((getAvailableInstanceIndex d s l).2.buckets s l).availableIndices,
      j < ((getAvailableInstanceIndex d s l).2.buckets s l).nextInstanceIndex) ∧
    ((getAvailableInstanceIndex d s l).1 ∈ (d.buckets s l).availableIndices ∨
      (getAvailableInstanceIndex d s l).1 =
        (d.buckets s l).nextInstanceIndex) := by
  obtain ⟨hvi, hbne, hor⟩ := acquire_cases d s l
  rcases hor with ⟨hav, hnext⟩ | ⟨hav0, hav, hidx, hnext⟩
  · have hhead : (getAvailableInstanceIndex d s l).1 ∈
        (d.buckets s l).availableIndices := by
      rw [hav]; exact List.mem_cons_self _ _
    have hnd2 := hnodup
    rw [hav] at hnd2
    have hnd3 := List.nodup_cons.mp hnd2
    refine ⟨hvi, hbne, hnd3.1, hnd3.2, ?_, ?_, ?_, ?_, Or.inl hhead⟩
    · intro j hj
      rw [hav]
      exact List.mem_cons.mpr (Or.inr hj)
    · rw [hnext]
      exact hflt _ hhead
    · rw [hnext]
    · intro j hj
      rw [hnext]
      exact hflt j (by rw [hav]; exact List.mem_cons.mpr (Or.inr hj))
  · refine ⟨hvi, hbne, ?_, ?_, ?_, ?_, ?_, ?_, Or.inr hidx⟩
    · rw [hav]; simp
    · rw [hav]; simp
    · intro j hj; rw [hav] at hj; simp at hj
    · rw [hidx, hnext]; omega
    · rw [hnext]; omega
    · intro j hj; rw [hav] at hj; simp at hj

/-- Inserting a record for a fresh key with a freshly acquired slot
preserves the chunk invariant. -/
theorem chunkInv_insert_new (vd : VoxelData) (lod : LODLevel) (k : VoxelKey)
    (c : VoxelChunk) (h : ChunkInv c) :
    ChunkInv { (getAvailableInstanceIndex c vd.state lod).2 with
               voxelInstances :=
                 mapSet (getAvailableInstanceIndex c vd.state lod).2.voxelInstances
                   k ⟨vd.state, (getAvailableInstanceIndex c vd.state lod).1, lod⟩ } := by
  obtain ⟨hvi, hbne, hnotav, hndav, hsub, hlt, hmono, hflt2, hcase⟩ :=
    acquire_facts c vd.state lod (h.freeNodup _ _) (h.freeLt _ _)
  have hget : ∀ k', mapGet
      (mapSet (getAvailableInstanceIndex c vd.state lod).2.voxelInstances k
        ⟨vd.state, (getAvailableInstanceIndex c vd.state lod).1, lod⟩) k' =
      if k = k' then
        some ⟨vd.state, (getAvailableInstanceIndex c vd.state lod).1, lod⟩
      else mapGet c.voxelInstances k' := by
    intro k'
    rw [hvi, mapGet_mapSet]
  have hlive_ne : ∀ k' i', mapGet c.voxelInstances k' = some i' →
      i'.state = vd.state → i'.lodLevel = lod →
      i'.instanceIndex ≠ (getAvailableInstanceIndex c vd.state lod).1 := by
    intro k' i' h1 hs hl
    rcases hcase with hin | hfresh
    · intro heq
      have := h.liveNotFree k' i' h1
      rw [hs, hl] at this
      rw [← heq] at hin
      exact this hin
    · have := h.liveLt k' i' h1
      rw [hs, hl] at this
      omega
  refine ⟨?_, ?_, ?_, ?_, ?_, ?_⟩
  · show (keysOf (mapSet (getAvailableInstanceIndex c vd.state lod).2.voxelInstances k
      ⟨vd.state, (getAvailableInstanceIndex c vd.state lod).1, lod⟩)).Nodup
    rw [hvi]
    exact nodup_keysOf_mapSet _ _ _ h.keysNodup
  · intro k1 k2 i1 i2 h1 h2 hne hs hl
    have h1' := h1; have h2' := h2
    unfold InstIn at h1' h2'
    rw [hget] at h1' h2'
    by_cases hk1 : k = k1
    · rw [if_pos hk1] at h1'
      rw [if_neg (by rw [hk1]; exact hne)] at h2'
      have hi1 : i1 = ⟨vd.state, (getAvailableInstanceIndex c vd.state lod).1, lod⟩ :=
        (Option.some.inj h1').symm
      have := hlive_ne k2 i2 h2' (by rw [← hs, hi1]) (by rw [← hl, hi1])
      rw [hi1]
      exact fun hh => this hh.symm
    · rw [if_neg hk1] at h1'
      by_cases hk2 : k = k2
      · rw [if_pos hk2] at h2'
        have hi2 : i2 = ⟨vd.state, (getAvailableInstanceIndex c vd.state lod).1, lod⟩ :=
          (Option.some.inj h2').symm
        have := hlive_ne k1 i1 h1' (by rw [hs, hi2]) (by rw [hl, hi2])
        rw [hi2]
        exact this
      · rw [if_neg hk2] at h2'
        exact h.noAlias k1 k2 i1 i2 h1' h2' hne hs hl
  · intro k' i' h1
    have h1' := h1
    unfold InstIn at h1'
    rw [hget] at h1'
    show i'.instanceIndex ∉
      (((getAvailableInstanceIndex c vd.state lod).2).buckets i'.state
        i'.lodLevel).availableIndices
    by_cases hk' : k = k'
    · rw [if_pos hk'] at h1'
      have hi' : i' = ⟨vd.state, (getAvailableInstanceIndex c vd.state lod).1, lod⟩ :=
        (Option.some.inj h1').symm
      rw [hi']
      exact hnotav
    · rw [if_neg hk'] at h1'
      by_cases hb : i'.state = vd.state ∧ i'.lodLevel = lod
      · rw [hb.1, hb.2]
        intro hmem
        have := h.liveNotFree k' i' h1'
        rw [hb.1, hb.2] at this
        exact this (hsub _ hmem)
      · rw [hbne _ _ hb]
        exact h.liveNotFree k' i' h1'
  · intro s l
    show (((getAvailableInstanceIndex c vd.state lod).2).buckets s l).availableIndices.Nodup
    by_cases hb : s = vd.state ∧ l = lod
    · obtain ⟨hbs, hbl⟩ := hb
      subst hbs; subst hbl
      exact hndav
    · rw [hbne _ _ hb]
      exact h.freeNodup s l
  · intro k' i' h1
    have h1' := h1
    unfold InstIn at h1'
    rw [hget] at h1'
    show i'.instanceIndex <
      (((getAvailableInstanceIndex c vd.state lod).2).buckets i'.state
        i'.lodLevel).nextInstanceIndex
    by_cases hk' : k = k'
    · rw [if_pos hk'] at h1'
      have hi' : i' = ⟨vd.state, (getAvailableInstanceIndex c vd.state lod).1, lod⟩ :=
        (Option.some.inj h1').symm
      rw [hi']
      exact hlt
    · rw [if_neg hk'] at h1'
      by_cases hb : i'.state = vd.state ∧ i'.lodLevel = lod
      · rw [hb.1, hb.2]
        have := h.liveLt k' i' h1'
        rw [hb.1, hb.2] at this
        omega
      · rw [hbne _ _ hb]
        exact h.liveLt k' i' h1'
  · intro s l j hj
    by_cases hb : s = vd.state ∧ l = lod
    · obtain ⟨hbs, hbl⟩ := hb
      subst hbs; subst hbl
      exact hflt2 j hj
    · rw [hbne _ _ hb] at hj ⊢
      exact h.freeLt s l j hj

end DVV

namespace DVV

/-- Re-bucketing (release the old slot, acquire in the different new
bucket, replace the record in place) preserves the chunk invariant. -/
theorem chunkInv_rebucket (vd : VoxelData) (lod : LODLevel) (k : VoxelKey)
    (c : VoxelChunk) (inst : VoxelInstance) (h : ChunkInv c)
    (hg : mapGet c.voxelInstances k = some inst)
    (hOB : ¬(vd.state = inst.state ∧ lod = inst.lodLevel)) :
    ChunkInv
      { (getAvailableInstanceIndex
          (releaseInstanceIndex c inst.state inst.lodLevel inst.instanceIndex)
          vd.state lod).2 with
        voxelInstances :=
          mapSet (getAvailableInstanceIndex
              (releaseInstanceIndex c inst.state inst.lodLevel
                inst.instanceIndex) vd.state lod).2.voxelInstances k
            ⟨vd.state,
             (getAvailableInstanceIndex
               (releaseInstanceIndex c inst.state inst.lodLevel
                 inst.instanceIndex) vd.state lod).1, lod⟩ } := by
  set c1 := releaseInstanceIndex c inst.state inst.lodLevel inst.instanceIndex
    with hc1
  have hc1vi : c1.voxelInstances = c.voxelInstances := rfl
  have hc1NB : c1.buckets vd.state lod = c.buckets vd.state lod := by
    rw [hc1]
    exact release_buckets_ne _ _ _ _ _ _ hOB
  have hc1OB : c1.buckets inst.state inst.lodLevel =
      { c.buckets inst.state inst.lodLevel with
        availableIndices :=
          inst.instanceIndex ::
            (c.buckets inst.state inst.lodLevel).availableIndices } := by
    rw [hc1]
    exact release_buckets_eq _ _ _ _
  have hc1other : ∀ s' l', ¬(s' = inst.state ∧ l' = inst.lodLevel) →
      c1.buckets s' l' = c.buckets s' l' := by
    intro s' l' hne
    rw [hc1]
    exact release_buckets_ne _ _ _ _ _ _ hne
  obtain ⟨hvi, hbne, hnotav, hndav, hsub, hlt, hmono, hflt2, hcase⟩ :=
    acquire_facts c1 vd.state lod
      (by rw [hc1NB]; exact h.freeNodup _ _)
      (by rw [hc1NB]; exact h.freeLt _ _)
  rw [hc1NB] at hsub hmono hcase
  have hget : ∀ k', mapGet
      (mapSet (getAvailableInstanceIndex c1 vd.state lod).2.voxelInstances k
        ⟨vd.state, (getAvailableInstanceIndex c1 vd.state lod).1, lod⟩) k' =
      if k = k' then
        some ⟨vd.state, (getAvailableInstanceIndex c1 vd.state lod).1, lod⟩
      else mapGet c.voxelInstances k' := by
    intro k'
    rw [hvi, hc1vi, mapGet_mapSet]
  have hlive_ne : ∀ k' i', mapGet c.voxelInstances k' = some i' →
      i'.state = vd.state → i'.lodLevel = lod →
      i'.instanceIndex ≠ (getAvailableInstanceIndex c1 vd.state lod).1 := by
    intro k' i' h1 hs hl
    rcases hcase with hin | hfresh
    · intro heq
      have := h.liveNotFree k' i' h1
      rw [hs, hl] at this
      rw [← heq] at hin
      exact this hin
    · have := h.liveLt k' i' h1
      rw [hs, hl] at this
      rw [hfresh]
      omega
  refine ⟨?_, ?_, ?_, ?_, ?_, ?_⟩
  · show (keysOf (mapSet (getAvailableInstanceIndex c1 vd.state lod).2.voxelInstances k
      ⟨vd.state, (getAvailableInstanceIndex c1 vd.state lod).1, lod⟩)).Nodup
    rw [hvi, hc1vi]
    exact nodup_keysOf_mapSet _ _ _ h.keysNodup
  · intro k1 k2 i1 i2 h1 h2 hne hs hl
    have h1' := h1; have h2' := h2
    unfold InstIn at h1' h2'
    rw [hget] at h1' h2'
    by_cases hk1 : k = k1
    · rw [if_pos hk1] at h1'
      rw [if_neg (by rw [hk1]; exact hne)] at h2'
      have hi1 : i1 = ⟨vd.state, (getAvailableInstanceIndex c1 vd.state lod).1, lod⟩ :=
        (Option.some.inj h1').symm
      have := hlive_ne k2 i2 h2' (by rw [← hs, hi1]) (by rw [← hl, hi1])
      rw [hi1]
      exact fun hh => this hh.symm
    · rw [if_neg hk1] at h1'
      by_cases hk2 : k = k2
      · rw [if_pos hk2] at h2'
        have hi2 : i2 = ⟨vd.state, (getAvailableInstanceIndex c1 vd.state lod).1, lod⟩ :=
          (Option.some.inj h2').symm
        have := hlive_ne k1 i1 h1' (by rw [hs, hi2]) (by rw [hl, hi2])
        rw [hi2]
        exact this
      · rw [if_neg hk2] at h2'
        exact h.noAlias k1 k2 i1 i2 h1' h2' hne hs hl
  · intro k' i' h1
    have h1' := h1
    unfold InstIn at h1'
    rw [hget] at h1'
    show i'.instanceIndex ∉
      (((getAvailableInstanceIndex c1 vd.state lod).2).buckets i'.state
        i'.lodLevel).availableIndices
    by_cases hk' : k = k'
    · rw [if_pos hk'] at h1'
      have hi' : i' = ⟨vd.state, (getAvailableInstanceIndex c1 vd.state lod).1, lod⟩ :=
        (Option.some.inj h1').symm
      rw [hi']
      exact hnotav
    · rw [if_neg hk'] at h1'
      by_cases hbNB : i'.state = vd.state ∧ i'.lodLevel = lod
      · rw [hbNB.1, hbNB.2]
        intro hmem
        have := h.liveNotFree k' i' h1'
        rw [hbNB.1, hbNB.2] at this
        exact this (hsub _ hmem)
      · rw [hbne _ _ hbNB]
        by_cases hbOB : i'.state = inst.state ∧ i'.lodLevel = inst.lodLevel
        · rw [hbOB.1, hbOB.2, hc1OB]
          intro hmem
          rcases List.mem_cons.mp hmem with h2 | h2
          · exact h.noAlias k' k i' inst h1' hg (fun hh => hk' hh.symm)
              hbOB.1 hbOB.2 h2
          · have := h.liveNotFree k' i' h1'
            rw [hbOB.1, hbOB.2] at this
            exact this h2
        · rw [hc1other _ _ hbOB]
          exact h.liveNotFree k' i' h1'
  · intro s l
    show (((getAvailableInstanceIndex c1 vd.state lod).2).buckets s l).availableIndices.Nodup
    by_cases hbNB : s = vd.state ∧ l = lod
    · obtain ⟨hbs, hbl⟩ := hbNB
      subst hbs; subst hbl
      exact hndav
    · rw [hbne _ _ hbNB]
      by_cases hbOB : s = inst.state ∧ l = inst.lodLevel
      · obtain ⟨hbs, hbl⟩ := hbOB
        subst hbs; subst hbl
        rw [hc1OB]
        exact List.nodup_cons.mpr ⟨h.liveNotFree k inst hg, h.freeNodup _ _⟩
      · rw [hc1other _ _ hbOB]
        exact h.freeNodup s l
  · intro k' i' h1
    have h1' := h1
    unfold InstIn at h1'
    rw [hget] at h1'
    show i'.instanceIndex <
      (((getAvailableInstanceIndex c1 vd.state lod).2).buckets i'.state
        i'.lodLevel).nextInstanceIndex
    by_cases hk' : k = k'
    · rw [if_pos hk'] at h1'
      have hi' : i' = ⟨vd.state, (getAvailableInstanceIndex c1 vd.state lod).1, lod⟩ :=
        (Option.some.inj h1').symm
      rw [hi']
      exact hlt
    · rw [if_neg hk'] at h1'
      by_cases hbNB : i'.state = vd.state ∧ i'.lodLevel = lod
      · rw [hbNB.1, hbNB.2]
        have := h.liveLt k' i' h1'
        rw [hbNB.1, hbNB.2] at this
        omega
      · rw [hbne _ _ hbNB]
        by_cases hbOB : i'.state = inst.state ∧ i'.lodLevel = inst.lodLevel
        · rw [hbOB.1, hbOB.2, hc1OB]
          have := h.liveLt k' i' h1'
          rw [hbOB.1, hbOB.2] at this
          exact this
        · rw [hc1other _ _ hbOB]
          exact h.liveLt k' i' h1'
  · intro s l j hj
    by_cases hbNB : s = vd.state ∧ l = lod
    · obtain ⟨hbs, hbl⟩ := hbNB
      subst hbs; subst hbl
      exact hflt2 j hj
    · rw [hbne _ _ hbNB] at hj ⊢
      by_cases hbOB : s = inst.state ∧ l = inst.lodLevel
      · obtain ⟨hbs, hbl⟩ := hbOB
        subst hbs; subst hbl
        rw [hc1OB] at hj ⊢
        rcases List.mem_cons.mp hj with h2 | h2
        · rw [h2]
          exact h.liveLt k inst hg
        · exact h.freeLt _ _ j h2
      · rw [hc1other _ _ hbOB] at hj ⊢
        exact h.freeLt s l j hj

/-- `upsertIntoChunk` preserves the chunk invariant. -/
theorem chunkInv_upsert (vd : VoxelData) (lod : LODLevel) (k : VoxelKey)
    (c : VoxelChunk) (h : ChunkInv c) :
    ChunkInv (upsertIntoChunk vd lod k c) := by
  unfold upsertIntoChunk
  cases hg : mapGet c.voxelInstances k with
  | none =>
    dsimp only
    exact chunkInv_insert_new vd lod k c h
  | some inst =>
    dsimp only
    by_cases hdiff : inst.state ≠ vd.state ∨ inst.lodLevel ≠ lod
    · rw [if_pos hdiff]
      refine chunkInv_rebucket vd lod k c inst h hg ?_
      intro ⟨hs, hl⟩
      rcases hdiff with hd | hd
      · exact hd hs.symm
      · exact hd hl.symm
    · rw [if_neg hdiff]
      exact h

end DVV

namespace DVV

/-! ## Engine-level invariant preservation -/

theorem engineInv_transport (e' e : Engine) (h : e'.chunks = e.chunks)
    (hi : EngineInv e) : EngineInv e' := by
  refine ⟨by rw [h]; exact hi.chunkKeysNodup, ?_⟩
  intro ck c hc
  rw [h] at hc
  exact hi.chunkInv ck c hc

theorem engineInv_mapSetChunk (e : Engine) (ck : ChunkKey) (c : VoxelChunk)
    (hi : EngineInv e) (hc : ChunkInv c) :
    EngineInv { e with chunks := mapSet e.chunks ck c } := by
  refine ⟨nodup_keysOf_mapSet _ _ _ hi.chunkKeysNodup, ?_⟩
  intro ck' c' hc'
  have hc2 : mapGet (mapSet e.chunks ck c) ck' = some c' := hc'
  rw [mapGet_mapSet] at hc2
  by_cases h : ck = ck'
  · rw [if_pos h] at hc2
    rw [← Option.some.inj hc2]
    exact hc
  · rw [if_neg h] at hc2
    exact hi.chunkInv ck' c' hc2

theorem engineInv_processVoxelUpdate (cam : Cam) (e : Engine) (k : VoxelKey)
    (vd : Option VoxelData) (hi : EngineInv e) :
    EngineInv (processVoxelUpdate cam e k vd) := by
  cases vd with
  | none =>
    show EngineInv
      { e with chunks := e.chunks.map (fun p => (p.1, removeKeyFromChunk k p.2)) }
    refine ⟨?_, ?_⟩
    · show (keysOf (e.chunks.map (fun p => (p.1, removeKeyFromChunk k p.2)))).Nodup
      rw [keysOf_mapValues]
      exact hi.chunkKeysNodup
    · intro ck c hc
      have hc2 : mapGet (e.chunks.map (fun p => (p.1, removeKeyFromChunk k p.2))) ck =
          some c := hc
      rw [mapGet_mapValues] at hc2
      cases hg : mapGet e.chunks ck with
      | none => rw [hg] at hc2; exact absurd hc2 (by simp)
      | some c0 =>
        rw [hg] at hc2
        simp only [Option.map_some'] at hc2
        rw [← Option.some.inj hc2]
        exact chunkInv_removeKey k c0 (hi.chunkInv ck c0 hg)
  | some v =>
    by_cases hcul : calculateLODLevel cam v = .CULLED
    · rw [culled_upsert_is_noop cam e k v hcul]
      exact hi
    · cases hgoc : mapGet e.chunks (getChunkCoords v.x v.y v.z) with
      | some c0 =>
        have h2 : getOrCreateChunk e (getChunkCoords v.x v.y v.z) = (c0, e) := by
          unfold getOrCreateChunk
          rw [hgoc]
        have hchunks : (processVoxelUpdate cam e k (some v)).chunks =
            mapSet e.chunks (getChunkCoords v.x v.y v.z)
              (upsertIntoChunk v (calculateLODLevel cam v) k c0) := by
          rw [processUpsert_chunks cam e k v hcul]
          dsimp only
          rw [h2]
        exact engineInv_transport _ _ hchunks
          (engineInv_mapSetChunk e _ _ hi
            (chunkInv_upsert _ _ _ _ (hi.chunkInv _ c0 hgoc)))
      | none =>
        have h2 : getOrCreateChunk e (getChunkCoords v.x v.y v.z) =
            (emptyChunk,
             { e with chunks := mapSet e.chunks (getChunkCoords v.x v.y v.z) emptyChunk }) := by
          unfold getOrCreateChunk
          rw [hgoc]
        have hbase : EngineInv
            { e with chunks := mapSet e.chunks (getChunkCoords v.x v.y v.z) emptyChunk } :=
          engineInv_mapSetChunk e _ _ hi chunkInv_emptyChunk
        have hchunks : (processVoxelUpdate cam e k (some v)).chunks =
            mapSet (mapSet e.chunks (getChunkCoords v.x v.y v.z) emptyChunk)
              (getChunkCoords v.x v.y v.z)
              (upsertIntoChunk v (calculateLODLevel cam v) k emptyChunk) := by
          rw [processUpsert_chunks cam e k v hcul]
          dsimp only
          rw [h2]
        exact engineInv_transport _ _ hchunks
          (engineInv_mapSetChunk
            { e with chunks := mapSet e.chunks (getChunkCoords v.x v.y v.z) emptyChunk }
            _ _ hbase
            (chunkInv_upsert _ _ _ _ chunkInv_emptyChunk))

theorem addToQueue_chunks (e : Engine) (k : VoxelKey) (vd : Option VoxelData) :
    (addToQueue e k vd).chunks = e.chunks := by
  unfold addToQueue
  split
  · rfl
  · dsimp only
    split <;> rfl

theorem engineInv_addToQueue (e : Engine) (k : VoxelKey)
    (vd : Option VoxelData) (hi : EngineInv e) :
    EngineInv (addToQueue e k vd) :=
  engineInv_transport _ e (addToQueue_chunks e k vd) hi

theorem engineInv_drainSteps (cam : Cam) (n : Nat) :
    ∀ e : Engine, EngineInv e → EngineInv (drainSteps cam n e) := by
  induction n with
  | zero => exact fun e h => h
  | succ n ih =>
    intro e h
    rw [drainSteps_succ]
    split
    · exact h
    · next k vd rest heq =>
      exact ih _ (engineInv_processVoxelUpdate cam _ k vd
        (engineInv_transport _ e rfl h))

theorem engineInv_cleanupEmpty (e : Engine) (hi : EngineInv e) :
    EngineInv (cleanupEmptyChunks e) := by
  refine ⟨nodup_keysOf_filter _ _ hi.chunkKeysNodup, ?_⟩
  intro ck c hc
  exact hi.chunkInv ck c (mapGet_filter_some hi.chunkKeysNodup hc)

theorem engineInv_processBatched (cam : Cam) (clock : Clock) (e : Engine)
    (hi : EngineInv e) :
    EngineInv (processBatchedVoxelUpdates cam clock e).engine := by
  obtain ⟨m, _, _, _, _, heng, _⟩ := processBatched_spec cam clock e
  rw [heng]
  by_cases hm : 0 < m
  · rw [if_pos hm]
    exact engineInv_cleanupEmpty _ (engineInv_drainSteps cam m e hi)
  · rw [if_neg hm]
    exact engineInv_drainSteps cam m e hi

theorem engineInv_removeTarget (e : Engine) (t : ChunkKey × VoxelKey)
    (hi : EngineInv e) : EngineInv (removeTarget e t) := by
  unfold removeTarget
  cases hg : mapGet e.chunks t.1 with
  | none => exact hi
  | some c =>
    dsimp only
    exact engineInv_mapSetChunk _ _ _ hi
      (chunkInv_removeKey _ _ (hi.chunkInv _ _ hg))

theorem engineInv_periodicCleanup (cam : Cam) (now : Nat) (e : Engine)
    (hi : EngineInv e) : EngineInv (performPeriodicCleanup cam now e) := by
  unfold performPeriodicCleanup
  split
  · exact hi
  · dsimp only
    have hfold : ∀ (ts : List (ChunkKey × VoxelKey)) (e0 : Engine),
        EngineInv e0 → EngineInv (ts.foldl removeTarget e0) := by
      intro ts
      induction ts with
      | nil => exact fun e0 h => h
      | cons t tl ih =>
        intro e0 h
        rw [List.foldl_cons]
        exact ih _ (engineInv_removeTarget e0 t h)
    have hbase : EngineInv { e with lastCleanupTime := now } :=
      engineInv_transport _ e rfl hi
    split
    · exact hfold _ _ hbase
    · exact engineInv_cleanupEmpty _ (hfold _ _ hbase)

theorem engineInv_dispose (e : Engine) : EngineInv (dispose e) := by
  refine ⟨by simp [dispose, keysOf], ?_⟩
  intro ck c hc
  exact absurd hc (by simp [dispose, mapGet])

theorem engineInv_initial : EngineInv initialEngine := by
  refine ⟨by simp [initialEngine, keysOf], ?_⟩
  intro ck c hc
  exact absurd hc (by simp [initialEngine, mapGet])

end DVV

namespace DVV

/-! ## Ceiling-enforcement invariant machinery -/

/-- A collected eviction candidate whose captured instance is still the
chunk's live record for that key. -/
def accurate (e : Engine) (t : ChunkKey × VoxelKey × VoxelInstance) : Prop :=
  ∃ c, mapGet e.chunks t.1 = some c ∧
    mapGet c.voxelInstances t.2.1 = some t.2.2

theorem evictCaptured_eq_remove (c : VoxelChunk) (k : VoxelKey)
    (inst : VoxelInstance) (hg : mapGet c.voxelInstances k = some inst) :
    evictCaptured c k inst = removeKeyFromChunk k c := by
  unfold evictCaptured removeKeyFromChunk
  rw [hg]

theorem removeKeyFromChunk_instances (k : VoxelKey) (c : VoxelChunk)
    (inst : VoxelInstance) (hg : mapGet c.voxelInstances k = some inst) :
    (removeKeyFromChunk k c).voxelInstances = mapDelete c.voxelInstances k := by
  unfold removeKeyFromChunk
  rw [hg]
  rfl

theorem engineInv_evictOne (e : Engine) (t : ChunkKey × VoxelKey × VoxelInstance)
    (hi : EngineInv e) (ha : accurate e t) : EngineInv (evictOne e t) := by
  obtain ⟨c, hgc, hgi⟩ := ha
  unfold evictOne
  rw [hgc]
  dsimp only
  rw [evictCaptured_eq_remove c t.2.1 t.2.2 hgi]
  exact engineInv_mapSetChunk _ _ _ hi
    (chunkInv_removeKey _ _ (hi.chunkInv _ _ hgc))

theorem accurate_evictOne (e : Engine)
    (t t' : ChunkKey × VoxelKey × VoxelInstance) (hi : EngineInv e)
    (ha : accurate e t) (ha' : accurate e t')
    (hne : ¬(t'.1 = t.1 ∧ t'.2.1 = t.2.1)) : accurate (evictOne e t) t' := by
  obtain ⟨c, hgc, hgi⟩ := ha
  obtain ⟨c', hgc', hgi'⟩ := ha'
  unfold evictOne
  rw [hgc]
  dsimp only
  by_cases hck : t.1 = t'.1
  · have hcc : c' = c := by
      rw [← hck] at hgc'
      rw [hgc] at hgc'
      exact (Option.some.inj hgc').symm
    have hkne : ¬t.2.1 = t'.2.1 := by
      intro hh
      exact hne ⟨hck.symm, hh.symm⟩
    refine ⟨evictCaptured c t.2.1 t.2.2, ?_, ?_⟩
    · show mapGet (mapSet e.chunks t.1 (evictCaptured c t.2.1 t.2.2)) t'.1 =
        some (evictCaptured c t.2.1 t.2.2)
      rw [mapGet_mapSet, if_pos hck]
    · rw [evictCaptured_eq_remove c t.2.1 t.2.2 hgi,
        removeKeyFromChunk_instances t.2.1 c t.2.2 hgi,
        mapGet_mapDelete _ _ _ (hi.chunkInv _ _ hgc).keysNodup,
        if_neg hkne]
      rw [hcc] at hgi'
      exact hgi'
  · refine ⟨c', ?_, hgi'⟩
    show mapGet (mapSet e.chunks t.1 (evictCaptured c t.2.1 t.2.2)) t'.1 = some c'
    rw [mapGet_mapSet, if_neg hck]
    exact hgc'

theorem engineInv_foldEvict (items : List (ChunkKey × VoxelKey × VoxelInstance)) :
    ∀ e : Engine, EngineInv e →
      (∀ t ∈ items, accurate e t) →
      ((items.map (fun t => (t.1, t.2.1))).Nodup) →
      EngineInv (items.foldl evictOne e) := by
  induction items with
  | nil => exact fun e h _ _ => h
  | cons t tl ih =>
    intro e hi hacc hnd
    rw [List.foldl_cons]
    rw [List.map_cons] at hnd
    have hndc := List.nodup_cons.mp hnd
    refine ih (evictOne e t) (engineInv_evictOne e t hi (hacc t (by simp)))
      ?_ hndc.2
    intro t' ht'
    refine accurate_evictOne e t t' hi (hacc t (by simp))
      (hacc t' (List.mem_cons.mpr (Or.inr ht'))) ?_
    intro ⟨h1, h2⟩
    exact hndc.1 (by
      have : (t'.1, t'.2.1) ∈ tl.map (fun t => (t.1, t.2.1)) :=
        List.mem_map_of_mem _ ht'
      rw [h1, h2] at this
      exact this)

theorem insertDescBy_perm {α : Type} (f : α → Int) (x : α) :
    ∀ l : List α, (insertDescBy f x l).Perm (x :: l) := by
  intro l
  induction l with
  | nil => exact List.Perm.refl _
  | cons y ys ih =>
    unfold insertDescBy
    split
    · exact (ih.cons y).trans (List.Perm.swap x y ys)
    · exact List.Perm.refl _

theorem sortDescBy_perm {α : Type} (f : α → Int) (l : List α) :
    (sortDescBy f l).Perm l := by
  have haux : ∀ (l acc : List α),
      (l.foldl (fun acc x => insertDescBy f x acc) acc).Perm (l ++ acc) := by
    intro l
    induction l with
    | nil => intro acc; simp
    | cons x xs ih =>
      intro acc
      rw [List.foldl_cons]
      refine (ih (insertDescBy f x acc)).trans ?_
      refine (List.Perm.append_left xs (insertDescBy_perm f x acc)).trans ?_
      exact List.perm_middle
  have := haux l []
  simpa [sortDescBy] using this

end DVV

namespace DVV

theorem enforceTargets_accurate (e : Engine) (hi : EngineInv e) :
    ∀ t ∈ enforceTargets e, accurate e t := by
  intro t ht
  unfold enforceTargets at ht
  obtain ⟨p, hp, ht2⟩ := List.mem_flatMap.mp ht
  obtain ⟨q, hq2, hteq⟩ := List.mem_map.mp ht2
  have hq3 := List.mem_of_mem_filter hq2
  have hgc : mapGet e.chunks p.1 = some p.2 :=
    mapGet_eq_some_of_mem hi.chunkKeysNodup (by rwa [Prod.mk.eta])
  have hchunk := hi.chunkInv p.1 p.2 hgc
  have hgi : mapGet p.2.voxelInstances q.1 = some q.2 :=
    mapGet_eq_some_of_mem hchunk.keysNodup (by rwa [Prod.mk.eta])
  rw [← hteq]
  exact ⟨p.2, hgc, hgi⟩

theorem pairs_nodup_aux (l : List (ChunkKey × VoxelChunk))
    (hl : (l.map Prod.fst).Nodup)
    (hc : ∀ p ∈ l, (keysOf p.2.voxelInstances).Nodup) :
    ((l.flatMap (fun p =>
        ((p.2.voxelInstances.filter (fun q => !isCritical q.2.state)).map
          (fun q => (p.1, q.1, q.2))))).map
      (fun t => (t.1, t.2.1))).Nodup := by
  induction l with
  | nil => simp
  | cons p tl ih =>
    rw [List.flatMap_cons, List.map_append]
    rw [List.map_cons] at hl
    have hnd := List.nodup_cons.mp hl
    refine List.Nodup.append ?_ (ih hnd.2 (fun p' hp' => hc p' (by simp [hp']))) ?_
    · have heq : ((p.2.voxelInstances.filter
          (fun q => !isCritical q.2.state)).map
            (fun q => (p.1, q.1, q.2))).map (fun t => (t.1, t.2.1)) =
          ((p.2.voxelInstances.filter (fun q => !isCritical q.2.state)).map
            Prod.fst).map (Prod.mk p.1) := by
        rw [List.map_map, List.map_map]
        rfl
      rw [heq]
      refine List.Nodup.map (fun a b hab => ?_) ?_
      · exact (Prod.mk.injEq _ _ _ _ ▸ hab).2
      · have : ((p.2.voxelInstances.filter
            (fun q => !isCritical q.2.state)).map Prod.fst).Sublist
            (keysOf p.2.voxelInstances) :=
          (List.filter_sublist _).map Prod.fst
        exact this.nodup (hc p (by simp))
    · intro a ha ha'
      obtain ⟨t, ht, hteq⟩ := List.mem_map.mp ha
      obtain ⟨q, _, htq⟩ := List.mem_map.mp ht
      obtain ⟨t', ht', hteq'⟩ := List.mem_map.mp ha'
      obtain ⟨p', hp', ht'2⟩ := List.mem_flatMap.mp ht'
      obtain ⟨q', _, ht'q⟩ := List.mem_map.mp ht'2
      have hfst : a.1 = p.1 := by rw [← hteq, ← htq]
      have hfst' : a.1 = p'.1 := by rw [← hteq', ← ht'q]
      apply hnd.1
      have hpp : p.1 = p'.1 := by rw [← hfst, hfst']
      rw [hpp]
      exact List.mem_map_of_mem Prod.fst hp'

theorem enforceTargets_pairs_nodup (e : Engine) (hi : EngineInv e) :
    ((enforceTargets e).map (fun t => (t.1, t.2.1))).Nodup := by
  unfold enforceTargets
  exact pairs_nodup_aux e.chunks hi.chunkKeysNodup
    (fun p hp => (hi.chunkInv p.1 p.2
      (mapGet_eq_some_of_mem hi.chunkKeysNodup (by rwa [Prod.mk.eta]))).keysNodup)

theorem engineInv_enforce (cam : Cam) (e : Engine) (hi : EngineInv e) :
    EngineInv (enforceVoxelLimit cam e) := by
  rw [show enforceVoxelLimit cam e =
      (if getTotalVoxelCount e ≤ MAX_TOTAL_VOXELS then e
       else
        if (List.take
            (min (getTotalVoxelCount e - MAX_TOTAL_VOXELS)
              (sortDescBy (fun t => keyDistSq cam t.2.1)
                (enforceTargets e)).length)
            (sortDescBy (fun t => keyDistSq cam t.2.1)
              (enforceTargets e))).isEmpty
        then
          List.foldl evictOne e
            (List.take
              (min (getTotalVoxelCount e - MAX_TOTAL_VOXELS)
                (sortDescBy (fun t => keyDistSq cam t.2.1)
                  (enforceTargets e)).length)
              (sortDescBy (fun t => keyDistSq cam t.2.1)
                (enforceTargets e)))
        else
          cleanupEmptyChunks
            (List.foldl evictOne e
              (List.take
                (min (getTotalVoxelCount e - MAX_TOTAL_VOXELS)
                  (sortDescBy (fun t => keyDistSq cam t.2.1)
                    (enforceTargets e)).length)
                (sortDescBy (fun t => keyDistSq cam t.2.1)
                  (enforceTargets e))))) from rfl]
  split
  · exact hi
  · 
    have hperm := sortDescBy_perm (fun t => keyDistSq cam t.2.1)
      (enforceTargets e)
    have hacc : ∀ t ∈ (sortDescBy (fun t => keyDistSq cam t.2.1)
        (enforceTargets e)).take
          (min (getTotalVoxelCount e - MAX_TOTAL_VOXELS)
            (sortDescBy (fun t => keyDistSq cam t.2.1)
              (enforceTargets e)).length), accurate e t := by
      intro t ht
      exact enforceTargets_accurate e hi t
        (hperm.mem_iff.mp (List.mem_of_mem_take ht))
    have hnd : (((sortDescBy (fun t => keyDistSq cam t.2.1)
        (enforceTargets e)).take
          (min (getTotalVoxelCount e - MAX_TOTAL_VOXELS)
            (sortDescBy (fun t => keyDistSq cam t.2.1)
              (enforceTargets e)).length)).map
        (fun t => (t.1, t.2.1))).Nodup := by
      refine List.Sublist.nodup (List.Sublist.map _ (List.take_sublist _ _)) ?_
      exact (hperm.map _).symm.nodup (enforceTargets_pairs_nodup e hi)
    have hfold := engineInv_foldEvict _ e hi hacc hnd
    split
    · exact hfold
    · exact engineInv_cleanupEmpty _ hfold

theorem engineInv_updateVoxels (cam : Cam) (e : Engine)
    (m : JSMap VoxelKey VoxelData) (hi : EngineInv e) :
    EngineInv (updateVoxels cam e m) := by
  unfold updateVoxels
  have h1 : ∀ (ks : List VoxelKey) (e0 : Engine), EngineInv e0 →
      EngineInv (ks.foldl
        (fun acc k => if mapGet m k = none then addToQueue acc k none else acc)
        e0) := by
    intro ks
    induction ks with
    | nil => exact fun e0 h => h
    | cons k tl ih =>
      intro e0 h
      rw [List.foldl_cons]
      by_cases hk : mapGet m k = none
      · rw [if_pos hk]
        exact ih _ (engineInv_addToQueue e0 k none h)
      · rw [if_neg hk]
        exact ih _ h
  have h2 : ∀ (ps : List (VoxelKey × VoxelData)) (e0 : Engine), EngineInv e0 →
      EngineInv (ps.foldl
        (fun acc p =>
          if isCritical p.2.state then processVoxelUpdate cam acc p.1 (some p.2)
          else if shouldCullVoxel cam p.2 then acc
          else addToQueue acc p.1 (some p.2)) e0) := by
    intro ps
    induction ps with
    | nil => exact fun e0 h => h
    | cons p tl ih =>
      intro e0 h
      rw [List.foldl_cons]
      by_cases hcrit : isCritical p.2.state
      · rw [if_pos hcrit]
        exact ih _ (engineInv_processVoxelUpdate cam e0 p.1 (some p.2) h)
      · rw [if_neg hcrit]
        by_cases hcull : shouldCullVoxel cam p.2
        · rw [if_pos hcull]
          exact ih _ h
        · rw [if_neg hcull]
          exact ih _ (engineInv_addToQueue e0 p.1 (some p.2) h)
  exact h2 m _ (h1 (currentKeysOf e) e hi)

/-- Every engine operation preserves the allocator invariant. -/
theorem engineInv_step (e e' : Engine) (hs : Step e e') (hi : EngineInv e) :
    EngineInv e' := by
  cases hs with
  | processUpdate cam k vd e => exact engineInv_processVoxelUpdate cam e k vd hi
  | enqueue k vd e => exact engineInv_addToQueue e k vd hi
  | drain cam clock e => exact engineInv_processBatched cam clock e hi
  | applyChanges cam m e => exact engineInv_updateVoxels cam e m hi
  | cleanup cam now e => exact engineInv_periodicCleanup cam now e hi
  | enforce cam e => exact engineInv_enforce cam e hi
  | pruneEmpty e => exact engineInv_cleanupEmpty e hi
  | shutdown e => exact engineInv_dispose e

/-- Every reachable engine state satisfies the allocator invariant. -/
theorem engineInv_reachable (e : Engine) (h : Reachable e) : EngineInv e := by
  induction h with
  | init => exact engineInv_initial
  | step hr hs ih => exact engineInv_step _ _ hs ih

end DVV

namespace DVV

/-- **C1.** Slot non-aliasing: in every reachable engine state, two live
records of the same chunk that share a (state, LOD) bucket never hold the
same `instanceIndex`; every acquire/release pair performed by upserts,
deletes, LOD re-bucketing and the housekeeping passes preserves this. -/
theorem C1_slot_non_aliasing (e : Engine) (h : Reachable e) (ck : ChunkKey)
    (k1 k2 : VoxelKey) (i1 i2 : VoxelInstance)
    (h1 : instAt e ck k1 = some i1) (h2 : instAt e ck k2 = some i2)
    (hne : k1 ≠ k2) (hs : i1.state = i2.state)
    (hl : i1.lodLevel = i2.lodLevel) :
    i1.instanceIndex ≠ i2.instanceIndex := by
  have hi := engineInv_reachable e h
  rw [instAt_def] at h1 h2
  cases hg : mapGet e.chunks ck with
  | none =>
    rw [hg] at h1
    exact absurd h1 (by simp)
  | some c =>
    rw [hg, Option.some_bind] at h1 h2
    exact (hi.chunkInv ck c hg).noAlias k1 k2 i1 i2 h1 h2 hne hs hl

def c1camera : Cam := (0, 0, 0)

def c1engine : Engine :=
  processVoxelUpdate c1camera
    (processVoxelUpdate c1camera initialEngine (0, 0, 0)
      (some ⟨0, 0, 0, .WALKABLE⟩))
    (1, 0, 0) (some ⟨1, 0, 0, .WALKABLE⟩)

theorem c1engine_reachable : Reachable c1engine :=
  Reachable.step
    (Reachable.step Reachable.init
      (Step.processUpdate c1camera (0, 0, 0) (some ⟨0, 0, 0, .WALKABLE⟩)
        initialEngine))
    (Step.processUpdate c1camera (1, 0, 0) (some ⟨1, 0, 0, .WALKABLE⟩)
      (processVoxelUpdate c1camera initialEngine (0, 0, 0)
        (some ⟨0, 0, 0, .WALKABLE⟩)))

theorem C1_witness :
    instAt c1engine (0, 0, 0) (0, 0, 0) = some ⟨.WALKABLE, 0, .HIGH⟩ ∧
    instAt c1engine (0, 0, 0) (1, 0, 0) = some ⟨.WALKABLE, 1, .HIGH⟩ ∧
    (⟨.WALKABLE, 0, .HIGH⟩ : VoxelInstance).instanceIndex ≠
      (⟨.WALKABLE, 1, .HIGH⟩ : VoxelInstance).instanceIndex :=
  ⟨by decide, by decide,
   C1_slot_non_aliasing c1engine c1engine_reachable (0, 0, 0) (0, 0, 0)
     (1, 0, 0) ⟨.WALKABLE, 0, .HIGH⟩ ⟨.WALKABLE, 1, .HIGH⟩ (by decide)
     (by decide) (by decide) rfl rfl⟩

end DVV

namespace DVV

/-! ## C8: critical-state exemption -/

theorem mapGet_filter_of_mem {α β : Type} [DecidableEq α] {m : JSMap α β}
    {P : α × β → Bool} {k : α} {v : β} (hn : (keysOf m).Nodup)
    (hg : mapGet m k = some v) (hP : P (k, v) = true) :
    mapGet (m.filter P) k = some v :=
  mapGet_eq_some_of_mem (nodup_keysOf_filter m P hn)
    (List.mem_filter.mpr ⟨mem_of_mapGet_eq_some hg, hP⟩)

theorem instAt_cleanupEmpty (e : Engine) (ck : ChunkKey) (k : VoxelKey)
    (i : VoxelInstance) (hn : (keysOf e.chunks).Nodup)
    (h : instAt e ck k = some i) :
    instAt (cleanupEmptyChunks e) ck k = some i := by
  rw [instAt_def] at h ⊢
  cases hg : mapGet e.chunks ck with
  | none => rw [hg] at h; exact absurd h (by simp)
  | some c =>
    rw [hg, Option.some_bind] at h
    have hne : c.voxelInstances.isEmpty = false := by
      cases hvi : c.voxelInstances with
      | nil => rw [hvi] at h; exact absurd h (by simp [mapGet])
      | cons p tl => simp
    have : mapGet (cleanupEmptyChunks e).chunks ck = some c :=
      mapGet_filter_of_mem hn hg (by rw [hne]; rfl)
    rw [this, Option.some_bind]
    exact h

theorem instAt_removeTarget (e : Engine) (t : ChunkKey × VoxelKey)
    (ck : ChunkKey) (k : VoxelKey) (i : VoxelInstance) (hi : EngineInv e)
    (hne : ¬(t.1 = ck ∧ t.2 = k)) (h : instAt e ck k = some i) :
    instAt (removeTarget e t) ck k = some i := by
  unfold removeTarget
  cases hg : mapGet e.chunks t.1 with
  | none => exact h
  | some c =>
    dsimp only
    rw [instAt_def] at h ⊢
    show (mapGet (mapSet e.chunks t.1 (removeKeyFromChunk t.2 c)) ck).bind
      (fun c => mapGet c.voxelInstances k) = some i
    rw [mapGet_mapSet]
    by_cases hck : t.1 = ck
    · rw [if_pos hck, Option.some_bind]
      have hkne : ¬t.2 = k := fun hh => hne ⟨hck, hh⟩
      rw [← hck] at h
      rw [hg, Option.some_bind] at h
      unfold removeKeyFromChunk
      cases hg2 : mapGet c.voxelInstances t.2 with
      | none => exact h
      | some inst =>
        dsimp only
        show mapGet (mapDelete c.voxelInstances t.2) k = some i
        rw [mapGet_mapDelete _ _ _ (hi.chunkInv t.1 c hg).keysNodup,
          if_neg hkne]
        exact h
    · rw [if_neg hck]
      exact h

theorem instAt_foldRemove (ts : List (ChunkKey × VoxelKey)) (ck : ChunkKey)
    (k : VoxelKey) (i : VoxelInstance) :
    ∀ e : Engine, EngineInv e → (∀ t ∈ ts, ¬(t.1 = ck ∧ t.2 = k)) →
      instAt e ck k = some i →
      instAt (ts.foldl removeTarget e) ck k = some i := by
  induction ts with
  | nil => exact fun e _ _ h => h
  | cons t tl ih =>
    intro e hi hts h
    rw [List.foldl_cons]
    exact ih _ (engineInv_removeTarget e t hi)
      (fun t' ht' => hts t' (List.mem_cons.mpr (Or.inr ht')))
      (instAt_removeTarget e t ck k i hi (hts t (by simp)) h)

theorem critical_not_cleanup_target (cam : Cam) (e : Engine) (ck : ChunkKey)
    (k : VoxelKey) (i : VoxelInstance) (hi : EngineInv e)
    (h : instAt e ck k = some i) (hcrit : isCritical i.state = true) :
    ∀ t ∈ cleanupTargets cam e, ¬(t.1 = ck ∧ t.2 = k) := by
  intro t ht ⟨hck, hk⟩
  unfold cleanupTargets at ht
  obtain ⟨p, hp, ht2⟩ := List.mem_flatMap.mp ht
  obtain ⟨q, hq2, hteq⟩ := List.mem_map.mp ht2
  have hqcond := (List.mem_filter.mp hq2).2
  have hq3 := List.mem_of_mem_filter hq2
  have hgc : mapGet e.chunks p.1 = some p.2 :=
    mapGet_eq_some_of_mem hi.chunkKeysNodup (by rwa [Prod.mk.eta])
  have hchunk := hi.chunkInv p.1 p.2 hgc
  have hgi : mapGet p.2.voxelInstances q.1 = some q.2 :=
    mapGet_eq_some_of_mem hchunk.keysNodup (by rwa [Prod.mk.eta])
  have hp1 : p.1 = ck := by rw [← hck, ← hteq]
  have hq1 : q.1 = k := by rw [← hk, ← hteq]
  rw [hp1] at hgc
  rw [instAt_def, hgc, Option.some_bind] at h
  rw [hq1] at hgi
  have hqi : q.2 = i := Option.some.inj (hgi.symm.trans h)
  have hnc := (Bool.and_eq_true _ _).mp hqcond
  rw [hqi] at hnc
  rw [hcrit] at hnc
  exact absurd hnc.1 (by simp)

/-- **C8.** Critical-state exemption: a voxel whose state is
CURRENT_POSITION or CURRENT_TARGET always classifies as HIGH regardless of
camera distance, is never distance-culled, and in any reachable engine
state its live record survives a staleness-eviction pass
(`performPeriodicCleanup`) unchanged. -/
theorem C8_critical_exemption :
    (∀ (cam : Cam) (vd : VoxelData), isCritical vd.state = true →
      calculateLODLevel cam vd = .HIGH) ∧
    (∀ (cam : Cam) (vd : VoxelData), isCritical vd.state = true →
      shouldCullVoxel cam vd = false) ∧
    (∀ (cam : Cam) (now : Nat) (e : Engine), Reachable e →
      ∀ (ck : ChunkKey) (k : VoxelKey) (i : VoxelInstance),
        instAt e ck k = some i → isCritical i.state = true →
        instAt (performPeriodicCleanup cam now e) ck k = some i) := by
  refine ⟨?_, ?_, ?_⟩
  · intro cam vd h
    unfold calculateLODLevel
    rw [if_pos h]
  · intro cam vd h
    unfold shouldCullVoxel calculateLODLevel
    rw [if_pos h]
    simp
  · intro cam now e hr ck k i h hcrit
    have hi := engineInv_reachable e hr
    unfold performPeriodicCleanup
    split
    · exact h
    · dsimp only
      have hi0 : EngineInv { e with lastCleanupTime := now } :=
        engineInv_transport _ e rfl hi
      have h0 : instAt { e with lastCleanupTime := now } ck k = some i := h
      have hts := critical_not_cleanup_target cam
        { e with lastCleanupTime := now } ck k i hi0 h0 hcrit
      have hfold := instAt_foldRemove
        (cleanupTargets cam { e with lastCleanupTime := now }) ck k i
        { e with lastCleanupTime := now } hi0 hts h0
      split
      · exact hfold
      · refine instAt_cleanupEmpty _ ck k i ?_ hfold
        have hinv2 : EngineInv ((cleanupTargets cam
            { e with lastCleanupTime := now }).foldl removeTarget
              { e with lastCleanupTime := now }) := by
          have hf : ∀ (ts : List (ChunkKey × VoxelKey)) (e0 : Engine),
              EngineInv e0 → EngineInv (ts.foldl removeTarget e0) := by
            intro ts
            induction ts with
            | nil => exact fun e0 hh => hh
            | cons t tl ih =>
              intro e0 hh
              rw [List.foldl_cons]
              exact ih _ (engineInv_removeTarget e0 t hh)
          exact hf _ _ hi0
        exact hinv2.chunkKeysNodup

def c8engine : Engine :=
  processVoxelUpdate c1camera initialEngine (0, 0, 0)
    (some ⟨0, 0, 0, .CURRENT_POSITION⟩)

theorem c8engine_reachable : Reachable c8engine :=
  Reachable.step Reachable.init
    (Step.processUpdate c1camera (0, 0, 0)
      (some ⟨0, 0, 0, .CURRENT_POSITION⟩) initialEngine)

theorem C8_witness :
    calculateLODLevel (5000, 0, 0) ⟨0, 0, 0, .CURRENT_POSITION⟩ = .HIGH ∧
    shouldCullVoxel (5000, 0, 0) ⟨0, 0, 0, .CURRENT_TARGET⟩ = false ∧
    instAt (performPeriodicCleanup (5000, 0, 0) 99999 c8engine) (0, 0, 0)
      (0, 0, 0) = some ⟨.CURRENT_POSITION, 0, .HIGH⟩ :=
  ⟨C8_critical_exemption.1 (5000, 0, 0) ⟨0, 0, 0, .CURRENT_POSITION⟩
     (by decide),
   C8_critical_exemption.2.1 (5000, 0, 0) ⟨0, 0, 0, .CURRENT_TARGET⟩
     (by decide),
   C8_critical_exemption.2.2 (5000, 0, 0) 99999 c8engine c8engine_reachable
     (0, 0, 0) (0, 0, 0) ⟨.CURRENT_POSITION, 0, .HIGH⟩ (by decide)
     (by decide)⟩

end DVV

namespace DVV

/-! ## C7: ceiling enforcement machinery -/

theorem evictCaptured_instances (c : VoxelChunk) (k : VoxelKey)
    (inst : VoxelInstance) :
    (evictCaptured c k inst).voxelInstances = mapDelete c.voxelInstances k := rfl

theorem length_mapDelete {α β : Type} [DecidableEq α] (m : JSMap α β) (k : α)
    (v : β) (hg : mapGet m k = some v) :
    (mapDelete m k).length + 1 = m.length := by
  induction m with
  | nil => simp [mapGet] at hg
  | cons p tl ih =>
    obtain ⟨a, b⟩ := p
    by_cases hak : a = k
    · simp [mapDelete, hak]
    · have hg2 : mapGet tl k = some v := by
        have : mapGet ((a, b) :: tl) k = mapGet tl k := by simp [mapGet, hak]
        rw [← this]
        exact hg
      simp only [mapDelete, if_neg hak, List.length_cons]
      rw [← ih hg2]

theorem total_mapSet (m : JSMap ChunkKey VoxelChunk) (ck : ChunkKey)
    (c cnew : VoxelChunk) (hg : mapGet m ck = some c) :
    ((mapSet m ck cnew).map (fun p => p.2.voxelInstances.length)).sum +
      c.voxelInstances.length =
    (m.map (fun p => p.2.voxelInstances.length)).sum +
      cnew.voxelInstances.length := by
  induction m with
  | nil => simp [mapGet] at hg
  | cons p tl ih =>
    obtain ⟨a, b⟩ := p
    by_cases hak : a = ck
    · have hbc : b = c := by
        have : mapGet ((a, b) :: tl) ck = some b := by simp [mapGet, hak]
        exact Option.some.inj (this.symm.trans hg)
      subst hbc
      simp only [mapSet, if_pos hak, List.map_cons, List.sum_cons]
      omega
    · have hg2 : mapGet tl ck = some c := by
        have : mapGet ((a, b) :: tl) ck = mapGet tl ck := by simp [mapGet, hak]
        rw [← this]
        exact hg
      simp only [mapSet, if_neg hak, List.map_cons, List.sum_cons]
      have := ih hg2
      omega

theorem total_evictOne (e : Engine) (t : ChunkKey × VoxelKey × VoxelInstance)
    (ha : accurate e t) :
    getTotalVoxelCount (evictOne e t) + 1 = getTotalVoxelCount e := by
  obtain ⟨c, hgc, hgi⟩ := ha
  unfold evictOne
  rw [hgc]
  dsimp only
  show ((mapSet e.chunks t.1 (evictCaptured c t.2.1 t.2.2)).map
      (fun p => p.2.voxelInstances.length)).sum + 1 =
    (e.chunks.map (fun p => p.2.voxelInstances.length)).sum
  have htot := total_mapSet e.chunks t.1 c (evictCaptured c t.2.1 t.2.2) hgc
  have hlen : (evictCaptured c t.2.1 t.2.2).voxelInstances.length + 1 =
      c.voxelInstances.length := by
    rw [evictCaptured_instances]
    exact length_mapDelete _ _ _ hgi
  omega

theorem instAt_evictOne_other (e : Engine)
    (t : ChunkKey × VoxelKey × VoxelInstance) (ck : ChunkKey) (k : VoxelKey)
    (i : VoxelInstance) (hi : EngineInv e) (hne : ¬(t.1 = ck ∧ t.2.1 = k))
    (h : instAt e ck k = some i) : instAt (evictOne e t) ck k = some i := by
  unfold evictOne
  cases hg : mapGet e.chunks t.1 with
  | none => exact h
  | some c =>
    dsimp only
    rw [instAt_def] at h ⊢
    show (mapGet (mapSet e.chunks t.1 (evictCaptured c t.2.1 t.2.2)) ck).bind
      (fun c => mapGet c.voxelInstances k) = some i
    rw [mapGet_mapSet]
    by_cases hck : t.1 = ck
    · rw [if_pos hck, Option.some_bind, evictCaptured_instances,
        mapGet_mapDelete _ _ _ (hi.chunkInv t.1 c hg).keysNodup,
        if_neg (fun hh => hne ⟨hck, hh⟩)]
      rw [← hck] at h
      rw [hg, Option.some_bind] at h
      exact h
    · rw [if_neg hck]
      exact h

theorem instAt_evictOne_rev (e : Engine)
    (t : ChunkKey × VoxelKey × VoxelInstance) (ck : ChunkKey) (k : VoxelKey)
    (i : VoxelInstance) (hi : EngineInv e)
    (h : instAt (evictOne e t) ck k = some i) : instAt e ck k = some i := by
  unfold evictOne at h
  cases hg : mapGet e.chunks t.1 with
  | none => rw [hg] at h; exact h
  | some c =>
    rw [hg] at h
    dsimp only at h
    rw [instAt_def] at h ⊢
    dsimp only at h
    rw [mapGet_mapSet] at h
    by_cases hck : t.1 = ck
    · rw [if_pos hck, Option.some_bind, evictCaptured_instances,
        mapGet_mapDelete _ _ _ (hi.chunkInv t.1 c hg).keysNodup] at h
      by_cases hkk : t.2.1 = k
      · rw [if_pos hkk] at h
        exact absurd h (by simp)
      · rw [if_neg hkk] at h
        rw [← hck, hg, Option.some_bind]
        exact h
    · rw [if_neg hck] at h
      exact h

theorem instAt_evictOne_self (e : Engine)
    (t : ChunkKey × VoxelKey × VoxelInstance) (hi : EngineInv e)
    (ha : accurate e t) : instAt (evictOne e t) t.1 t.2.1 = none := by
  obtain ⟨c, hgc, hgi⟩ := ha
  unfold evictOne
  rw [hgc]
  dsimp only
  rw [instAt_def]
  show (mapGet (mapSet e.chunks t.1 (evictCaptured c t.2.1 t.2.2)) t.1).bind
    (fun c => mapGet c.voxelInstances t.2.1) = none
  rw [mapGet_mapSet, if_pos rfl, Option.some_bind, evictCaptured_instances,
    mapGet_mapDelete _ _ _ (hi.chunkInv t.1 c hgc).keysNodup, if_pos rfl]

theorem foldEvict_props (items : List (ChunkKey × VoxelKey × VoxelInstance)) :
    ∀ e : Engine, EngineInv e →
      (∀ t ∈ items, accurate e t) →
      ((items.map (fun t => (t.1, t.2.1))).Nodup) →
      EngineInv (items.foldl evictOne e) ∧
      getTotalVoxelCount (items.foldl evictOne e) + items.length =
        getTotalVoxelCount e ∧
      (∀ ck k i, instAt e ck k = some i →
        (∀ t ∈ items, ¬(t.1 = ck ∧ t.2.1 = k)) →
        instAt (items.foldl evictOne e) ck k = some i) ∧
      (∀ ck k i, instAt (items.foldl evictOne e) ck k = some i →
        instAt e ck k = some i) ∧
      (∀ t ∈ items, instAt (items.foldl evictOne e) t.1 t.2.1 = none) := by
  induction items with
  | nil =>
    intro e hi _ _
    exact ⟨hi, by simp, fun ck k i h _ => h, fun ck k i h => h,
      fun t ht => absurd ht (by simp)⟩
  | cons t tl ih =>
    intro e hi hacc hnd
    rw [List.map_cons] at hnd
    have hndc := List.nodup_cons.mp hnd
    have haccT := hacc t (by simp)
    have hinv1 := engineInv_evictOne e t hi haccT
    have hacc1 : ∀ t' ∈ tl, accurate (evictOne e t) t' := by
      intro t' ht'
      refine accurate_evictOne e t t' hi haccT
        (hacc t' (List.mem_cons.mpr (Or.inr ht'))) ?_
      intro ⟨h1, h2⟩
      exact hndc.1 (by
        have : (t'.1, t'.2.1) ∈ tl.map (fun t => (t.1, t.2.1)) :=
          List.mem_map_of_mem _ ht'
        rw [h1, h2] at this
        exact this)
    obtain ⟨ih1, ih2, ih3, ih4, ih5⟩ := ih (evictOne e t) hinv1 hacc1 hndc.2
    rw [List.foldl_cons]
    refine ⟨ih1, ?_, ?_, ?_, ?_⟩
    · have := total_evictOne e t haccT
      simp only [List.length_cons]
      omega
    · intro ck k i h hts
      exact ih3 ck k i
        (instAt_evictOne_other e t ck k i hi (hts t (by simp)) h)
        (fun t' ht' => hts t' (List.mem_cons.mpr (Or.inr ht')))
    · intro ck k i h
      exact instAt_evictOne_rev e t ck k i hi (ih4 ck k i h)
    · intro t' ht'
      rcases List.mem_cons.mp ht' with heq | hmem
      · subst heq
        cases hafter : instAt (tl.foldl evictOne (evictOne e t')) t'.1 t'.2.1 with
        | none => rfl
        | some j =>
          have hsome := ih4 t'.1 t'.2.1 j hafter
          have hnone := instAt_evictOne_self e t' hi haccT
          rw [hnone] at hsome
          exact absurd hsome (by simp)
      · exact ih5 t' hmem

end DVV

namespace DVV

theorem insertDescBy_pairwise {α : Type} (f : α → Int) (x : α) :
    ∀ l : List α, l.Pairwise (fun a b => f b ≤ f a) →
      (insertDescBy f x l).Pairwise (fun a b => f b ≤ f a) := by
  intro l
  induction l with
  | nil => intro _; simp [insertDescBy]
  | cons y ys ih =>
    intro h
    have hcons := List.pairwise_cons.mp h
    unfold insertDescBy
    by_cases hge : f y ≥ f x
    · rw [if_pos hge]
      refine List.pairwise_cons.mpr ⟨?_, ih hcons.2⟩
      intro a ha
      rcases List.mem_cons.mp ((insertDescBy_perm f x ys).mem_iff.mp ha)
        with h1 | h2
      · rw [h1]; exact hge
      · exact hcons.1 a h2
    · rw [if_neg hge]
      refine List.pairwise_cons.mpr ⟨?_, h⟩
      intro a ha
      rcases List.mem_cons.mp ha with h1 | h2
      · rw [h1]; omega
      · have := hcons.1 a h2
        omega

theorem sortDescBy_pairwise {α : Type} (f : α → Int) (l : List α) :
    (sortDescBy f l).Pairwise (fun a b => f b ≤ f a) := by
  have haux : ∀ (l acc : List α), acc.Pairwise (fun a b => f b ≤ f a) →
      (l.foldl (fun acc x => insertDescBy f x acc) acc).Pairwise
        (fun a b => f b ≤ f a) := by
    intro l
    induction l with
    | nil => exact fun acc h => h
    | cons x xs ih =>
      intro acc h
      rw [List.foldl_cons]
      exact ih _ (insertDescBy_pairwise f x acc h)
  exact haux l [] (by simp)

theorem enforceTargets_noncritical (e : Engine) :
    ∀ t ∈ enforceTargets e, isCritical t.2.2.state = false := by
  intro t ht
  unfold enforceTargets at ht
  obtain ⟨p, _, ht2⟩ := List.mem_flatMap.mp ht
  obtain ⟨q, hq2, hteq⟩ := List.mem_map.mp ht2
  have hqcond := (List.mem_filter.mp hq2).2
  have : t.2.2 = q.2 := by rw [← hteq]
  rw [this]
  simpa using hqcond

theorem mem_enforceTargets (e : Engine) (ck : ChunkKey) (k : VoxelKey)
    (i : VoxelInstance) (h : instAt e ck k = some i)
    (hnc : isCritical i.state = false) : (ck, k, i) ∈ enforceTargets e := by
  rw [instAt_def] at h
  cases hg : mapGet e.chunks ck with
  | none => rw [hg] at h; exact absurd h (by simp)
  | some c =>
    rw [hg, Option.some_bind] at h
    unfold enforceTargets
    refine List.mem_flatMap.mpr ⟨(ck, c), mem_of_mapGet_eq_some hg, ?_⟩
    refine List.mem_map.mpr ⟨(k, i), ?_, rfl⟩
    refine List.mem_filter.mpr ⟨mem_of_mapGet_eq_some h, ?_⟩
    simp [hnc]

theorem total_cleanupEmpty (e : Engine) :
    getTotalVoxelCount (cleanupEmptyChunks e) = getTotalVoxelCount e := by
  show ((e.chunks.filter (fun p => !p.2.voxelInstances.isEmpty)).map
    (fun p => p.2.voxelInstances.length)).sum =
    (e.chunks.map (fun p => p.2.voxelInstances.length)).sum
  induction e.chunks with
  | nil => rfl
  | cons p tl ih =>
    cases hp : p.2.voxelInstances.isEmpty with
    | true =>
      have hlen : p.2.voxelInstances.length = 0 := by
        rw [List.isEmpty_iff] at hp
        rw [hp]
        rfl
      rw [List.filter_cons_of_neg (by simp [hp]), List.map_cons,
        List.sum_cons, hlen, ih]
      omega
    | false =>
      rw [List.filter_cons_of_pos (by simp [hp]), List.map_cons,
        List.map_cons, List.sum_cons, List.sum_cons, ih]

theorem instAt_cleanupEmpty_rev (e : Engine) (ck : ChunkKey) (k : VoxelKey)
    (i : VoxelInstance) (hn : (keysOf e.chunks).Nodup)
    (h : instAt (cleanupEmptyChunks e) ck k = some i) :
    instAt e ck k = some i := by
  rw [instAt_def] at h ⊢
  cases hg : mapGet (cleanupEmptyChunks e).chunks ck with
  | none => rw [hg] at h; exact absurd h (by simp)
  | some c =>
    have hg2 : mapGet e.chunks ck = some c := mapGet_filter_some hn hg
    rw [hg, Option.some_bind] at h
    rw [hg2, Option.some_bind]
    exact h

end DVV

namespace DVV

/-- The `toRemove` list of `enforceVoxelLimit`: the farthest
`min(excess, available)` non-critical candidates. -/
def enforceRemoveList (cam : Cam) (e : Engine) :
    List (ChunkKey × VoxelKey × VoxelInstance) :=
  List.take (min (getTotalVoxelCount e - MAX_TOTAL_VOXELS)
      (sortDescBy (fun t => keyDistSq cam t.2.1) (enforceTargets e)).length)
    (sortDescBy (fun t => keyDistSq cam t.2.1) (enforceTargets e))

theorem enforceVoxelLimit_eq (cam : Cam) (e : Engine) :
    enforceVoxelLimit cam e =
      if getTotalVoxelCount e ≤ MAX_TOTAL_VOXELS then e
      else if (enforceRemoveList cam e).isEmpty then
        (enforceRemoveList cam e).foldl evictOne e
      else cleanupEmptyChunks ((enforceRemoveList cam e).foldl evictOne e) :=
  rfl

set_option maxRecDepth 40000 in
/-- **C7** (amended): when the live count exceeds `MAX_TOTAL_VOXELS`, the
enforcement pass evicts exactly `min(excess, #non-critical)` voxels — so it
reaches exactly the maximum only when enough non-critical voxels exist —
choosing non-critical voxels farthest from the camera first; voxels in
state CURRENT_POSITION or CURRENT_TARGET are never evicted, and the pass
never adds records. -/
theorem C7_ceiling_enforcement (cam : Cam) (e : Engine) (hi : EngineInv e)
    (hover : MAX_TOTAL_VOXELS < getTotalVoxelCount e) :
    (∀ ck k i, instAt e ck k = some i → isCritical i.state = true →
      instAt (enforceVoxelLimit cam e) ck k = some i) ∧
    getTotalVoxelCount (enforceVoxelLimit cam e) +
      min (getTotalVoxelCount e - MAX_TOTAL_VOXELS)
        (enforceTargets e).length = getTotalVoxelCount e ∧
    (∀ ck k i, instAt e ck k = some i →
      instAt (enforceVoxelLimit cam e) ck k = none →
      ∀ ck' k' i', instAt (enforceVoxelLimit cam e) ck' k' = some i' →
        isCritical i'.state = false →
        keyDistSq cam k' ≤ keyDistSq cam k) ∧
    (∀ ck k i, instAt (enforceVoxelLimit cam e) ck k = some i →
      instAt e ck k = some i) := by
  have hperm := sortDescBy_perm (fun t => keyDistSq cam t.2.1)
    (enforceTargets e)
  have hsubmem : ∀ t ∈ enforceRemoveList cam e, t ∈ enforceTargets e := by
    intro t ht
    exact hperm.mem_iff.mp (List.mem_of_mem_take ht)
  have hacc : ∀ t ∈ enforceRemoveList cam e, accurate e t :=
    fun t ht => enforceTargets_accurate e hi t (hsubmem t ht)
  have hnd : ((enforceRemoveList cam e).map (fun t => (t.1, t.2.1))).Nodup := by
    refine List.Sublist.nodup (List.Sublist.map _ (List.take_sublist _ _)) ?_
    exact (hperm.map _).symm.nodup (enforceTargets_pairs_nodup e hi)
  obtain ⟨hinv', hcount, hsurv, hrev, hdone⟩ :=
    foldEvict_props (enforceRemoveList cam e) e hi hacc hnd
  have hres : enforceVoxelLimit cam e =
      (if (enforceRemoveList cam e).isEmpty then
        (enforceRemoveList cam e).foldl evictOne e
       else cleanupEmptyChunks ((enforceRemoveList cam e).foldl evictOne e)) := by
    rw [enforceVoxelLimit_eq, if_neg (by omega)]
  have hres_some : ∀ ck k i,
      instAt (enforceVoxelLimit cam e) ck k = some i ↔
      instAt ((enforceRemoveList cam e).foldl evictOne e) ck k = some i := by
    intro ck k i
    rw [hres]
    split
    · exact Iff.rfl
    · exact ⟨instAt_cleanupEmpty_rev _ ck k i hinv'.chunkKeysNodup,
        instAt_cleanupEmpty _ ck k i hinv'.chunkKeysNodup⟩
  have htotal_res : getTotalVoxelCount (enforceVoxelLimit cam e) =
      getTotalVoxelCount ((enforceRemoveList cam e).foldl evictOne e) := by
    rw [hres]
    split
    · rfl
    · exact total_cleanupEmpty _
  have hlen : (enforceRemoveList cam e).length =
      min (getTotalVoxelCount e - MAX_TOTAL_VOXELS)
        (enforceTargets e).length := by
    unfold enforceRemoveList
    rw [List.length_take, hperm.length_eq]
    omega
  refine ⟨?_, ?_, ?_, ?_⟩
  · intro ck k i h hcrit
    have hnotarget : ∀ t ∈ enforceRemoveList cam e, ¬(t.1 = ck ∧ t.2.1 = k) := by
      intro t ht ⟨h1, h2⟩
      obtain ⟨c, hgc, hgi⟩ := hacc t ht
      rw [h1] at hgc
      rw [h2] at hgi
      rw [instAt_def, hgc, Option.some_bind] at h
      have hieq : i = t.2.2 := Option.some.inj (h.symm.trans hgi)
      have hnc := enforceTargets_noncritical e t (hsubmem t ht)
      rw [← hieq, hcrit] at hnc
      exact Bool.noConfusion hnc
    exact (hres_some ck k i).mpr (hsurv ck k i h hnotarget)
  · rw [htotal_res, ← hlen]
    exact hcount
  · intro ck k i h hafter ck' k' i' hsome' hnc'
    have hpair : ∃ t ∈ enforceRemoveList cam e, t.1 = ck ∧ t.2.1 = k := by
      by_contra hno
      push_neg at hno
      have hs := (hres_some ck k i).mpr (hsurv ck k i h
        (fun t ht hcon => hno t ht hcon.1 hcon.2))
      rw [hafter] at hs
      exact Option.noConfusion hs
    obtain ⟨t, ht, ht1, ht2⟩ := hpair
    have htake : enforceRemoveList cam e =
        List.take (min (getTotalVoxelCount e - MAX_TOTAL_VOXELS)
          (sortDescBy (fun t => keyDistSq cam t.2.1)
            (enforceTargets e)).length)
          (sortDescBy (fun t => keyDistSq cam t.2.1) (enforceTargets e)) := rfl
    have hsome_fold := (hres_some ck' k' i').mp hsome'
    have hbefore' := hrev ck' k' i' hsome_fold
    have hmem_sorted : (ck', k', i') ∈
        sortDescBy (fun t => keyDistSq cam t.2.1) (enforceTargets e) :=
      hperm.mem_iff.mpr (mem_enforceTargets e ck' k' i' hbefore' hnc')
    have hnot_rl : (ck', k', i') ∉ enforceRemoveList cam e := by
      intro hmem
      have h0 := hdone (ck', k', i') hmem
      dsimp only at h0
      rw [h0] at hsome_fold
      exact Option.noConfusion hsome_fold
    rw [← List.take_append_drop (min (getTotalVoxelCount e - MAX_TOTAL_VOXELS)
      (sortDescBy (fun t => keyDistSq cam t.2.1) (enforceTargets e)).length)
      (sortDescBy (fun t => keyDistSq cam t.2.1) (enforceTargets e))]
      at hmem_sorted
    rcases List.mem_append.mp hmem_sorted with hL | hR
    · exact absurd (htake.symm ▸ hL) hnot_rl
    · have hpw := sortDescBy_pairwise (fun t => keyDistSq cam t.2.1)
        (enforceTargets e)
      rw [← List.take_append_drop
        (min (getTotalVoxelCount e - MAX_TOTAL_VOXELS)
          (sortDescBy (fun t => keyDistSq cam t.2.1)
            (enforceTargets e)).length)
        (sortDescBy (fun t => keyDistSq cam t.2.1) (enforceTargets e))] at hpw
      have hsep := (List.pairwise_append.mp hpw).2.2
      have hle := hsep t (htake ▸ ht) (ck', k', i') hR
      rw [ht2] at hle
      exact hle
  · intro ck k i h
    exact hrev ck k i ((hres_some ck k i).mp h)

end DVV

namespace DVV

/-! ## C7: the all-critical overfull engine -/

def c7cam : Cam := (0, 0, 0)

def c7mk (i : Nat) : VoxelKey × VoxelInstance :=
  (((i : Int), 0, 0), ⟨.CURRENT_POSITION, i, .HIGH⟩)

def c7records : JSMap VoxelKey VoxelInstance := (List.range 8001).map c7mk

def c7chunk : VoxelChunk :=
  { voxelInstances := c7records
    buckets := fun _ _ => ⟨[], 8001, 8001⟩ }

def c7engine : Engine := { initialEngine with chunks := [((0, 0, 0), c7chunk)] }

theorem c7total : getTotalVoxelCount c7engine = 8001 := by
  show ([(((0 : Int), (0 : Int), (0 : Int)), c7chunk)].map
    (fun p => p.2.voxelInstances.length)).sum = 8001
  rw [List.map_cons, List.map_nil, List.sum_cons, List.sum_nil]
  simp only [c7chunk, c7records, List.length_map, List.length_range]
  omega

theorem c7targets : enforceTargets c7engine = [] := by
  show ([(((0 : Int), (0 : Int), (0 : Int)), c7chunk)].flatMap
    (fun p => ((p.2.voxelInstances.filter
      (fun q => !isCritical q.2.state)).map (fun q => (p.1, q.1, q.2))))) = []
  rw [List.flatMap_cons, List.flatMap_nil, List.append_nil]
  have hf : c7chunk.voxelInstances.filter
      (fun q => !isCritical q.2.state) = [] := by
    simp only [c7chunk, c7records]
    rw [List.filter_eq_nil_iff]
    intro q hq
    obtain ⟨i, _, heq⟩ := List.mem_map.mp hq
    rw [← heq]
    simp [c7mk, isCritical]
  rw [hf, List.map_nil]

theorem c7rl : enforceRemoveList c7cam c7engine = [] := by
  unfold enforceRemoveList
  rw [c7targets]
  rw [show sortDescBy (fun t => keyDistSq c7cam t.2.1)
    ([] : List (ChunkKey × VoxelKey × VoxelInstance)) = [] from rfl]
  exact List.take_nil

theorem c7noop : enforceVoxelLimit c7cam c7engine = c7engine := by
  rw [enforceVoxelLimit_eq]
  rw [if_neg (by rw [c7total]; decide)]
  rw [c7rl]
  rw [if_pos (by rfl)]
  rfl

/-- **C7** counterexample: an engine holding 8001 live voxels, all in state
CURRENT_POSITION, exceeds MAX_TOTAL_VOXELS = 8000, yet the enforcement pass
finds no non-critical candidates, evicts nothing, and leaves 8001 live
voxels — not "exactly the maximum". -/
theorem C7_counterexample :
    MAX_TOTAL_VOXELS < getTotalVoxelCount c7engine ∧
    enforceVoxelLimit c7cam c7engine = c7engine ∧
    getTotalVoxelCount (enforceVoxelLimit c7cam c7engine) ≠
      MAX_TOTAL_VOXELS := by
  refine ⟨by rw [c7total]; decide, c7noop, ?_⟩
  rw [c7noop, c7total]
  decide

theorem c7_instIn (k : VoxelKey) (inst : VoxelInstance)
    (h : InstIn c7chunk k inst) :
    ∃ i : Nat, i < 8001 ∧ k = ((i : Int), 0, 0) ∧
      inst = ⟨.CURRENT_POSITION, i, .HIGH⟩ := by
  have hm : (k, inst) ∈ c7chunk.voxelInstances := mem_of_mapGet_eq_some h
  simp only [c7chunk, c7records] at hm
  obtain ⟨i, hi, heq⟩ := List.mem_map.mp hm
  refine ⟨i, List.mem_range.mp hi, ?_, ?_⟩
  · exact (congrArg Prod.fst heq).symm
  · exact (congrArg Prod.snd heq).symm

theorem c7keyinj :
    Function.Injective
      (fun i : Nat => (((i : Int), (0 : Int), (0 : Int)) : VoxelKey)) := by
  intro a b h
  have h2 : (a : Int) = (b : Int) := congrArg Prod.fst h
  exact Nat.cast_inj.mp h2

theorem c7chunkInv : ChunkInv c7chunk := by
  refine ⟨?_, ?_, ?_, ?_, ?_, ?_⟩
  · show (keysOf c7chunk.voxelInstances).Nodup
    simp only [c7chunk, c7records, keysOf, List.map_map]
    exact (List.nodup_range 8001).map c7keyinj
  · intro k1 k2 i1 i2 h1 h2 hne _ _
    obtain ⟨a, _, hka, hia⟩ := c7_instIn k1 i1 h1
    obtain ⟨b, _, hkb, hib⟩ := c7_instIn k2 i2 h2
    intro hidx
    apply hne
    rw [hia, hib] at hidx
    have hab : a = b := hidx
    rw [hka, hkb, hab]
  · intro k i h
    obtain ⟨a, _, _, hia⟩ := c7_instIn k i h
    rw [hia]
    exact List.not_mem_nil a
  · intro s l
    exact List.nodup_nil
  · intro k i h
    obtain ⟨a, ha, _, hia⟩ := c7_instIn k i h
    rw [hia]
    exact ha
  · intro s l j hj
    exact absurd hj (List.not_mem_nil j)

theorem c7engineInv : EngineInv c7engine := by
  refine ⟨?_, ?_⟩
  · show ([(((0 : Int), (0 : Int), (0 : Int)), c7chunk)].map Prod.fst).Nodup
    simp
  · intro ck c h
    have h2 : (ck, c) ∈
        ([(((0 : Int), (0 : Int), (0 : Int)), c7chunk)] :
          JSMap ChunkKey VoxelChunk) := mem_of_mapGet_eq_some h
    have h3 := List.mem_singleton.mp h2
    have hc : c = c7chunk := congrArg Prod.snd h3
    rw [hc]
    exact c7chunkInv

/-- **C7** witness: the amended eviction-count law applied to the concrete
all-critical overfull engine — no candidate exists, so the count stays
8001. -/
theorem C7_witness :
    EngineInv c7engine ∧ MAX_TOTAL_VOXELS < getTotalVoxelCount c7engine ∧
    getTotalVoxelCount (enforceVoxelLimit c7cam c7engine) +
      min (getTotalVoxelCount c7engine - MAX_TOTAL_VOXELS)
        (enforceTargets c7engine).length = getTotalVoxelCount c7engine :=
  ⟨c7engineInv, by rw [c7total]; decide,
    (C7_ceiling_enforcement c7cam c7engine c7engineInv
      (by rw [c7total]; decide)).2.1⟩

end DVV

namespace DVV

/-! ## C9: the synchronous critical-update fast path -/

/-- The LOD classifier short-circuits to HIGH for critical states. -/
theorem calculateLOD_critical (cam : Cam) (vd : VoxelData)
    (h : isCritical vd.state = true) : calculateLODLevel cam vd = .HIGH := by
  unfold calculateLODLevel
  rw [if_pos h]

theorem critical_not_culled (cam : Cam) (vd : VoxelData)
    (h : isCritical vd.state = true) :
    ¬calculateLODLevel cam vd = .CULLED := by
  rw [calculateLOD_critical cam vd h]
  intro hcon
  exact LODLevel.noConfusion hcon

theorem addToQueue_cpk (e : Engine) (k : VoxelKey) (vd : Option VoxelData) :
    (addToQueue e k vd).currentPositionKey = e.currentPositionKey := by
  unfold addToQueue
  split
  · rfl
  · dsimp only
    split <;> rfl

theorem addToQueue_followT (e : Engine) (k : VoxelKey)
    (vd : Option VoxelData) :
    (addToQueue e k vd).cameraFollowTarget = e.cameraFollowTarget := by
  unfold addToQueue
  split
  · rfl
  · dsimp only
    split <;> rfl

theorem addToQueue_isFollowing (e : Engine) (k : VoxelKey)
    (vd : Option VoxelData) :
    (addToQueue e k vd).isFollowingEnabled = e.isFollowingEnabled := by
  unfold addToQueue
  split
  · rfl
  · dsimp only
    split <;> rfl

/-- Enqueuing can add only its own key to the deduplication set. -/
theorem mem_addToQueue_queuedKeys (e : Engine) (k : VoxelKey)
    (vd : Option VoxelData) (x : VoxelKey)
    (h : x ∈ (addToQueue e k vd).queuedKeys) : x ∈ e.queuedKeys ∨ x = k := by
  unfold addToQueue at h
  split at h
  · exact Or.inl h
  · dsimp only at h
    split at h
    · rcases (mem_setAdd _ _ _).mp h with h1 | h2
      · exact Or.inl ((mem_setDeleteAll _ _ _).mp h1).1
      · exact Or.inr h2
    · rcases (mem_setAdd _ _ _).mp h with h1 | h2
      · exact Or.inl h1
      · exact Or.inr h2

theorem processVoxelUpdate_isFollowing (cam : Cam) (e : Engine)
    (k : VoxelKey) (vd : Option VoxelData) :
    (processVoxelUpdate cam e k vd).isFollowingEnabled =
      e.isFollowingEnabled := by
  cases vd with
  | none => rfl
  | some v =>
    unfold processVoxelUpdate getOrCreateChunk
    dsimp only
    split
    · rfl
    · split <;> split <;> split <;> rfl

/-- A non-CURRENT_POSITION upsert leaves the tracked position key alone. -/
theorem processUpsert_cpk_other (cam : Cam) (e : Engine) (k : VoxelKey)
    (vd : VoxelData) (h : ¬vd.state = .CURRENT_POSITION) :
    (processVoxelUpdate cam e k (some vd)).currentPositionKey =
      e.currentPositionKey := by
  unfold processVoxelUpdate getOrCreateChunk
  simp only [if_neg h]
  split <;> first
    | rfl
    | (split <;> first
        | rfl
        | (split <;> rfl))

/-- A non-CURRENT_POSITION upsert leaves the follow target alone. -/
theorem processUpsert_followT_other (cam : Cam) (e : Engine) (k : VoxelKey)
    (vd : VoxelData) (h : ¬vd.state = .CURRENT_POSITION) :
    (processVoxelUpdate cam e k (some vd)).cameraFollowTarget =
      e.cameraFollowTarget := by
  unfold processVoxelUpdate getOrCreateChunk
  simp only [if_neg h]
  split <;> first
    | rfl
    | (split <;> first
        | rfl
        | (split <;> rfl))

/-- A CURRENT_POSITION upsert records the key and, when following is
enabled, snaps the follow target to the voxel's coordinates. -/
theorem processUpsert_cpk_self (cam : Cam) (e : Engine) (k : VoxelKey)
    (vd : VoxelData) (h : vd.state = .CURRENT_POSITION) :
    (processVoxelUpdate cam e k (some vd)).currentPositionKey = some k ∧
    (processVoxelUpdate cam e k (some vd)).cameraFollowTarget =
      (if e.isFollowingEnabled then (vd.x, vd.y, vd.z)
       else e.cameraFollowTarget) := by
  have hcrit : isCritical vd.state = true := by rw [h]; rfl
  have hnc := critical_not_culled cam vd hcrit
  have hct : ¬vd.state = .CURRENT_TARGET := by
    rw [h]
    intro hcon
    exact VoxelState.noConfusion hcon
  unfold processVoxelUpdate getOrCreateChunk
  simp only [if_neg hnc, if_pos h, if_neg hct]
  cases hg : mapGet e.chunks (getChunkCoords vd.x vd.y vd.z) with
  | some c =>
    dsimp only
    exact ⟨trivial, rfl⟩
  | none =>
    dsimp only
    exact ⟨trivial, rfl⟩

theorem instAt_congr_chunks (e' e : Engine) (ck : ChunkKey) (k : VoxelKey)
    (h : e'.chunks = e.chunks) : instAt e' ck k = instAt e ck k := by
  rw [instAt_def, instAt_def, h]

/-- The upsert never disturbs another key's record in the chunk. -/
theorem upsertIntoChunk_get_other (vd : VoxelData) (lod : LODLevel)
    (k' k : VoxelKey) (c : VoxelChunk) (hk : ¬k' = k) :
    mapGet (upsertIntoChunk vd lod k' c).voxelInstances k =
      mapGet c.voxelInstances k := by
  unfold upsertIntoChunk
  cases hg : mapGet c.voxelInstances k' with
  | some inst =>
    dsimp only
    split
    · dsimp only
      rw [mapGet_mapSet, if_neg hk,
        (acquire_cases (releaseInstanceIndex c inst.state inst.lodLevel
          inst.instanceIndex) vd.state lod).1,
        release_voxelInstances]
    · rfl
  | none =>
    dsimp only
    rw [mapGet_mapSet, if_neg hk, (acquire_cases c vd.state lod).1]

end DVV

namespace DVV

/-- An upsert for a different key never changes what any chunk stores for
this key. -/
theorem instAt_processUpsert_other (cam : Cam) (e : Engine) (k' : VoxelKey)
    (vd : VoxelData) (ck : ChunkKey) (k : VoxelKey) (hk : ¬k' = k) :
    instAt (processVoxelUpdate cam e k' (some vd)) ck k = instAt e ck k := by
  by_cases hc : calculateLODLevel cam vd = .CULLED
  · rw [show processVoxelUpdate cam e k' (some vd) = e from by
      unfold processVoxelUpdate
      dsimp only
      rw [if_pos hc]]
  · rw [instAt_def, processUpsert_chunks cam e k' vd hc]
    dsimp only
    rw [mapGet_mapSet]
    by_cases hck : getChunkCoords vd.x vd.y vd.z = ck
    · rw [if_pos hck, Option.some_bind,
        upsertIntoChunk_get_other vd (calculateLODLevel cam vd) k' k _ hk]
      subst hck
      unfold getOrCreateChunk
      cases hgc : mapGet e.chunks (getChunkCoords vd.x vd.y vd.z) with
      | some c =>
        dsimp only
        rw [instAt_def, hgc, Option.some_bind]
      | none =>
        dsimp only
        rw [instAt_def, hgc]
        rfl
    · rw [if_neg hck]
      unfold getOrCreateChunk
      cases hgc : mapGet e.chunks (getChunkCoords vd.x vd.y vd.z) with
      | some c =>
        dsimp only
        rw [← instAt_def]
      | none =>
        dsimp only
        rw [mapGet_mapSet, if_neg hck, ← instAt_def]

end DVV

namespace DVV

/-- One entry of the `applyChanges` map walk: critical entries process
synchronously, distance-culled entries are skipped, the rest are queued. -/
def applyEntry (cam : Cam) (acc : Engine) (p : VoxelKey × VoxelData) :
    Engine :=
  if isCritical p.2.state then processVoxelUpdate cam acc p.1 (some p.2)
  else if shouldCullVoxel cam p.2 then acc
  else addToQueue acc p.1 (some p.2)

/-- The deletion-queuing prepass of `applyChanges`. -/
def queueDeletions (e : Engine) (m : JSMap VoxelKey VoxelData) : Engine :=
  (currentKeysOf e).foldl
    (fun acc k => if mapGet m k = none then addToQueue acc k none else acc) e

theorem updateVoxels_eq (cam : Cam) (e : Engine)
    (m : JSMap VoxelKey VoxelData) :
    updateVoxels cam e m = m.foldl (applyEntry cam) (queueDeletions e m) :=
  rfl

theorem foldApply_isFollowing (cam : Cam) (l : List (VoxelKey × VoxelData)) :
    ∀ a : Engine, (l.foldl (applyEntry cam) a).isFollowingEnabled =
      a.isFollowingEnabled := by
  induction l with
  | nil => exact fun a => rfl
  | cons p tl ih =>
    intro a
    rw [List.foldl_cons, ih (applyEntry cam a p)]
    unfold applyEntry
    split
    · exact processVoxelUpdate_isFollowing cam a p.1 (some p.2)
    · split
      · rfl
      · exact addToQueue_isFollowing a p.1 (some p.2)

theorem foldApply_cpk (cam : Cam) (l : List (VoxelKey × VoxelData)) :
    ∀ a : Engine, (∀ p ∈ l, ¬p.2.state = .CURRENT_POSITION) →
      (l.foldl (applyEntry cam) a).currentPositionKey =
        a.currentPositionKey := by
  induction l with
  | nil => exact fun a _ => rfl
  | cons p tl ih =>
    intro a hcp
    rw [List.foldl_cons,
      ih (applyEntry cam a p) (fun q hq => hcp q (List.mem_cons_of_mem p hq))]
    have hcpp := hcp p (List.mem_cons_self p tl)
    unfold applyEntry
    split
    · exact processUpsert_cpk_other cam a p.1 p.2 hcpp
    · split
      · rfl
      · exact addToQueue_cpk a p.1 (some p.2)

theorem foldApply_followT (cam : Cam) (l : List (VoxelKey × VoxelData)) :
    ∀ a : Engine, (∀ p ∈ l, ¬p.2.state = .CURRENT_POSITION) →
      (l.foldl (applyEntry cam) a).cameraFollowTarget =
        a.cameraFollowTarget := by
  induction l with
  | nil => exact fun a _ => rfl
  | cons p tl ih =>
    intro a hcp
    rw [List.foldl_cons,
      ih (applyEntry cam a p) (fun q hq => hcp q (List.mem_cons_of_mem p hq))]
    have hcpp := hcp p (List.mem_cons_self p tl)
    unfold applyEntry
    split
    · exact processUpsert_followT_other cam a p.1 p.2 hcpp
    · split
      · rfl
      · exact addToQueue_followT a p.1 (some p.2)

theorem foldApply_instAt (cam : Cam) (ck : ChunkKey) (k : VoxelKey)
    (l : List (VoxelKey × VoxelData)) :
    ∀ a : Engine, (∀ p ∈ l, ¬p.1 = k) →
      instAt (l.foldl (applyEntry cam) a) ck k = instAt a ck k := by
  induction l with
  | nil => exact fun a _ => rfl
  | cons p tl ih =>
    intro a hk
    rw [List.foldl_cons,
      ih (applyEntry cam a p) (fun q hq => hk q (List.mem_cons_of_mem p hq))]
    have hkp := hk p (List.mem_cons_self p tl)
    unfold applyEntry
    split
    · exact instAt_processUpsert_other cam a p.1 p.2 ck k hkp
    · split
      · rfl
      · exact instAt_congr_chunks _ a ck k (addToQueue_chunks a p.1 (some p.2))

theorem foldApply_queued (cam : Cam) (k : VoxelKey)
    (l : List (VoxelKey × VoxelData)) :
    ∀ a : Engine, k ∉ a.queuedKeys →
      (∀ p ∈ l, p.1 = k → isCritical p.2.state = true) →
      k ∉ (l.foldl (applyEntry cam) a).queuedKeys := by
  induction l with
  | nil => exact fun a ha _ => ha
  | cons p tl ih =>
    intro a ha hcrit
    rw [List.foldl_cons]
    refine ih (applyEntry cam a p) ?_
      (fun q hq hqk => hcrit q (List.mem_cons_of_mem p hq) hqk)
    unfold applyEntry
    split
    · rw [processVoxelUpdate_queuedKeys]
      exact ha
    · split
      · exact ha
      · intro hmem
        rcases mem_addToQueue_queuedKeys a p.1 (some p.2) k hmem with h1 | h2
        · exact ha h1
        · rename_i hncrit hncull
          exact hncrit (hcrit p (List.mem_cons_self p tl) h2.symm)

theorem foldDel_track (m : JSMap VoxelKey VoxelData) (l : List VoxelKey) :
    ∀ a : Engine,
      (l.foldl (fun acc kk =>
          if mapGet m kk = none then addToQueue acc kk none else acc)
        a).currentPositionKey = a.currentPositionKey ∧
      (l.foldl (fun acc kk =>
          if mapGet m kk = none then addToQueue acc kk none else acc)
        a).cameraFollowTarget = a.cameraFollowTarget ∧
      (l.foldl (fun acc kk =>
          if mapGet m kk = none then addToQueue acc kk none else acc)
        a).isFollowingEnabled = a.isFollowingEnabled := by
  induction l with
  | nil => exact fun a => ⟨rfl, rfl, rfl⟩
  | cons kk tl ih =>
    intro a
    rw [List.foldl_cons]
    obtain ⟨h1, h2, h3⟩ :=
      ih (if mapGet m kk = none then addToQueue a kk none else a)
    rw [h1, h2, h3]
    split
    · exact ⟨addToQueue_cpk a kk none, addToQueue_followT a kk none,
        addToQueue_isFollowing a kk none⟩
    · exact ⟨rfl, rfl, rfl⟩

theorem foldDel_queued (m : JSMap VoxelKey VoxelData) (k : VoxelKey)
    (hksome : ¬mapGet m k = none) (l : List VoxelKey) :
    ∀ a : Engine, k ∉ a.queuedKeys →
      k ∉ (l.foldl (fun acc kk =>
        if mapGet m kk = none then addToQueue acc kk none else acc)
        a).queuedKeys := by
  induction l with
  | nil => exact fun a ha => ha
  | cons kk tl ih =>
    intro a ha
    rw [List.foldl_cons]
    refine ih _ ?_
    split
    · rename_i hdel
      intro hmem
      rcases mem_addToQueue_queuedKeys a kk none k hmem with h1 | h2
      · exact ha h1
      · rw [h2] at hksome
        exact hksome hdel
    · exact ha

theorem nodup_key_unique {m : JSMap VoxelKey VoxelData} {k : VoxelKey}
    {vd : VoxelData} (hnd : (keysOf m).Nodup) (hm : (k, vd) ∈ m) :
    ∀ p ∈ m, p.1 = k → p = (k, vd) := by
  intro p hp hpk
  have h1 : mapGet m k = some vd := mapGet_eq_some_of_mem hnd hm
  have h2 : mapGet m p.1 = some p.2 :=
    mapGet_eq_some_of_mem hnd (by rwa [Prod.mk.eta])
  rw [hpk] at h2
  have h3 : p.2 = vd := Option.some.inj (h2.symm.trans h1)
  calc p = (p.1, p.2) := (Prod.mk.eta).symm
  _ = (k, vd) := by rw [hpk, h3]

end DVV

namespace DVV

/-- **C9**: a critical (CURRENT_POSITION / CURRENT_TARGET) entry of the
`applyChanges` map is applied synchronously during the call — upon return
its record is live in the owning chunk at HIGH LOD — and it bypasses the
queue (the call never enqueues its key); for the map's unique
CURRENT_POSITION entry, upon return the tracked current-position key is
exactly that key and, when camera-following is enabled, the follow target
equals the voxel's coordinates immediately. -/
theorem C9_synchronous_fast_path (cam : Cam) (e : Engine)
    (m : JSMap VoxelKey VoxelData) (k : VoxelKey) (vd : VoxelData)
    (hm : (k, vd) ∈ m) (hnd : (keysOf m).Nodup)
    (hcrit : isCritical vd.state = true) :
    (∃ i : Nat, instAt (updateVoxels cam e m)
        (getChunkCoords vd.x vd.y vd.z) k = some ⟨vd.state, i, .HIGH⟩) ∧
    (k ∉ e.queuedKeys → k ∉ (updateVoxels cam e m).queuedKeys) ∧
    (vd.state = .CURRENT_POSITION →
      (∀ p ∈ m, p.2.state = .CURRENT_POSITION → p = (k, vd)) →
      (updateVoxels cam e m).currentPositionKey = some k ∧
      (e.isFollowingEnabled = true →
        (updateVoxels cam e m).cameraFollowTarget = (vd.x, vd.y, vd.z))) := by
  have huniqk : ∀ p ∈ m, p.1 = k → p = (k, vd) := nodup_key_unique hnd hm
  have hgk : mapGet m k = some vd := mapGet_eq_some_of_mem hnd hm
  have happ : ∀ X : Engine,
      applyEntry cam X (k, vd) = processVoxelUpdate cam X k (some vd) := by
    intro X
    unfold applyEntry
    dsimp only
    rw [if_pos hcrit]
  obtain ⟨l1, l2, hsplit⟩ := List.append_of_mem hm
  subst hsplit
  have hkeys : keysOf (l1 ++ (k, vd) :: l2) =
      keysOf l1 ++ k :: keysOf l2 := by
    simp [keysOf]
  have hnd2 := hnd
  rw [hkeys] at hnd2
  have hknotl2 : k ∉ keysOf l2 :=
    (List.nodup_cons.mp (List.nodup_append.mp hnd2).2.1).1
  have hk2 : ∀ p ∈ l2, ¬p.1 = k := by
    intro p hp hpk
    exact hknotl2 (hpk ▸ List.mem_map_of_mem Prod.fst hp)
  refine ⟨?_, ?_, ?_⟩
  · obtain ⟨i, hi⟩ := instAt_processUpsert_self cam
      (List.foldl (applyEntry cam)
        (queueDeletions e (l1 ++ (k, vd) :: l2)) l1)
      k vd (critical_not_culled cam vd hcrit)
    rw [calculateLOD_critical cam vd hcrit] at hi
    refine ⟨i, ?_⟩
    rw [updateVoxels_eq, List.foldl_append, List.foldl_cons,
      foldApply_instAt cam (getChunkCoords vd.x vd.y vd.z) k l2 _ hk2,
      happ]
    exact hi
  · intro hq
    rw [updateVoxels_eq]
    refine foldApply_queued cam k (l1 ++ (k, vd) :: l2) _ ?_ ?_
    · exact foldDel_queued (l1 ++ (k, vd) :: l2) k
        (by rw [hgk]; exact fun hcon => Option.noConfusion hcon)
        (currentKeysOf e) e hq
    · intro p hp hpk
      rw [huniqk p hp hpk]
      exact hcrit
  · intro hcp huniqcp
    have hl2cp : ∀ p ∈ l2, ¬p.2.state = .CURRENT_POSITION := by
      intro p hp hpcp
      have hpe : p = (k, vd) := huniqcp p
        (List.mem_append_right l1 (List.mem_cons_of_mem (k, vd) hp)) hpcp
      exact hk2 p hp (by rw [hpe])
    obtain ⟨hself1, hself2⟩ := processUpsert_cpk_self cam
      (List.foldl (applyEntry cam)
        (queueDeletions e (l1 ++ (k, vd) :: l2)) l1)
      k vd hcp
    constructor
    · rw [updateVoxels_eq, List.foldl_append, List.foldl_cons,
        foldApply_cpk cam l2 _ hl2cp, happ]
      exact hself1
    · intro hfob
      have hf : (List.foldl (applyEntry cam)
          (queueDeletions e (l1 ++ (k, vd) :: l2)) l1).isFollowingEnabled
          = true := by
        rw [foldApply_isFollowing cam l1]
        exact ((foldDel_track (l1 ++ (k, vd) :: l2)
          (currentKeysOf e) e).2.2).trans hfob
      rw [updateVoxels_eq, List.foldl_append, List.foldl_cons,
        foldApply_followT cam l2 _ hl2cp, happ, hself2, if_pos hf]

end DVV

namespace DVV

def c9cam : Cam := (0, 0, 0)

def c9k : VoxelKey := (0, 0, 1)

def c9vd : VoxelData := ⟨0, 0, 1, .CURRENT_POSITION⟩

def c9m : JSMap VoxelKey VoxelData := [(c9k, c9vd)]

/-- **C9** witness: the fast-path law applied to a one-entry map holding a
CURRENT_POSITION voxel, starting from the fresh engine. -/
theorem C9_witness :
    (c9k, c9vd) ∈ c9m ∧ (keysOf c9m).Nodup ∧
    isCritical c9vd.state = true ∧
    (updateVoxels c9cam initialEngine c9m).currentPositionKey = some c9k ∧
    (updateVoxels c9cam initialEngine c9m).cameraFollowTarget =
      (c9vd.x, c9vd.y, c9vd.z) := by
  have h := C9_synchronous_fast_path c9cam initialEngine c9m c9k c9vd
    (List.mem_singleton.mpr rfl) (by decide) rfl
  have h3 := h.2.2 rfl (fun p hp _ => List.mem_singleton.mp hp)
  exact ⟨List.mem_singleton.mpr rfl, by decide, rfl, h3.1, h3.2 rfl⟩

end DVV

namespace DVV

/-! ## C2: live-set synchronization after one ingest and a full drain -/

/-- Map entries the `applyChanges` walk queues: non-critical, not
distance-culled. -/
def entryPending (cam : Cam) (p : VoxelKey × VoxelData) : Bool :=
  !isCritical p.2.state && !shouldCullVoxel cam p.2

/-- The queue contents produced by walking these map entries in order. -/
def pendingOf (cam : Cam) (l : List (VoxelKey × VoxelData)) :
    List (VoxelKey × Option VoxelData) :=
  (l.filter (entryPending cam)).map (fun p => (p.1, some p.2))

theorem mem_pendingOf (cam : Cam) (l : List (VoxelKey × VoxelData))
    (x : VoxelKey × Option VoxelData) :
    x ∈ pendingOf cam l ↔
      ∃ p ∈ l, entryPending cam p = true ∧ x = (p.1, some p.2) := by
  unfold pendingOf
  simp only [List.mem_map, List.mem_filter]
  constructor
  · rintro ⟨p, ⟨hp, hpe⟩, hx⟩
    exact ⟨p, hp, hpe, hx.symm⟩
  · rintro ⟨p, hp, hpe, hx⟩
    exact ⟨p, ⟨hp, hpe⟩, hx.symm⟩

theorem queueKeys_pendingOf (cam : Cam) (l : List (VoxelKey × VoxelData)) :
    queueKeys (pendingOf cam l) = (l.filter (entryPending cam)).map Prod.fst := by
  unfold pendingOf queueKeys
  rw [List.map_map]
  rfl

theorem nodup_queueKeys_pendingOf (cam : Cam)
    (l : List (VoxelKey × VoxelData)) (h : (l.map Prod.fst).Nodup) :
    (queueKeys (pendingOf cam l)).Nodup := by
  rw [queueKeys_pendingOf]
  exact List.Sublist.nodup (List.Sublist.map _ (List.filter_sublist l)) h

theorem addToQueue_append (e : Engine) (k : VoxelKey) (vd : Option VoxelData)
    (hk : k ∉ e.queuedKeys)
    (hlen : e.voxelUpdateQueue.length < MAX_QUEUE_SIZE) :
    (addToQueue e k vd).voxelUpdateQueue =
      e.voxelUpdateQueue ++ [(k, vd)] ∧
    (addToQueue e k vd).queuedKeys = e.queuedKeys ++ [k] := by
  unfold addToQueue
  rw [if_neg hk]
  dsimp only
  rw [if_neg (show ¬e.voxelUpdateQueue.length ≥ MAX_QUEUE_SIZE by omega)]
  refine ⟨rfl, ?_⟩
  show setAdd e.queuedKeys k = e.queuedKeys ++ [k]
  unfold setAdd
  rw [if_neg hk]

theorem foldApply_queue_eq (cam : Cam) (l : List (VoxelKey × VoxelData)) :
    ∀ a : Engine,
      a.queuedKeys = queueKeys a.voxelUpdateQueue →
      (∀ p ∈ l, p.1 ∉ a.queuedKeys) →
      (l.map Prod.fst).Nodup →
      a.voxelUpdateQueue.length + l.length ≤ MAX_QUEUE_SIZE →
      (l.foldl (applyEntry cam) a).voxelUpdateQueue =
        a.voxelUpdateQueue ++ pendingOf cam l ∧
      (l.foldl (applyEntry cam) a).queuedKeys =
        a.queuedKeys ++ queueKeys (pendingOf cam l) := by
  induction l with
  | nil =>
    intro a _ _ _ _
    exact ⟨by simp [pendingOf], by simp [pendingOf, queueKeys]⟩
  | cons p tl ih =>
    intro a hqk hnew hnd hlen
    rw [List.foldl_cons]
    rw [List.map_cons] at hnd
    have hndc := List.nodup_cons.mp hnd
    cases hcrit : isCritical p.2.state with
    | true =>
      have happ : applyEntry cam a p =
          processVoxelUpdate cam a p.1 (some p.2) := by
        simp [applyEntry, hcrit]
      have hpend : pendingOf cam (p :: tl) = pendingOf cam tl := by
        unfold pendingOf
        rw [List.filter_cons_of_neg (by simp [entryPending, hcrit])]
      rw [happ, hpend]
      have hres := ih (processVoxelUpdate cam a p.1 (some p.2))
        (by rw [processVoxelUpdate_queuedKeys, processVoxelUpdate_queue]
            exact hqk)
        (fun q hq => by
          rw [processVoxelUpdate_queuedKeys]
          exact hnew q (List.mem_cons_of_mem p hq))
        hndc.2
        (by rw [processVoxelUpdate_queue]
            simp only [List.length_cons] at hlen
            omega)
      rw [processVoxelUpdate_queue, processVoxelUpdate_queuedKeys] at hres
      exact hres
    | false =>
      cases hcul : shouldCullVoxel cam p.2 with
      | true =>
        have happ : applyEntry cam a p = a := by
          simp [applyEntry, hcrit, hcul]
        have hpend : pendingOf cam (p :: tl) = pendingOf cam tl := by
          unfold pendingOf
          rw [List.filter_cons_of_neg (by simp [entryPending, hcrit, hcul])]
        rw [happ, hpend]
        exact ih a hqk (fun q hq => hnew q (List.mem_cons_of_mem p hq))
          hndc.2
          (by simp only [List.length_cons] at hlen; omega)
      | false =>
        have happ : applyEntry cam a p = addToQueue a p.1 (some p.2) := by
          simp [applyEntry, hcrit, hcul]
        obtain ⟨ha1, ha2⟩ := addToQueue_append a p.1 (some p.2)
          (hnew p (List.mem_cons_self p tl))
          (by simp only [List.length_cons] at hlen
              unfold MAX_QUEUE_SIZE at hlen ⊢
              omega)
        have hpend : pendingOf cam (p :: tl) =
            (p.1, some p.2) :: pendingOf cam tl := by
          unfold pendingOf
          rw [List.filter_cons_of_pos (by simp [entryPending, hcrit, hcul]),
            List.map_cons]
        have hres := ih (addToQueue a p.1 (some p.2))
          (by rw [ha1, ha2, hqk]
              simp [queueKeys])
          (fun q hq => by
            rw [ha2]
            intro hmem
            rcases List.mem_append.mp hmem with h1 | h2
            · exact hnew q (List.mem_cons_of_mem p hq) h1
            · have hq1 : q.1 = p.1 := List.mem_singleton.mp h2
              exact hndc.1 (hq1 ▸ List.mem_map_of_mem Prod.fst hq))
          hndc.2
          (by rw [ha1]
              simp only [List.length_cons, List.length_append,
                List.length_nil] at hlen ⊢
              omega)
        rw [happ]
        obtain ⟨hc1, hc2⟩ := hres
        constructor
        · rw [hc1, ha1, hpend]
          simp
        · rw [hc2, ha2, hpend]
          simp [queueKeys]

end DVV

namespace DVV

/-- An upsert touches no chunk other than the one owning the voxel's
coordinates. -/
theorem instAt_processUpsert_chunk_other (cam : Cam) (e : Engine)
    (k' : VoxelKey) (vd : VoxelData) (ck : ChunkKey) (k : VoxelKey)
    (hck : ¬getChunkCoords vd.x vd.y vd.z = ck) :
    instAt (processVoxelUpdate cam e k' (some vd)) ck k = instAt e ck k := by
  by_cases hc : calculateLODLevel cam vd = .CULLED
  · rw [show processVoxelUpdate cam e k' (some vd) = e from by
      unfold processVoxelUpdate
      dsimp only
      rw [if_pos hc]]
  · rw [instAt_def, processUpsert_chunks cam e k' vd hc]
    dsimp only
    rw [mapGet_mapSet, if_neg hck]
    unfold getOrCreateChunk
    cases hgc : mapGet e.chunks (getChunkCoords vd.x vd.y vd.z) with
    | some c =>
      dsimp only
      rw [← instAt_def]
    | none =>
      dsimp only
      rw [mapGet_mapSet, if_neg hck, ← instAt_def]

/-- Draining a queue of coherent, non-culled upserts to empty: untouched
keys keep their records, every drained entry ends live in its owning chunk,
and no record ever appears in a foreign chunk. -/
theorem drainSteps_full (cam : Cam) :
    ∀ (q : List (VoxelKey × Option VoxelData)) (e : Engine),
      e.voxelUpdateQueue = q →
      (queueKeys q).Nodup →
      (∀ x ∈ q, ∃ vd : VoxelData, x.2 = some vd ∧ x.1 = (vd.x, vd.y, vd.z) ∧
        ¬calculateLODLevel cam vd = .CULLED) →
      (∀ k ck, k ∉ queueKeys q →
        instAt (drainSteps cam q.length e) ck k = instAt e ck k) ∧
      (∀ x ∈ q, ∀ vd : VoxelData, x.2 = some vd →
        ∃ i, instAt (drainSteps cam q.length e) (chunkOfKey x.1) x.1 =
          some ⟨vd.state, i, calculateLODLevel cam vd⟩) ∧
      (∀ k ck, ¬ck = chunkOfKey k → instAt e ck k = none →
        instAt (drainSteps cam q.length e) ck k = none) := by
  intro q
  induction q with
  | nil =>
    intro e hq _ _
    refine ⟨fun k ck _ => rfl, ?_, fun k ck _ h => h⟩
    intro x hx
    exact absurd hx (List.not_mem_nil x)
  | cons x q' ih =>
    intro e hq hnd hent
    obtain ⟨vd0, hx2, hx1, hxc⟩ := hent x (List.mem_cons_self x q')
    have hq2 : e.voxelUpdateQueue = (x.1, x.2) :: q' := by
      rw [Prod.mk.eta]
      exact hq
    have hstep : drainSteps cam ((x :: q').length) e =
        drainSteps cam q'.length
          (processVoxelUpdate cam
            { e with voxelUpdateQueue := q',
                     queuedKeys := setDelete e.queuedKeys x.1 } x.1 x.2) := by
      rw [List.length_cons]
      exact drainSteps_cons cam q'.length e x.1 x.2 q' hq2
    rw [queueKeys_cons] at hnd
    have hndc := List.nodup_cons.mp hnd
    have hq'eq : (processVoxelUpdate cam
        { e with voxelUpdateQueue := q',
                 queuedKeys := setDelete e.queuedKeys x.1 }
        x.1 x.2).voxelUpdateQueue = q' := by
      rw [processVoxelUpdate_queue]
    obtain ⟨ih1, ih2, ih3⟩ := ih (processVoxelUpdate cam
        { e with voxelUpdateQueue := q',
                 queuedKeys := setDelete e.queuedKeys x.1 } x.1 x.2)
      hq'eq hndc.2 (fun y hy => hent y (List.mem_cons_of_mem x hy))
    have hckx : chunkOfKey x.1 = getChunkCoords vd0.x vd0.y vd0.z := by
      rw [hx1]
      rfl
    refine ⟨?_, ?_, ?_⟩
    · intro k ck hk
      have hkx : ¬x.1 = k := by
        intro hh
        exact hk (by rw [queueKeys_cons, hh]; exact List.mem_cons_self k _)
      have hkq' : k ∉ queueKeys q' := by
        intro hh
        exact hk (by rw [queueKeys_cons]; exact List.mem_cons_of_mem x.1 hh)
      rw [hstep, ih1 k ck hkq']
      rw [show x.2 = some vd0 from hx2]
      rw [instAt_processUpsert_other cam _ x.1 vd0 ck k hkx]
      exact instAt_congr_chunks _ e ck k rfl
    · intro y hy vdy hy2
      rcases List.mem_cons.mp hy with hyx | hyq'
      · subst hyx
        have hvdy : vdy = vd0 := Option.some.inj (hy2.symm.trans hx2)
        subst hvdy
        obtain ⟨i, hi⟩ := instAt_processUpsert_self cam
          (Engine.mk e.chunks e.currentPositionKey e.currentTargetKey
            e.cameraFollowTarget e.isFollowingEnabled q'
            (setDelete e.queuedKeys y.1) e.lastCleanupTime) y.1 vdy hxc
        refine ⟨i, ?_⟩
        rw [hstep, ih1 y.1 (chunkOfKey y.1) hndc.1, hckx]
        rw [show y.2 = some vdy from hx2]
        exact hi
      · rw [hstep]
        exact ih2 y hyq' vdy hy2
    · intro k ck hckk hnone
      rw [hstep]
      refine ih3 k ck hckk ?_
      by_cases hkx : x.1 = k
      · rw [show x.2 = some vd0 from hx2]
        rw [instAt_processUpsert_chunk_other cam _ x.1 vd0 ck k
          (by rw [← hckx, hkx]; exact fun hh => hckk hh.symm)]
        exact (instAt_congr_chunks _ e ck k rfl).trans hnone
      · rw [show x.2 = some vd0 from hx2]
        rw [instAt_processUpsert_other cam _ x.1 vd0 ck k hkx]
        exact (instAt_congr_chunks _ e ck k rfl).trans hnone

end DVV

namespace DVV

theorem split_keys_nodup {l1 l2 : List (VoxelKey × VoxelData)} {k : VoxelKey}
    {vd : VoxelData} (hnd : (keysOf (l1 ++ (k, vd) :: l2)).Nodup) :
    (∀ p ∈ l1, ¬p.1 = k) ∧ (∀ p ∈ l2, ¬p.1 = k) := by
  have hkeys : keysOf (l1 ++ (k, vd) :: l2) =
      keysOf l1 ++ k :: keysOf l2 := by
    simp [keysOf]
  rw [hkeys] at hnd
  have h1 := (List.nodup_append.mp hnd).2.2
  have h2 := (List.nodup_cons.mp (List.nodup_append.mp hnd).2.1).1
  constructor
  · intro p hp hpk
    exact h1 (hpk ▸ List.mem_map_of_mem Prod.fst hp) (List.mem_cons_self k _)
  · intro p hp hpk
    exact h2 (hpk ▸ List.mem_map_of_mem Prod.fst hp)

/-- The per-key state of the engine right after the `applyChanges` walk on
the fresh engine: unknown keys and non-critical keys have no record;
critical keys have exactly one record, in their owning chunk, at HIGH. -/
theorem foldApply_fresh (cam : Cam) (m : JSMap VoxelKey VoxelData)
    (hnd : (keysOf m).Nodup)
    (hcoh : ∀ p ∈ m, p.1 = (p.2.x, p.2.y, p.2.z)) :
    (∀ k ck, k ∉ keysOf m →
      instAt (m.foldl (applyEntry cam) initialEngine) ck k = none) ∧
    (∀ k vd, (k, vd) ∈ m → isCritical vd.state = false →
      ∀ ck, instAt (m.foldl (applyEntry cam) initialEngine) ck k = none) ∧
    (∀ k vd, (k, vd) ∈ m → isCritical vd.state = true →
      (∀ ck, ¬ck = chunkOfKey k →
        instAt (m.foldl (applyEntry cam) initialEngine) ck k = none) ∧
      ∃ i, instAt (m.foldl (applyEntry cam) initialEngine) (chunkOfKey k) k =
        some ⟨vd.state, i, .HIGH⟩) := by
  refine ⟨?_, ?_, ?_⟩
  · intro k ck hk
    rw [foldApply_instAt cam ck k m initialEngine
      (fun p hp hpk => hk (hpk ▸ List.mem_map_of_mem Prod.fst hp))]
    rfl
  · intro k vd hm hcrit ck
    obtain ⟨l1, l2, hsplit⟩ := List.append_of_mem hm
    subst hsplit
    obtain ⟨hk1, hk2⟩ := split_keys_nodup hnd
    rw [List.foldl_append, List.foldl_cons,
      foldApply_instAt cam ck k l2 _ hk2]
    have hmid : instAt (applyEntry cam
        (l1.foldl (applyEntry cam) initialEngine) (k, vd)) ck k =
        instAt (l1.foldl (applyEntry cam) initialEngine) ck k := by
      unfold applyEntry
      rw [if_neg (show ¬isCritical (k, vd).2.state = true by simp [hcrit])]
      split
      · rfl
      · exact instAt_congr_chunks _ _ ck k
          (addToQueue_chunks _ (k, vd).1 (some (k, vd).2))
    rw [hmid, foldApply_instAt cam ck k l1 initialEngine hk1]
    rfl
  · intro k vd hm hcrit
    obtain ⟨l1, l2, hsplit⟩ := List.append_of_mem hm
    subst hsplit
    obtain ⟨hk1, hk2⟩ := split_keys_nodup hnd
    have hkvd : k = (vd.x, vd.y, vd.z) :=
      hcoh (k, vd) (List.mem_append_right l1 (List.mem_cons_self (k, vd) l2))
    have hchunkeq : chunkOfKey k = getChunkCoords vd.x vd.y vd.z := by
      rw [hkvd]
      rfl
    have happm : applyEntry cam (l1.foldl (applyEntry cam) initialEngine)
        (k, vd) = processVoxelUpdate cam
          (l1.foldl (applyEntry cam) initialEngine) k (some vd) := by
      simp [applyEntry, hcrit]
    constructor
    · intro ck hck
      rw [List.foldl_append, List.foldl_cons,
        foldApply_instAt cam ck k l2 _ hk2, happm,
        instAt_processUpsert_chunk_other cam _ k vd ck k
          (fun hh => hck (hh.symm.trans hchunkeq.symm)),
        foldApply_instAt cam ck k l1 initialEngine hk1]
      rfl
    · have hnc := critical_not_culled cam vd hcrit
      obtain ⟨i, hi⟩ := instAt_processUpsert_self cam
        (l1.foldl (applyEntry cam) initialEngine) k vd hnc
      rw [calculateLOD_critical cam vd hcrit] at hi
      refine ⟨i, ?_⟩
      rw [List.foldl_append, List.foldl_cons,
        foldApply_instAt cam (chunkOfKey k) k l2 _ hk2, happm, hchunkeq]
      exact hi

end DVV

namespace DVV

/-- **C2** (amended): one `applyChanges` call on a fresh engine with
coordinate-coherent, duplicate-free keys, followed by one under-budget
drain pass emptying the queue: every live record sits in its key's owning
chunk and stems from a non-culled map entry with matching state and LOD;
every non-culled map entry is live; and no two live records share a key. -/
theorem C2_live_set_sync (cam : Cam) (m : JSMap VoxelKey VoxelData)
    (clock : Clock) (hnd : (keysOf m).Nodup)
    (hcoh : ∀ p ∈ m, p.1 = (p.2.x, p.2.y, p.2.z))
    (hlen : m.length ≤ MAX_QUEUE_SIZE)
    (hclk : ∀ u, clock u - clock 0 <
      effectiveBudget (updateVoxels cam initialEngine m)) :
    (∀ k ck i,
      instAt (processBatchedVoxelUpdates cam clock
        (updateVoxels cam initialEngine m)).engine ck k = some i →
      ck = chunkOfKey k ∧ ∃ vd, mapGet m k = some vd ∧
        ¬calculateLODLevel cam vd = .CULLED ∧ i.state = vd.state ∧
        i.lodLevel = calculateLODLevel cam vd) ∧
    (∀ k vd, mapGet m k = some vd → ¬calculateLODLevel cam vd = .CULLED →
      ∃ i, instAt (processBatchedVoxelUpdates cam clock
        (updateVoxels cam initialEngine m)).engine (chunkOfKey k) k =
        some ⟨vd.state, i, calculateLODLevel cam vd⟩) ∧
    (∀ k ck ck' i i',
      instAt (processBatchedVoxelUpdates cam clock
        (updateVoxels cam initialEngine m)).engine ck k = some i →
      instAt (processBatchedVoxelUpdates cam clock
        (updateVoxels cam initialEngine m)).engine ck' k = some i' →
      ck = ck' ∧ i = i') := by
  have he1 : updateVoxels cam initialEngine m =
      m.foldl (applyEntry cam) initialEngine := by
    rw [updateVoxels_eq]
    rfl
  obtain ⟨hq1, hqk1⟩ := foldApply_queue_eq cam m initialEngine rfl
    (fun p _ hmem => absurd hmem (List.not_mem_nil p.1))
    hnd
    (by show ([] : List (VoxelKey × Option VoxelData)).length + m.length ≤
          MAX_QUEUE_SIZE
        simpa using hlen)
  have hq1' : (m.foldl (applyEntry cam) initialEngine).voxelUpdateQueue =
      pendingOf cam m := by
    rw [hq1]
    rfl
  obtain ⟨M, hitems, hpc, hqueue, hreads, heng, hcomp⟩ :=
    processBatched_spec cam clock (updateVoxels cam initialEngine m)
  have hM : M = (pendingOf cam m).length := by
    rw [hcomp hclk, he1, hq1']
  have hentries : ∀ x ∈ pendingOf cam m, ∃ vd : VoxelData,
      x.2 = some vd ∧ x.1 = (vd.x, vd.y, vd.z) ∧
      ¬calculateLODLevel cam vd = .CULLED := by
    intro x hx
    obtain ⟨p, hp, hpe, hxe⟩ := (mem_pendingOf cam m x).mp hx
    simp only [entryPending, Bool.and_eq_true, Bool.not_eq_eq_eq_not,
      Bool.not_true] at hpe
    refine ⟨p.2, by rw [hxe], by rw [hxe]; exact hcoh p hp, ?_⟩
    have h2 := hpe.2
    simp only [shouldCullVoxel] at h2
    exact of_decide_eq_false h2
  obtain ⟨d1, d2, d3⟩ := drainSteps_full cam (pendingOf cam m)
    (updateVoxels cam initialEngine m)
    (by rw [he1]; exact hq1')
    (nodup_queueKeys_pendingOf cam m hnd)
    hentries
  have hinvD : EngineInv (drainSteps cam (pendingOf cam m).length
      (updateVoxels cam initialEngine m)) :=
    engineInv_drainSteps cam (pendingOf cam m).length
      (updateVoxels cam initialEngine m)
      (engineInv_updateVoxels cam initialEngine m engineInv_initial)
  have hbridge : ∀ ck k i,
      instAt (processBatchedVoxelUpdates cam clock
        (updateVoxels cam initialEngine m)).engine ck k = some i ↔
      instAt (drainSteps cam (pendingOf cam m).length
        (updateVoxels cam initialEngine m)) ck k = some i := by
    intro ck k i
    rw [heng, hM]
    split
    · exact ⟨instAt_cleanupEmpty_rev _ ck k i hinvD.chunkKeysNodup,
        instAt_cleanupEmpty _ ck k i hinvD.chunkKeysNodup⟩
    · exact Iff.rfl
  obtain ⟨f1, f2, f3⟩ := foldApply_fresh cam m hnd hcoh
  have hqsub : ∀ k, k ∈ queueKeys (pendingOf cam m) →
      ∃ p ∈ m, p.1 = k ∧ entryPending cam p = true := by
    intro k hk
    rw [queueKeys_pendingOf] at hk
    obtain ⟨p, hp, hp1⟩ := List.mem_map.mp hk
    have hpf := List.mem_filter.mp hp
    exact ⟨p, hpf.1, hp1, hpf.2⟩
  have hnotq_notmem : ∀ k, k ∉ keysOf m →
      k ∉ queueKeys (pendingOf cam m) := by
    intro k hk hmem
    obtain ⟨p, hp, hp1, _⟩ := hqsub k hmem
    exact hk (hp1 ▸ List.mem_map_of_mem Prod.fst hp)
  have hnotq_crit : ∀ k vd, (k, vd) ∈ m → isCritical vd.state = true →
      k ∉ queueKeys (pendingOf cam m) := by
    intro k vd hm hcrit hmem
    obtain ⟨p, hp, hp1, hpe⟩ := hqsub k hmem
    have hpeq := nodup_key_unique hnd hm p hp hp1
    rw [hpeq] at hpe
    simp [entryPending, hcrit] at hpe
  have hnotq_culled : ∀ k vd, (k, vd) ∈ m →
      calculateLODLevel cam vd = .CULLED →
      k ∉ queueKeys (pendingOf cam m) := by
    intro k vd hm hcul hmem
    obtain ⟨p, hp, hp1, hpe⟩ := hqsub k hmem
    have hpeq := nodup_key_unique hnd hm p hp hp1
    rw [hpeq] at hpe
    simp [entryPending, shouldCullVoxel, hcul] at hpe
  have hrecD : ∀ k vd, mapGet m k = some vd →
      ¬calculateLODLevel cam vd = .CULLED →
      ∃ i, instAt (drainSteps cam (pendingOf cam m).length
        (updateVoxels cam initialEngine m)) (chunkOfKey k) k =
        some ⟨vd.state, i, calculateLODLevel cam vd⟩ := by
    intro k vd hget hncul
    have hmem : (k, vd) ∈ m := mem_of_mapGet_eq_some hget
    cases hcrit : isCritical vd.state with
    | true =>
      obtain ⟨i, hi⟩ := (f3 k vd hmem hcrit).2
      refine ⟨i, ?_⟩
      rw [d1 k (chunkOfKey k) (hnotq_crit k vd hmem hcrit), he1, hi,
        calculateLOD_critical cam vd hcrit]
    | false =>
      have hpend : entryPending cam (k, vd) = true := by
        simp [entryPending, hcrit, shouldCullVoxel, hncul]
      have hx : ((k, some vd) : VoxelKey × Option VoxelData) ∈
          pendingOf cam m :=
        (mem_pendingOf cam m (k, some vd)).mpr ⟨(k, vd), hmem, hpend, rfl⟩
      obtain ⟨i, hi⟩ := d2 (k, some vd) hx vd rfl
      exact ⟨i, hi⟩
  have hA : ∀ k ck i,
      instAt (processBatchedVoxelUpdates cam clock
        (updateVoxels cam initialEngine m)).engine ck k = some i →
      ck = chunkOfKey k ∧ ∃ vd, mapGet m k = some vd ∧
        ¬calculateLODLevel cam vd = .CULLED ∧ i.state = vd.state ∧
        i.lodLevel = calculateLODLevel cam vd := by
    intro k ck i hsome
    have hD := (hbridge ck k i).mp hsome
    cases hget : mapGet m k with
    | none =>
      exfalso
      have hknot : k ∉ keysOf m := (mapGet_eq_none_iff m k).mp hget
      have h0 : instAt (drainSteps cam (pendingOf cam m).length
          (updateVoxels cam initialEngine m)) ck k = none := by
        rw [d1 k ck (hnotq_notmem k hknot), he1]
        exact f1 k ck hknot
      rw [h0] at hD
      exact Option.noConfusion hD
    | some vd =>
      have hmem := mem_of_mapGet_eq_some hget
      by_cases hncul : calculateLODLevel cam vd = .CULLED
      · exfalso
        have hcritf : isCritical vd.state = false := by
          cases hc : isCritical vd.state with
          | false => rfl
          | true =>
            exfalso
            have hh := calculateLOD_critical cam vd hc
            rw [hh] at hncul
            exact LODLevel.noConfusion hncul
        have h0 : instAt (drainSteps cam (pendingOf cam m).length
            (updateVoxels cam initialEngine m)) ck k = none := by
          rw [d1 k ck (hnotq_culled k vd hmem hncul), he1]
          exact f2 k vd hmem hcritf ck
        rw [h0] at hD
        exact Option.noConfusion hD
      · have hckeq : ck = chunkOfKey k := by
          by_contra hck
          have h0 : instAt (drainSteps cam (pendingOf cam m).length
              (updateVoxels cam initialEngine m)) ck k = none := by
            refine d3 k ck hck ?_
            rw [he1]
            cases hcrit : isCritical vd.state with
            | true => exact (f3 k vd hmem hcrit).1 ck hck
            | false => exact f2 k vd hmem hcrit ck
          rw [h0] at hD
          exact Option.noConfusion hD
        obtain ⟨i0, hi0⟩ := hrecD k vd hget hncul
        subst hckeq
        have hieq : (⟨vd.state, i0, calculateLODLevel cam vd⟩ :
            VoxelInstance) = i := Option.some.inj (hi0.symm.trans hD)
        refine ⟨rfl, vd, rfl, hncul, ?_, ?_⟩
        · rw [← hieq]
        · rw [← hieq]
  refine ⟨hA, ?_, ?_⟩
  · intro k vd hget hncul
    obtain ⟨i, hi⟩ := hrecD k vd hget hncul
    exact ⟨i, (hbridge (chunkOfKey k) k _).mpr hi⟩
  · intro k ck ck' i i' h1 h2
    have hc1 := (hA k ck i h1).1
    have hc2 := (hA k ck' i' h2).1
    have hcc : ck = ck' := hc1.trans hc2.symm
    subst hcc
    exact ⟨rfl, Option.some.inj (h1.symm.trans h2)⟩

end DVV

namespace DVV

def c2cam : Cam := (0, 0, 0)

def c2k : VoxelKey := (2000, 0, 0)

def c2vd : VoxelData := ⟨2000, 0, 0, .WALKABLE⟩

def c2m : JSMap VoxelKey VoxelData := [(c2k, c2vd)]

/-- **C2** counterexample: a map whose only entry is a non-null WALKABLE
voxel 2000 units away. The `applyChanges` walk classifies it CULLED and
skips it entirely, so after the call and an (empty) drain pass the engine
is untouched — its live key set is empty while the map's non-null key set
is not, although no housekeeping or ceiling-enforcement pass ever ran. -/
theorem C2_counterexample :
    mapGet c2m c2k = some c2vd ∧
    updateVoxels c2cam initialEngine c2m = initialEngine ∧
    (processBatchedVoxelUpdates c2cam (fun _ => 0)
      (updateVoxels c2cam initialEngine c2m)).engine = initialEngine ∧
    instAt (processBatchedVoxelUpdates c2cam (fun _ => 0)
      (updateVoxels c2cam initialEngine c2m)).engine
      (chunkOfKey c2k) c2k = none := by
  have h1 : updateVoxels c2cam initialEngine c2m = initialEngine := rfl
  refine ⟨rfl, h1, ?_, ?_⟩
  · rw [h1]
    rfl
  · rw [h1]
    rfl

def c2wk : VoxelKey := (1, 2, 3)

def c2wvd : VoxelData := ⟨1, 2, 3, .WALKABLE⟩

def c2wm : JSMap VoxelKey VoxelData := [(c2wk, c2wvd)]

/-- **C2** witness: the amended synchronization law applied to a one-entry
map holding a nearby WALKABLE voxel — after the call and a full drain under
a zero clock, the voxel is live in its owning chunk. -/
theorem C2_witness :
    (instAt (processBatchedVoxelUpdates c2cam (fun _ => 0)
      (updateVoxels c2cam initialEngine c2wm)).engine
      (chunkOfKey c2wk) c2wk).isSome = true := by
  obtain ⟨i, hi⟩ := (C2_live_set_sync c2cam c2wm (fun _ => 0) (by decide)
    (by decide) (by decide)
    (fun u => by
      show 0 - 0 < effectiveBudget (updateVoxels c2cam initialEngine c2wm)
      decide)).2.1 c2wk c2wvd (by decide) (by decide)
  rw [hi]
  rfl

end DVV
